import Mathlib

/-!
# Munkres (Hungarian) assignment solver: embedding and verification

Shallow embedding of `src/src/Munkres.cpp` / `src/include/Munkres.h`, and
proofs about it.

Modelling conventions
* `cv::Mat` is a record of its dimensions and a total cell function; only the
  cells inside the dimensions are storage.
* Cell values (`C`, `marked`) are integers (`Int`).  The two places where the
  source computes on cells, `C.row(i) -= v` in `step1` and
  `C.at<int>(i, j) += / -= minval` in `step6`, are given twice: `step1`,
  `step6`, `run_step`, `compute` compute exactly (the algorithm as long as no
  cell leaves the `int` range), and `step1_32`, `step6_32`, `run_step32`,
  `compute32` store every result as a 32-bit two's complement `int`
  (`wrap32`).  All other functions only compare and copy cells and are shared.
  The start value `1e9` of `find_smallest` is kept as it is.  Row, column and
  path indices are natural numbers.
* The sentinel `-1` returned by the `find_*` helpers is `none`.
* The unbounded `while` loops (`compute`, `step4`, `step5`) take a fuel
  argument and return `none` when it runs out; an access outside a buffer
  whose index is not fixed by a loop guard (`path`, and `marked` addressed
  through `path`) also yields `none`.  That a result is `some` is therefore
  proved, never assumed: see `Returns`.

Main results
* `run_step_spec`: every step preserves the invariant `Inv`, returns, and
  lowers the measure `mu`; `compute_loop_total`: the step loop ends with code 7.
* `reach_inv`: the invariant holds in every reachable state.
* `optimal_rows`, `optimal_cols`: in exact arithmetic the returned assignment
  is a cheapest one; on `int` cells it need not be (`over54_eval32`).
-/

namespace Munkres

/-! # Part I: definitions (embedding of the source, invariants, measures) -/

/-! ## Data model -/

/-- Dense matrix: the model of `cv::Mat`. -/
@[ext]
structure Mat (α : Type) where
  rows : Nat
  cols : Nat
  val : Nat → Nat → α

/-- Assignment `m.at<T>(i, j) = x`. -/
def Mat.set {α : Type} (m : Mat α) (i j : Nat) (x : α) : Mat α :=
  { m with val := fun a b => if a = i ∧ b = j then x else m.val a b }

/-- Bounds-checked assignment `m.at<T>(i, j) = x`. -/
def Mat.write {α : Type} (m : Mat α) (i j : Nat) (x : α) : Option (Mat α) :=
  if i < m.rows ∧ j < m.cols then some (m.set i j x) else none

/-- Assignment `v[k] = b` on a `std::vector<bool>`. -/
def setB (f : Nat → Bool) (k : Nat) (b : Bool) : Nat → Bool :=
  fun a => if a = k then b else f a

/-- The loop `for (int i = 0; i < n; i++) s = f(i, s)`. -/
def forLoop {σ : Type} : Nat → (Nat → σ → σ) → σ → σ
  | 0, _, s => s
  | k + 1, f, s => f k (forLoop k f s)

/-- The fields of the `Munkres` object (`Munkres.h`, lines 12-22). -/
@[ext]
structure State where
  C : Mat Int
  n : Nat
  Z0_r : Nat
  Z0_c : Nat
  original_length : Nat
  original_width : Nat
  row_covered : Nat → Bool
  col_covered : Nat → Bool
  path : Mat Nat
  marked : Mat Int

/-! ## Helpers of `Munkres.cpp` -/

/-- `Munkres::make_matrix`: an `n x n` matrix filled with `v`. -/
def make_matrix {α : Type} (n : Nat) (v : α) : Mat α :=
  { rows := n, cols := n, val := fun _ _ => v }

/-- `Munkres::pad_matrix`: a square matrix is cloned; otherwise a
`max_sz x max_sz` matrix is filled with `pad_value` and the input is copied
into its top-left block.  For a non-square input without rows or without
columns that block is empty and the copy is taken to change nothing; what
`cv::Mat::copyTo` does with an empty source is decided by the library, not by
this source. -/
def pad_matrix (matrix : Mat Int) (pad_value : Int) : Mat Int :=
  if matrix.cols = matrix.rows then matrix
  else
    let max_sz := max matrix.cols matrix.rows
    { rows := max_sz, cols := max_sz,
      val := fun i j =>
        if i < matrix.rows ∧ j < matrix.cols then matrix.val i j else pad_value }

/-- Minimum of row `i`, as computed by `cv::minMaxLoc(C.row(i), ...)`. -/
def row_min (C : Mat Int) (i : Nat) : Int :=
  forLoop (C.cols - 1) (fun j m => min m (C.val i (j + 1))) (C.val i 0)

/-- The row operation `C.row(i) -= v`, computed exactly (see `sub_row32`). -/
def sub_row (C : Mat Int) (i : Nat) (v : Int) : Mat Int :=
  { C with val := fun a b => if a = i ∧ b < C.cols then C.val a b - v else C.val a b }

/-- `Munkres::clear_covers`. -/
def clear_covers (s : State) : State :=
  forLoop s.n (fun i s =>
    { s with row_covered := setB s.row_covered i false,
             col_covered := setB s.col_covered i false }) s

/-- `Munkres::erase_primes`. -/
def erase_primes (s : State) : State :=
  forLoop s.n (fun i s =>
    forLoop s.n (fun j s =>
      if s.marked.val i j = 2 then { s with marked := s.marked.set i j 0 } else s) s) s

/-- A `for` loop over `0 .. n-1` that leaves at the first index satisfying `p`
and yields it (`none` for the initial `-1`). -/
def find_first (n : Nat) (p : Nat → Bool) : Option Nat :=
  forLoop n (fun j acc =>
    match acc with
    | some c => some c
    | none => if p j then some j else none) none

/-- `Munkres::find_star_in_row`. -/
def find_star_in_row (s : State) (row : Nat) : Option Nat :=
  find_first s.n (fun j => decide (s.marked.val row j = 1))

/-- `Munkres::find_star_in_col`. -/
def find_star_in_col (s : State) (col : Nat) : Option Nat :=
  find_first s.n (fun i => decide (s.marked.val i col = 1))

/-- `Munkres::find_prime_in_row`. -/
def find_prime_in_row (s : State) (row : Nat) : Option Nat :=
  find_first s.n (fun j => decide (s.marked.val row j = 2))

/-- `Munkres::find_a_zero`.  Both loops test their bound after the body, so
the bodies run for the indices `0 .. max(n,1)-1`; the pair `(row, col)` is
overwritten at every uncovered zero of the scanned row, and `done` stops the
outer loop after the first row in which one was seen. -/
def find_a_zero (s : State) : Option (Nat × Nat) :=
  (forLoop (max s.n 1) (fun i (st : Option (Nat × Nat) × Bool) =>
    if st.2 then st
    else
      forLoop (max s.n 1) (fun j (st : Option (Nat × Nat) × Bool) =>
        if s.C.val i j = 0 ∧ s.row_covered i = false ∧ s.col_covered j = false
        then (some (i, j), true) else st) st) (none, false)).1

/-- `Munkres::find_smallest`. -/
def find_smallest (s : State) : Int :=
  forLoop s.n (fun i minval =>
    forLoop s.n (fun j minval =>
      if s.row_covered i = false ∧ s.col_covered j = false then
        (if minval > s.C.val i j then s.C.val i j else minval)
      else minval) minval) 1000000000

/-- `Munkres::convert_path`; `none` when a path cell lies outside `marked`. -/
def convert_path (s : State) (count : Nat) : Option State :=
  forLoop (count + 1) (fun i acc =>
    match acc with
    | none => none
    | some s =>
      let r := s.path.val i 0
      let c := s.path.val i 1
      if r < s.marked.rows ∧ c < s.marked.cols then
        (if s.marked.val r c = 1 then some { s with marked := s.marked.set r c 0 }
         else some { s with marked := s.marked.set r c 1 })
      else none) (some s)

/-! ## The six steps -/

/-- `Munkres::step1`: subtract from every row its minimum; exact arithmetic
(see `step1_32`). -/
def step1 (s : State) : Int × State :=
  (2, { s with C := forLoop s.C.rows (fun i C => sub_row C i (row_min C i)) s.C })

/-- `Munkres::step2`: greedy initial starring, then `clear_covers`. -/
def step2 (s : State) : Int × State :=
  (3, clear_covers
    (forLoop s.n (fun i s =>
      forLoop s.n (fun j s =>
        if s.C.val i j = 0 ∧ s.col_covered j = false ∧ s.row_covered i = false then
          { s with marked := s.marked.set i j 1,
                   col_covered := setB s.col_covered j true,
                   row_covered := setB s.row_covered i true }
        else s) s) s))

/-- The two nested loops of `Munkres::step3`: cover the column of every star
and count the stars. -/
def step3_scan (s : State) : State × Int :=
  forLoop s.n (fun i (st : State × Int) =>
    forLoop s.n (fun j (st : State × Int) =>
      if st.1.marked.val i j = 1 then
        ({ st.1 with col_covered := setB st.1.col_covered j true }, st.2 + 1)
      else st) st) (s, 0)

/-- `Munkres::step3`. -/
def step3 (s : State) : Int × State :=
  let st := step3_scan s
  if st.2 ≥ (s.n : Int) then (7, st.1) else (4, st.1)

/-- `Munkres::step4`; one unit of fuel per iteration of `while (!done)`. -/
def step4 : Nat → State → Option (Int × State)
  | 0, _ => none
  | fuel + 1, s =>
    match find_a_zero s with
    | none => some (6, s)
    | some (row, col) =>
      let s1 := { s with marked := s.marked.set row col 2 }
      match find_star_in_row s1 row with
      | some star_col =>
        step4 fuel { s1 with row_covered := setB s1.row_covered row true,
                             col_covered := setB s1.col_covered star_col false }
      | none => some (5, { s1 with Z0_r := row, Z0_c := col })

/-- The `while (!done)` loop of `Munkres::step5`, started with `path[count]`
already written; one unit of fuel per iteration.  Yields the final state and
`count`. -/
def step5_loop : Nat → State → Nat → Option (State × Nat)
  | 0, _, _ => none
  | fuel + 1, s, count =>
    match find_star_in_col s (s.path.val count 1) with
    | none => some (s, count)
    | some row =>
      (s.path.write (count + 1) 0 row).bind fun p1 =>
      (p1.write (count + 1) 1 (p1.val count 1)).bind fun p2 =>
      (find_prime_in_row s (p2.val (count + 1) 0)).bind fun col =>
      (p2.write (count + 2) 0 (p2.val (count + 1) 0)).bind fun p3 =>
      (p3.write (count + 2) 1 col).bind fun p4 =>
      step5_loop fuel { s with path := p4 } (count + 2)

/-- `Munkres::step5`. -/
def step5 (fuel : Nat) (s : State) : Option (Int × State) :=
  (s.path.write 0 0 s.Z0_r).bind fun p0 =>
  (p0.write 0 1 s.Z0_c).bind fun p1 =>
  (step5_loop fuel { s with path := p1 } 0).bind fun r =>
  (convert_path r.1 r.2).bind fun s2 =>
  some (3, erase_primes (clear_covers s2))

/-- `Munkres::step6`, with `+=` and `-=` computed exactly (see `step6_32`). -/
def step6 (s : State) : Int × State :=
  let minval := find_smallest s
  (4, forLoop s.n (fun i s =>
        forLoop s.n (fun j s =>
          let s1 := if s.row_covered i = true
                    then { s with C := s.C.set i j (s.C.val i j + minval) } else s
          if s1.col_covered j = false
          then { s1 with C := s1.C.set i j (s1.C.val i j - minval) } else s1) s) s)

/-- `Munkres::run_step`, exact arithmetic in `step1` and `step6`. -/
def run_step (fuel : Nat) (step : Int) (s : State) : Option (Int × State) :=
  if step = 1 then some (step1 s)
  else if step = 2 then some (step2 s)
  else if step = 3 then some (step3 s)
  else if step = 4 then step4 fuel s
  else if step = 5 then step5 fuel s
  else if step = 6 then some (step6 s)
  else some (-1, s)

/-- The loop `while (true) { step = run_step(step); if (!(0 <= step <= 6)) break; }`
of `Munkres::compute`: `k` bounds the number of iterations, `fuel` is handed
to the inner loops.  Yields the last step code and the final state. -/
def compute_loop (fuel : Nat) : Nat → Int → State → Option (Int × State)
  | 0, _, _ => none
  | k + 1, step, s =>
    match run_step fuel step s with
    | none => none
    | some r =>
      if 0 ≤ r.1 ∧ r.1 ≤ 6 then compute_loop fuel k r.1 r.2 else some r

/-- The field assignments at the head of `Munkres::compute` (lines 24-33). -/
def compute_init (self : State) (cost_matrix : Mat Int) : State :=
  let C := pad_matrix cost_matrix 0
  let n := C.rows
  { self with
    C := C, n := n,
    original_length := cost_matrix.rows, original_width := cost_matrix.cols,
    row_covered := fun _ => false, col_covered := fun _ => false,
    Z0_r := 0, Z0_c := 0,
    path := make_matrix (n * 2) 0, marked := make_matrix n 0 }

/-- The result loop of `Munkres::compute` (lines 44-51). -/
def compute_results (s : State) : List (Nat × Nat) :=
  forLoop s.original_length (fun i results =>
    forLoop s.original_width (fun j results =>
      if s.marked.val i j = 1 then results ++ [(i, j)] else results) results) []

/-- `Munkres::compute` on an object whose fields hold `self`, exact arithmetic in
`step1` and `step6`. -/
def compute (self : State) (fuel : Nat) (cost_matrix : Mat Int) : Option (List (Nat × Nat)) :=
  match compute_loop fuel fuel 1 (compute_init self cost_matrix) with
  | none => none
  | some r => some (compute_results r.2)

/-! ## Star indicators -/

/-- Indicator of a star, as an integer. -/
def starInd (mk : Nat → Nat → Int) (i j : Nat) : Int := if mk i j = 1 then 1 else 0

/-- Number of starred cells of the `n x n` grid, as counted by `step3`. -/
def starCount (s : State) : Int :=
  ∑ i in Finset.range s.n, ∑ j in Finset.range s.n, starInd s.marked.val i j

/-! ## Uncovered cells -/

/-- Cell `(i, j)` lies in an uncovered row and an uncovered column. -/
def Uncov (s : State) (i j : Nat) : Prop :=
  s.row_covered i = false ∧ s.col_covered j = false

instance (s : State) (i j : Nat) : Decidable (Uncov s i j) := by
  unfold Uncov; infer_instance

/-! ## Uncovered zeros -/

/-- Cell `(i, j)` is an uncovered zero of the working matrix. -/
def UZero (s : State) (i j : Nat) : Prop :=
  s.C.val i j = 0 ∧ s.row_covered i = false ∧ s.col_covered j = false

instance (s : State) (i j : Nat) : Decidable (UZero s i j) := by
  unfold UZero; infer_instance

/-! ## Invariants of the state machine -/

/-- Fields that no step changes: the sizes. -/
structure Frame (s t : State) : Prop where
  n_eq : t.n = s.n
  ol_eq : t.original_length = s.original_length
  ow_eq : t.original_width = s.original_width
  C_rows : t.C.rows = s.C.rows
  C_cols : t.C.cols = s.C.cols
  marked_rows : t.marked.rows = s.marked.rows
  marked_cols : t.marked.cols = s.marked.cols
  path_rows : t.path.rows = s.path.rows
  path_cols : t.path.cols = s.path.cols

/-- All buffers have the sizes given to them by `compute`. -/
structure Shape (s : State) : Prop where
  C_rows : s.C.rows = s.n
  C_cols : s.C.cols = s.n
  marked_rows : s.marked.rows = s.n
  marked_cols : s.marked.cols = s.n
  path_rows : s.path.rows = s.n * 2
  path_cols : s.path.cols = s.n * 2

/-- The working matrix is non-negative and differs from the padded input `P`
by a row potential and a column potential. -/
structure Feasible (P : Nat → Nat → Int) (s : State) : Prop where
  nonneg : ∀ i j, i < s.n → j < s.n → 0 ≤ s.C.val i j
  dual : ∃ u v : Nat → Int, ∀ i j, i < s.n → j < s.n → s.C.val i j = P i j - u i - v j

/-- Mark grid: values in `{0,1,2}`, at most one star per row and per column,
stars and primes only on zeros of the working matrix. -/
structure Marks (s : State) : Prop where
  range : ∀ i j, i < s.n → j < s.n →
    s.marked.val i j = 0 ∨ s.marked.val i j = 1 ∨ s.marked.val i j = 2
  row_unique : ∀ i j j', i < s.n → j < s.n → j' < s.n →
    s.marked.val i j = 1 → s.marked.val i j' = 1 → j = j'
  col_unique : ∀ i i' j, i < s.n → i' < s.n → j < s.n →
    s.marked.val i j = 1 → s.marked.val i' j = 1 → i = i'
  zero : ∀ i j, i < s.n → j < s.n →
    s.marked.val i j = 1 ∨ s.marked.val i j = 2 → s.C.val i j = 0

/-- No mark and no cover: the state right after the initialisation. -/
structure Fresh (s : State) : Prop where
  marked : ∀ i j, s.marked.val i j = 0
  rows : ∀ i, s.row_covered i = false
  cols : ∀ j, s.col_covered j = false

/-- No cover and no prime: the state in which `step3` is entered. -/
structure Clean (s : State) : Prop where
  rows : ∀ i, i < s.n → s.row_covered i = false
  cols : ∀ j, j < s.n → s.col_covered j = false
  no_prime : ∀ i j, i < s.n → j < s.n → s.marked.val i j ≠ 2

/-- Number of covered rows. -/
def covCount (s : State) : Nat :=
  ((Finset.range s.n).filter (fun i => s.row_covered i = true)).card

/-- The cover/mark discipline between `step3` and the next `step5`. -/
structure Search (s : State) : Prop where
  col_star : ∀ j, j < s.n → s.col_covered j = true → ∃ i, i < s.n ∧ s.marked.val i j = 1
  star_cover : ∀ i j, i < s.n → j < s.n → s.marked.val i j = 1 →
    (s.row_covered i = true ↔ s.col_covered j = false)
  row_star : ∀ i, i < s.n → s.row_covered i = true → ∃ j, j < s.n ∧ s.marked.val i j = 1
  row_prime : ∀ i, i < s.n → s.row_covered i = true → ∃ j, j < s.n ∧ s.marked.val i j = 2
  prime_col : ∀ i j, i < s.n → j < s.n → s.marked.val i j = 2 → s.col_covered j = false
  rank : ∃ rank : Nat → Nat, (∀ i, i < s.n → s.row_covered i = true → rank i < covCount s) ∧
    ∀ i p i', i < s.n → p < s.n → i' < s.n → s.marked.val i p = 2 →
      s.row_covered i = true → s.marked.val i' p = 1 → rank i' < rank i
  free_row : ∃ i, i < s.n ∧ ∀ j, j < s.n → s.marked.val i j ≠ 1
  free_col : ∃ j, j < s.n ∧ ∀ i, i < s.n → s.marked.val i j ≠ 1

/-- In `step4` and `step6` every prime lies in a covered row. -/
def PrimeRows (s : State) : Prop :=
  ∀ i j, i < s.n → j < s.n → s.marked.val i j = 2 → s.row_covered i = true

/-- On entry to `step5`: `Z0` is a prime in an uncovered row without star,
every other prime lies in a covered row. -/
structure Z0ok (s : State) : Prop where
  r_lt : s.Z0_r < s.n
  c_lt : s.Z0_c < s.n
  prime : s.marked.val s.Z0_r s.Z0_c = 2
  row_free : s.row_covered s.Z0_r = false
  no_star : ∀ j, j < s.n → s.marked.val s.Z0_r j ≠ 1
  others : ∀ i j, i < s.n → j < s.n → s.marked.val i j = 2 →
    s.row_covered i = true ∨ (i = s.Z0_r ∧ j = s.Z0_c)

/-- Every row of the grid holds a star. -/
def Perfect (s : State) : Prop :=
  ∀ i, i < s.n → ∃ j, j < s.n ∧ s.marked.val i j = 1

/-- The invariant of the step loop of `compute` on input `M`, indexed by the
step code about to be executed. -/
structure Inv (M : Mat Int) (st : Int) (s : State) : Prop where
  shape : Shape s
  n_eq : s.n = (pad_matrix M 0).rows
  ol_eq : s.original_length = M.rows
  ow_eq : s.original_width = M.cols
  st1 : st = 1 → Fresh s ∧ ∀ i j, i < s.n → j < s.n → s.C.val i j = (pad_matrix M 0).val i j
  st2 : st = 2 → Fresh s ∧ Feasible (pad_matrix M 0).val s
  st3 : 3 ≤ st → Feasible (pad_matrix M 0).val s ∧ Marks s
  st3c : st = 3 → Clean s
  st46 : st = 4 ∨ st = 6 → Search s ∧ PrimeRows s
  st6 : st = 6 → ∀ i j, i < s.n → j < s.n → ¬ UZero s i j
  st5 : st = 5 → Search s ∧ Z0ok s
  st7 : st = 7 → Perfect s ∧ ∀ i j, i < s.n → j < s.n → s.marked.val i j ≠ 2
  code : 1 ≤ st ∧ st ≤ 7

/-! ## Loop invariant of `step2` -/

/-- Loop invariant of the starring loops of `step2`, started in `s0`. -/
structure Step2Inv (s0 t : State) : Prop where
  frame : Frame s0 t
  C_eq : t.C = s0.C
  range : ∀ i j, t.marked.val i j = 0 ∨ t.marked.val i j = 1
  star : ∀ i j, t.marked.val i j = 1 →
    i < t.n ∧ j < t.n ∧ t.row_covered i = true ∧ t.col_covered j = true ∧ t.C.val i j = 0
  row_unique : ∀ i j j', t.marked.val i j = 1 → t.marked.val i j' = 1 → j = j'
  col_unique : ∀ i i' j, t.marked.val i j = 1 → t.marked.val i' j = 1 → i = i'

/-! ## Counting stars -/

/-- Row `i` of the grid holds a star. -/
def HasStarRow (s : State) (i : Nat) : Prop := ∃ j, j < s.n ∧ s.marked.val i j = 1

/-- Column `j` of the grid holds a star. -/
def HasStarCol (s : State) (j : Nat) : Prop := ∃ i, i < s.n ∧ s.marked.val i j = 1

instance (s : State) (i : Nat) : Decidable (HasStarRow s i) := by
  unfold HasStarRow; infer_instance

instance (s : State) (j : Nat) : Decidable (HasStarCol s j) := by
  unfold HasStarCol; infer_instance

/-- Number of rows that hold a star. -/
def srCount (s : State) : Nat := ((Finset.range s.n).filter (fun i => HasStarRow s i)).card

/-- Number of columns that hold a star. -/
def scCount (s : State) : Nat := ((Finset.range s.n).filter (fun j => HasStarCol s j)).card

/-! ## Loop invariant of `step5` -/

/-- Invariant of the loop of `step5` at its head, with `count = 2 * k`: the
even path entries are primes, the odd ones stars, a star shares the column of
the prime before it and the row of the prime after it, and the rows of the
stars were covered in strictly decreasing order. -/
structure PathInv (s : State) (rank : Nat → Nat) (p : Mat Nat) (k : Nat) : Prop where
  rows : p.rows = s.n * 2
  cols : p.cols = s.n * 2
  z0r : p.val 0 0 = s.Z0_r
  z0c : p.val 0 1 = s.Z0_c
  prime : ∀ i, i ≤ k → p.val (2 * i) 0 < s.n ∧ p.val (2 * i) 1 < s.n ∧
    s.marked.val (p.val (2 * i) 0) (p.val (2 * i) 1) = 2
  star : ∀ i, i < k → p.val (2 * i + 1) 0 = p.val (2 * i + 2) 0 ∧
    p.val (2 * i + 1) 1 = p.val (2 * i) 1 ∧
    s.marked.val (p.val (2 * i + 1) 0) (p.val (2 * i + 1) 1) = 1
  covered : ∀ i, 1 ≤ i → i ≤ k → s.row_covered (p.val (2 * i) 0) = true
  decr : ∀ i j, 1 ≤ i → i < j → j ≤ k → rank (p.val (2 * j) 0) < rank (p.val (2 * i) 0)
  bound : k = 0 ∨ k + rank (p.val (2 * k) 0) ≤ covCount s

/-- The four path writes of one loop iteration. -/
def path_extend (p : Mat Nat) (k row col : Nat) : Mat Nat :=
  (((p.set (2 * k + 1) 0 row).set (2 * k + 1) 1 (p.val (2 * k) 1)).set
    (2 * k + 2) 0 row).set (2 * k + 2) 1 col

/-! ## Cells of the path -/

/-- Cell `(a, b)` is one of the first `K` path entries. -/
def OnPath (p : Mat Nat) (K a b : Nat) : Prop := ∃ m, m < K ∧ p.val m 0 = a ∧ p.val m 1 = b

/-! ## Stars after the augmentation -/

/-- The starred cells after `step5`: the primes of the path and the stars
outside the path. -/
def NewStar (s : State) (p : Mat Nat) (k a b : Nat) : Prop :=
  (OnPath p (2 * k + 1) a b ∧ s.marked.val a b = 2) ∨
  (¬ OnPath p (2 * k + 1) a b ∧ s.marked.val a b = 1)

/-! ## The termination measure -/

/-- Sum of the entries of the working matrix in uncovered rows and columns. -/
def uncovSum (s : State) : Nat :=
  ∑ i in Finset.range s.n, ∑ j in Finset.range s.n,
    if s.row_covered i = false ∧ s.col_covered j = false then (s.C.val i j).toNat else 0

/-- Termination measure of the step loop, ordered lexicographically: rows still
without star, rows still uncovered, uncovered sum, and the position inside a
`step4`/`step6` round. -/
def mu (st : Int) (s : State) : ℕ ×ₗ ℕ ×ₗ ℕ ×ₗ ℕ :=
  toLex
    (if st = 1 then 2 * s.n + 3 else if st = 2 then 2 * s.n + 2
      else if st = 3 then 2 * (s.n - srCount s) + 1 else 2 * (s.n - srCount s),
     toLex
      (if st = 4 ∨ st = 6 then s.n - covCount s + 1 else 0,
       toLex (if st = 4 ∨ st = 6 then uncovSum s else 0, if st = 4 then 1 else 0)))

/-! ## Result lists -/

/-- The starred cells of the top-left `ol x ow` block in row-major order. -/
def starList (mk : Nat → Nat → Int) (ol ow : Nat) : List (Nat × Nat) :=
  (List.range ol).flatMap fun i =>
    ((List.range ow).filter fun j => decide (mk i j = 1)).map fun j => (i, j)

/-- Row-major (lexicographic) order on cells. -/
def RowMajorLt (p q : Nat × Nat) : Prop := p.1 < q.1 ∨ (p.1 = q.1 ∧ p.2 < q.2)

/-! ## Reachable states -/

/-- The states at the step boundaries of `compute` on input `M`, each with the
code of the step about to run (or the code that ended the loop). -/
inductive Reach (self : State) (M : Mat Int) : Int → State → Prop where
  | init : Reach self M 1 (compute_init self M)
  | step {st : Int} {s : State} {fuel : Nat} {r : Int × State} :
      Reach self M st s → 0 ≤ st ∧ st ≤ 6 → run_step fuel st s = some r → Reach self M r.1 r.2

/-! ## Results of `compute` -/

/-- `compute`, called on an object in state `self` with matrix `M`, returns
`res`: every sufficient amount of fuel yields `res`, and no amount of fuel
yields anything else. -/
def Returns (self : State) (M : Mat Int) (res : List (Nat × Nat)) : Prop :=
  (∃ F, ∀ k, compute self (F + k) M = some res) ∧
  ∀ fuel, compute self fuel M = none ∨ compute self fuel M = some res

/-! ## Cost and the starred assignment -/

/-- Total cost, in the matrix `M`, of a list of cells. -/
def cost (M : Mat Int) (l : List (Nat × Nat)) : Int :=
  (l.map fun p => M.val p.1 p.2).sum

/-- Column of the star of row `i` (0 when the row holds none). -/
def starCol (s : State) (i : Nat) : Nat := (find_star_in_row s i).getD 0

/-- Row of the star of column `j` (0 when the column holds none). -/
def starRow (s : State) (j : Nat) : Nat := (find_star_in_col s j).getD 0

/-! ## Concrete inputs -/

/-- A freshly constructed object: `Z0_r` and `Z0_c` are 0 by their
initialisers, the matrices and vectors are empty. -/
def new_solver : State :=
  { C := make_matrix 0 0, n := 0, Z0_r := 0, Z0_c := 0, original_length := 0,
    original_width := 0, row_covered := fun _ => false, col_covered := fun _ => false,
    path := make_matrix 0 0, marked := make_matrix 0 0 }

/-- The `rows x cols` matrix whose rows are listed in `l`. -/
def ofRows (rows cols : Nat) (l : List (List Int)) : Mat Int :=
  { rows := rows, cols := cols, val := fun i j => (l.getD i []).getD j 0 }

/-- The cost matrix of `main.cpp`. -/
def main_cost : Mat Int :=
  ofRows 3 4 [[400, 150, 400, 1], [400, 450, 600, 2], [300, 225, 300, 3]]

/-- The matrix of scenario 3. -/
def scenario3 : Mat Int :=
  ofRows 3 3 [[400, 150, 400], [400, 450, 600], [300, 225, 300]]

/-- The matrix without rows and without columns. -/
def no_cells : Mat Int := ofRows 0 0 []

/-- A matrix whose first row holds two uncovered zeros when `step4` is entered. -/
def zeros_row : Mat Int := ofRows 3 3 [[0, 0, 0], [0, 1, 1], [0, 1, 1]]

/-- A matrix of 32-bit values whose uncovered entries exceed `1e9` when
`step6` is entered. -/
def big_gap : Mat Int := ofRows 2 2 [[0, 2000000000], [0, 2000000000]]

/-- State of `compute` on `M` at the first entry of `step3`. -/
def at_step3 (M : Mat Int) : State := (step2 (step1 (compute_init new_solver M)).2).2

/-- State of `compute` on `M` after the first `step3`. -/
def at_step4 (M : Mat Int) : State := (step3 (at_step3 M)).2

/-- Code and state of `compute` on `M` after the first `step4` (run with fuel 4). -/
def after_step4 (M : Mat Int) : Int × State := (step4 4 (at_step4 M)).getD (0, at_step4 M)

/-! ## States inside `step4` -/

/-- Value of an integer stored in a 32-bit two's complement `int`. -/
def wrap32 (x : Int) : Int := (x + 2147483648) % 4294967296 - 2147483648

/-- The row operation `C.row(i) -= v` on `int` cells. -/
def sub_row32 (C : Mat Int) (i : Nat) (v : Int) : Mat Int :=
  { C with val := fun a b => if a = i ∧ b < C.cols then wrap32 (C.val a b - v) else C.val a b }

/-- `Munkres::step1` on `int` cells. -/
def step1_32 (s : State) : Int × State :=
  (2, { s with C := forLoop s.C.rows (fun i C => sub_row32 C i (row_min C i)) s.C })

/-- `Munkres::step6` on `int` cells: `C.at<int>(i, j) += minval` and
`C.at<int>(i, j) -= minval` are 32-bit operations. -/
def step6_32 (s : State) : Int × State :=
  let minval := find_smallest s
  (4, forLoop s.n (fun i s =>
        forLoop s.n (fun j s =>
          let s1 := if s.row_covered i = true
                    then { s with C := s.C.set i j (wrap32 (s.C.val i j + minval)) } else s
          if s1.col_covered j = false
          then { s1 with C := s1.C.set i j (wrap32 (s1.C.val i j - minval)) } else s1) s) s)

/-- `Munkres::run_step` on `int` cells. -/
def run_step32 (fuel : Nat) (step : Int) (s : State) : Option (Int × State) :=
  if step = 1 then some (step1_32 s)
  else if step = 2 then some (step2 s)
  else if step = 3 then some (step3 s)
  else if step = 4 then step4 fuel s
  else if step = 5 then step5 fuel s
  else if step = 6 then some (step6_32 s)
  else some (-1, s)

/-- The step loop of `Munkres::compute` on `int` cells. -/
def compute_loop32 (fuel : Nat) : Nat → Int → State → Option (Int × State)
  | 0, _, _ => none
  | k + 1, step, s =>
    match run_step32 fuel step s with
    | none => none
    | some r =>
      if 0 ≤ r.1 ∧ r.1 ≤ 6 then compute_loop32 fuel k r.1 r.2 else some r

/-- `Munkres::compute` on `int` cells. -/
def compute32 (self : State) (fuel : Nat) (cost_matrix : Mat Int) :
    Option (List (Nat × Nat)) :=
  match compute_loop32 fuel fuel 1 (compute_init self cost_matrix) with
  | none => none
  | some r => some (compute_results r.2)

/-- The states at the step boundaries of `compute` on `int` cells. -/
inductive Reach32 (self : State) (M : Mat Int) : Int → State → Prop where
  | init : Reach32 self M 1 (compute_init self M)
  | step {st : Int} {s : State} {fuel : Nat} {r : Int × State} :
      Reach32 self M st s → 0 ≤ st ∧ st ≤ 6 → run_step32 fuel st s = some r →
      Reach32 self M r.1 r.2

/-- A `5 x 4` matrix of non-negative `int` values on which the 32-bit run
overflows and ends in an assignment that is not the cheapest. -/
def over54 : Mat Int :=
  ofRows 5 4 [[2147483647, 2147483647, 0, 0], [1, 0, 2147483647, 2147483647],
    [2147483647, 2147483647, 2147483647, 1], [2147483647, 1, 2147483647, 2147483647],
    [2147483647, 1, 1, 2147483647]]

/-- A `3 x 3` matrix of non-negative `int` values whose cell `(0, 1)` lies in
a covered row and a covered column when `step6` is entered for the first
time. -/
def near_max : Mat Int := ofRows 3 3 [[0, 2147483647, 0], [1, 0, 1], [1, 0, 1]]

/-- State of the 32-bit run of `compute` on `M` at the first entry of `step3`. -/
def at_step3_32 (M : Mat Int) : State := (step2 (step1_32 (compute_init new_solver M)).2).2

/-- State of the 32-bit run of `compute` on `M` after the first `step3`. -/
def at_step4_32 (M : Mat Int) : State := (step3 (at_step3_32 M)).2

/-- Code and state of the 32-bit run of `compute` on `M` after the first
`step4` (run with fuel 4). -/
def after_step4_32 (M : Mat Int) : Int × State :=
  (step4 4 (at_step4_32 M)).getD (0, at_step4_32 M)

/-! # Part II: theorems -/

/-! ## Loop lemmas -/

theorem forLoop_zero {σ : Type} (f : Nat → σ → σ) (s : σ) : forLoop 0 f s = s := rfl

theorem forLoop_succ {σ : Type} (k : Nat) (f : Nat → σ → σ) (s : σ) :
    forLoop (k + 1) f s = f k (forLoop k f s) := rfl

/-- Invariant rule for `forLoop`. -/
theorem forLoop_inv {σ : Type} (P : Nat → σ → Prop) (n : Nat) (f : Nat → σ → σ) (s : σ)
    (h0 : P 0 s) (hstep : ∀ k t, k < n → P k t → P (k + 1) (f k t)) :
    P n (forLoop n f s) := by
  induction n with
  | zero => exact h0
  | succ m ih =>
    rw [forLoop_succ]
    exact hstep m _ (Nat.lt_succ_self m)
      (ih (fun k t hk hp => hstep k t (Nat.lt_succ_of_lt hk) hp))

theorem find_first_succ (m : Nat) (p : Nat → Bool) :
    find_first (m + 1) p =
      match find_first m p with
      | some c => some c
      | none => if p m then some m else none := rfl

theorem find_first_spec (n : Nat) (p : Nat → Bool) :
    (∀ j, find_first n p = some j → j < n ∧ p j = true ∧ ∀ k, k < j → p k = false) ∧
    (find_first n p = none → ∀ k, k < n → p k = false) := by
  induction n with
  | zero =>
    constructor
    · intro j h; simp [find_first, forLoop] at h
    · intro _ k hk; omega
  | succ m ih =>
    rw [find_first_succ]
    cases h : find_first m p with
    | some c =>
      constructor
      · intro j hj
        simp only [Option.some.injEq] at hj
        subst hj
        have := ih.1 c h
        exact ⟨by omega, this.2⟩
      · intro hn; simp at hn
    | none =>
      have hall := ih.2 h
      by_cases hp : p m = true
      · simp only [hp, if_true]
        constructor
        · intro j hj
          simp only [Option.some.injEq] at hj
          subst hj
          exact ⟨by omega, hp, hall⟩
        · intro hn; simp at hn
      · simp only [hp]
        constructor
        · intro j hj; simp at hj
        · intro _ k hk
          rcases Nat.lt_succ_iff_lt_or_eq.mp hk with h1 | h1
          · exact hall k h1
          · subst h1; simpa using hp

theorem find_first_some {n : Nat} {p : Nat → Bool} {j : Nat} (h : find_first n p = some j) :
    j < n ∧ p j = true ∧ ∀ k, k < j → p k = false := (find_first_spec n p).1 j h

theorem find_first_none {n : Nat} {p : Nat → Bool} (h : find_first n p = none) :
    ∀ k, k < n → p k = false := (find_first_spec n p).2 h

theorem find_first_exists {n : Nat} {p : Nat → Bool} {k : Nat} (hk : k < n) (hp : p k = true) :
    ∃ j, find_first n p = some j := by
  cases h : find_first n p with
  | some j => exact ⟨j, rfl⟩
  | none => have := find_first_none h k hk; simp [hp] at this

/-! ## Closed forms of the simple loops -/

theorem clear_covers_loop (k : Nat) (s : State) :
    forLoop k (fun i s =>
      { s with row_covered := setB s.row_covered i false,
               col_covered := setB s.col_covered i false }) s =
      { s with row_covered := fun i => if i < k then false else s.row_covered i,
               col_covered := fun i => if i < k then false else s.col_covered i } := by
  induction k with
  | zero => rfl
  | succ m ih =>
    rw [forLoop_succ, ih]
    ext : 1 <;> try rfl
    all_goals (funext i; simp only [setB]; split_ifs <;> first | rfl | omega)

theorem clear_covers_eq (s : State) :
    clear_covers s =
      { s with row_covered := fun i => if i < s.n then false else s.row_covered i,
               col_covered := fun i => if i < s.n then false else s.col_covered i } :=
  clear_covers_loop s.n s

theorem erase_primes_row (i k : Nat) (s : State) :
    forLoop k (fun j s =>
      if s.marked.val i j = 2 then { s with marked := s.marked.set i j 0 } else s) s =
    { s with marked := { s.marked with val := fun a b =>
        if a = i ∧ b < k ∧ s.marked.val a b = 2 then 0 else s.marked.val a b } } := by
  induction k with
  | zero => simp [forLoop]
  | succ m ih =>
    rw [forLoop_succ, ih]
    have hm : ¬ (m < m) := lt_irrefl m
    by_cases h : s.marked.val i m = 2
    · simp only [hm, h, false_and, and_false, if_false, if_true, Mat.set]
      ext : 1 <;> try rfl
      ext : 1 <;> try rfl
      funext a b
      by_cases h1 : a = i <;> by_cases h2 : b = m <;> by_cases h3 : b < m <;>
        simp [h1, h2, h3, h] <;> omega
    · simp only [hm, h, false_and, and_false, if_false]
      ext : 1 <;> try rfl
      ext : 1 <;> try rfl
      funext a b
      by_cases h1 : a = i <;> by_cases h2 : b = m <;> by_cases h3 : b < m <;>
        simp [h1, h2, h3, h] <;> omega

theorem erase_primes_loop (k : Nat) (s : State) :
    forLoop k (fun i s =>
      forLoop s.n (fun j s =>
        if s.marked.val i j = 2 then { s with marked := s.marked.set i j 0 } else s) s) s =
    { s with marked := { s.marked with val := fun a b =>
        if a < k ∧ b < s.n ∧ s.marked.val a b = 2 then 0 else s.marked.val a b } } := by
  induction k with
  | zero => simp [forLoop]
  | succ m ih =>
    rw [forLoop_succ, ih, erase_primes_row]
    ext : 1 <;> try rfl
    ext : 1 <;> try rfl
    funext a b
    simp only []
    by_cases h1 : a = m <;> by_cases h2 : a < m <;> by_cases h3 : b < s.n <;>
      by_cases h4 : s.marked.val a b = 2 <;>
      simp [h1, h2, h3, h4] <;> omega

theorem erase_primes_eq (s : State) :
    erase_primes s =
    { s with marked := { s.marked with val := fun a b =>
        if a < s.n ∧ b < s.n ∧ s.marked.val a b = 2 then 0 else s.marked.val a b } } :=
  erase_primes_loop s.n s

/-! ## `step3_scan` -/

theorem step3_row (i k : Nat) (st : State × Int) :
    forLoop k (fun j (st : State × Int) =>
      if st.1.marked.val i j = 1 then
        ({ st.1 with col_covered := setB st.1.col_covered j true }, st.2 + 1)
      else st) st =
    ({ st.1 with col_covered := fun b =>
        if b < k ∧ st.1.marked.val i b = 1 then true else st.1.col_covered b },
     st.2 + ∑ j in Finset.range k, starInd st.1.marked.val i j) := by
  induction k with
  | zero => simp [forLoop]
  | succ m ih =>
    rw [forLoop_succ, ih, Finset.sum_range_succ]
    by_cases h : st.1.marked.val i m = 1
    · simp only [h, if_true, starInd]
      refine Prod.ext ?_ (by simp only [h, if_true]; ring)
      ext : 1 <;> try rfl
      funext b
      simp only [setB]
      rcases Nat.lt_trichotomy b m with h2 | h2 | h2
      · have h5 : b < m + 1 := by omega
        have h6 : b ≠ m := by omega
        simp [h2, h5, h6]
      · subst h2
        simp [h]
      · have h5 : ¬ b < m + 1 := by omega
        have h6 : b ≠ m := by omega
        have h7 : ¬ b < m := by omega
        simp [h5, h6, h7]
    · simp only [h, if_false, starInd]
      refine Prod.ext ?_ (by simp only [h, if_false]; ring)
      ext : 1 <;> try rfl
      funext b
      rcases Nat.lt_trichotomy b m with h2 | h2 | h2
      · have h5 : b < m + 1 := by omega
        have h6 : b ≠ m := by omega
        simp [h2, h5, h6]
      · subst h2
        simp [h]
      · have h5 : ¬ b < m + 1 := by omega
        have h6 : b ≠ m := by omega
        have h7 : ¬ b < m := by omega
        simp [h5, h6, h7]

theorem step3_loop (k : Nat) (s : State) :
    let r := forLoop k (fun i (st : State × Int) =>
      forLoop s.n (fun j (st : State × Int) =>
        if st.1.marked.val i j = 1 then
          ({ st.1 with col_covered := setB st.1.col_covered j true }, st.2 + 1)
        else st) st) (s, 0)
    r.1 = { s with col_covered := r.1.col_covered } ∧
    (∀ b, r.1.col_covered b = true ↔
      (s.col_covered b = true ∨ (b < s.n ∧ ∃ a, a < k ∧ s.marked.val a b = 1))) ∧
    r.2 = ∑ i in Finset.range k, ∑ j in Finset.range s.n, starInd s.marked.val i j := by
  induction k with
  | zero => simp [forLoop]
  | succ m ih =>
    simp only [forLoop_succ] at ih ⊢
    obtain ⟨h1, h2, h3⟩ := ih
    rw [step3_row]
    generalize forLoop m _ (s, (0 : Int)) = r at h1 h2 h3
    have hmk : r.1.marked = s.marked := by rw [h1]
    refine ⟨?_, ?_, ?_⟩
    · simp only []
      rw [h1]
    · intro b
      simp only [hmk]
      by_cases hb : b < s.n ∧ s.marked.val m b = 1
      · rw [if_pos hb]
        simp only [true_iff]
        exact Or.inr ⟨hb.1, m, Nat.lt_succ_self m, hb.2⟩
      · rw [if_neg hb, h2 b]
        constructor
        · rintro (h | ⟨hb1, a, ha, hab⟩)
          · exact Or.inl h
          · exact Or.inr ⟨hb1, a, Nat.lt_succ_of_lt ha, hab⟩
        · rintro (h | ⟨hb1, a, ha, hab⟩)
          · exact Or.inl h
          · rcases Nat.lt_succ_iff_lt_or_eq.mp ha with h4 | h4
            · exact Or.inr ⟨hb1, a, h4, hab⟩
            · subst h4; exact absurd ⟨hb1, hab⟩ hb
    · simp only [hmk]
      rw [h3, Finset.sum_range_succ]

theorem step3_scan_spec (s : State) :
    (step3_scan s).1 = { s with col_covered := (step3_scan s).1.col_covered } ∧
    (∀ b, (step3_scan s).1.col_covered b = true ↔
      (s.col_covered b = true ∨ (b < s.n ∧ ∃ a, a < s.n ∧ s.marked.val a b = 1))) ∧
    (step3_scan s).2 = starCount s :=
  step3_loop s.n s

/-! ## `step6` and `find_smallest` -/

theorem step6_row (v : Int) (i k : Nat) (s : State) :
    forLoop k (fun j s =>
      let s1 := if s.row_covered i = true
                then { s with C := s.C.set i j (s.C.val i j + v) } else s
      if s1.col_covered j = false
      then { s1 with C := s1.C.set i j (s1.C.val i j - v) } else s1) s =
    { s with C := { s.C with
      val := fun a b =>
        if a = i ∧ b < k then
          s.C.val a b + (if s.row_covered i = true then v else 0)
            - (if s.col_covered b = false then v else 0)
        else s.C.val a b } } := by
  induction k with
  | zero => simp [forLoop]
  | succ m ih =>
    rw [forLoop_succ, ih]
    have hm : ¬ (m < m) := lt_irrefl m
    cases hr : s.row_covered i <;> cases hc : s.col_covered m <;>
      simp only [hm, hr, hc, and_false, if_false, if_true, Mat.set, Bool.false_eq_true] <;>
      (ext : 1 <;> try rfl) <;> (ext : 1 <;> try rfl) <;> funext a b <;>
      (rcases Nat.lt_trichotomy b m with h2 | h2 | h2) <;>
      by_cases h1 : a = i
    all_goals first
      | (have h5 : b < m + 1 := by omega
         have h6 : b ≠ m := by omega
         simp [h1, h2, h5, h6, hr, hc])
      | (subst h2; simp [h1, hr, hc])
      | (have h5 : ¬ b < m + 1 := by omega
         have h6 : b ≠ m := by omega
         have h7 : ¬ b < m := by omega
         simp [h1, h5, h6, h7, hr, hc])

theorem step6_loop (v : Int) (k : Nat) (s : State) :
    forLoop k (fun i s =>
      forLoop s.n (fun j s =>
        let s1 := if s.row_covered i = true
                  then { s with C := s.C.set i j (s.C.val i j + v) } else s
        if s1.col_covered j = false
        then { s1 with C := s1.C.set i j (s1.C.val i j - v) } else s1) s) s =
    { s with C := { s.C with
      val := fun a b =>
        if a < k ∧ b < s.n then
          s.C.val a b + (if s.row_covered a = true then v else 0)
            - (if s.col_covered b = false then v else 0)
        else s.C.val a b } } := by
  induction k with
  | zero => simp [forLoop]
  | succ m ih =>
    rw [forLoop_succ, ih, step6_row]
    ext : 1 <;> try rfl
    ext : 1 <;> try rfl
    funext a b
    simp only []
    rcases Nat.lt_trichotomy a m with h2 | h2 | h2
    · have h5 : a < m + 1 := by omega
      have h6 : a ≠ m := by omega
      simp [h2, h5, h6]
    · subst h2
      simp
    · have h5 : ¬ a < m + 1 := by omega
      have h6 : a ≠ m := by omega
      have h7 : ¬ a < m := by omega
      simp [h5, h6, h7]

theorem step6_eq (s : State) :
    step6 s = (4, { s with C := { s.C with
      val := fun a b =>
        if a < s.n ∧ b < s.n then
          s.C.val a b + (if s.row_covered a = true then find_smallest s else 0)
            - (if s.col_covered b = false then find_smallest s else 0)
        else s.C.val a b } }) := by
  unfold step6
  simp only []
  rw [step6_loop]

theorem find_smallest_row (s : State) (i k : Nat) (m0 : Int) :
    let m := forLoop k (fun j minval =>
      if s.row_covered i = false ∧ s.col_covered j = false then
        (if minval > s.C.val i j then s.C.val i j else minval)
      else minval) m0
    m ≤ m0 ∧ (∀ j, j < k → Uncov s i j → m ≤ s.C.val i j) ∧
    (m = m0 ∨ ∃ j, j < k ∧ Uncov s i j ∧ m = s.C.val i j) := by
  induction k with
  | zero => simp [forLoop]
  | succ q ih =>
    simp only [forLoop_succ] at ih ⊢
    generalize forLoop q _ m0 = m at ih
    obtain ⟨h1, h2, h3⟩ := ih
    by_cases hu : s.row_covered i = false ∧ s.col_covered q = false
    · rw [if_pos hu]
      by_cases hlt : m > s.C.val i q
      · rw [if_pos hlt]
        refine ⟨by omega, ?_, Or.inr ⟨q, Nat.lt_succ_self q, hu, rfl⟩⟩
        intro j hj huj
        rcases Nat.lt_succ_iff_lt_or_eq.mp hj with h | h
        · have := h2 j h huj; omega
        · subst h; exact le_refl _
      · rw [if_neg hlt]
        refine ⟨h1, ?_, ?_⟩
        · intro j hj huj
          rcases Nat.lt_succ_iff_lt_or_eq.mp hj with h | h
          · exact h2 j h huj
          · subst h; omega
        · rcases h3 with h | ⟨j, hj, huj, hm⟩
          · exact Or.inl h
          · exact Or.inr ⟨j, Nat.lt_succ_of_lt hj, huj, hm⟩
    · rw [if_neg hu]
      refine ⟨h1, ?_, ?_⟩
      · intro j hj huj
        rcases Nat.lt_succ_iff_lt_or_eq.mp hj with h | h
        · exact h2 j h huj
        · subst h; exact absurd huj hu
      · rcases h3 with h | ⟨j, hj, huj, hm⟩
        · exact Or.inl h
        · exact Or.inr ⟨j, Nat.lt_succ_of_lt hj, huj, hm⟩

theorem find_smallest_loop (s : State) (n k : Nat) :
    let m := forLoop k (fun i minval =>
      forLoop n (fun j minval =>
        if s.row_covered i = false ∧ s.col_covered j = false then
          (if minval > s.C.val i j then s.C.val i j else minval)
        else minval) minval) 1000000000
    m ≤ 1000000000 ∧ (∀ i j, i < k → j < n → Uncov s i j → m ≤ s.C.val i j) ∧
    (m = 1000000000 ∨ ∃ i j, i < k ∧ j < n ∧ Uncov s i j ∧ m = s.C.val i j) := by
  induction k with
  | zero => simp [forLoop]
  | succ q ih =>
    simp only [forLoop_succ] at ih ⊢
    generalize forLoop q _ (1000000000 : Int) = m at ih
    obtain ⟨h1, h2, h3⟩ := ih
    obtain ⟨g1, g2, g3⟩ := find_smallest_row s q n m
    generalize forLoop n _ m = m1 at g1 g2 g3
    refine ⟨by omega, ?_, ?_⟩
    · intro i j hi hj hu
      rcases Nat.lt_succ_iff_lt_or_eq.mp hi with h | h
      · have := h2 i j h hj hu; omega
      · subst h; exact g2 j hj hu
    · rcases g3 with g | ⟨j, hj, hu, hm⟩
      · rcases h3 with h | ⟨i, j, hi, hj, hu, hm⟩
        · left; omega
        · exact Or.inr ⟨i, j, Nat.lt_succ_of_lt hi, hj, hu, by omega⟩
      · exact Or.inr ⟨q, j, Nat.lt_succ_self q, hj, hu, hm⟩

/-- The value of `find_smallest`: at most `10^9`, a lower bound of all
uncovered cells, and either `10^9` or the value of an uncovered cell. -/
theorem find_smallest_spec (s : State) :
    find_smallest s ≤ 1000000000 ∧
    (∀ i j, i < s.n → j < s.n → Uncov s i j → find_smallest s ≤ s.C.val i j) ∧
    (find_smallest s = 1000000000 ∨
      ∃ i j, i < s.n ∧ j < s.n ∧ Uncov s i j ∧ find_smallest s = s.C.val i j) :=
  find_smallest_loop s s.n s.n

/-! ## `find_a_zero` -/

theorem find_a_zero_row (s : State) (i k : Nat) (st : Option (Nat × Nat) × Bool) :
    let r := forLoop k (fun j (st : Option (Nat × Nat) × Bool) =>
        if s.C.val i j = 0 ∧ s.row_covered i = false ∧ s.col_covered j = false
        then (some (i, j), true) else st) st
    (r = st ∧ ∀ j, j < k → ¬ UZero s i j) ∨
    (∃ b, b < k ∧ UZero s i b ∧ (∀ j, b < j → j < k → ¬ UZero s i j) ∧
      r = (some (i, b), true)) := by
  induction k with
  | zero => simp [forLoop]
  | succ q ih =>
    simp only [forLoop_succ] at ih ⊢
    generalize forLoop q _ st = r at ih
    by_cases hz : s.C.val i q = 0 ∧ s.row_covered i = false ∧ s.col_covered q = false
    · rw [if_pos hz]
      exact Or.inr ⟨q, Nat.lt_succ_self q, hz, fun j h1 h2 => by omega, rfl⟩
    · rw [if_neg hz]
      rcases ih with ⟨h1, h2⟩ | ⟨b, hb, hzb, hlast, hr⟩
      · refine Or.inl ⟨h1, ?_⟩
        intro j hj
        rcases Nat.lt_succ_iff_lt_or_eq.mp hj with h | h
        · exact h2 j h
        · subst h; exact hz
      · refine Or.inr ⟨b, Nat.lt_succ_of_lt hb, hzb, ?_, hr⟩
        intro j h1 h2
        rcases Nat.lt_succ_iff_lt_or_eq.mp h2 with h | h
        · exact hlast j h1 h
        · subst h; exact hz

theorem find_a_zero_loop (s : State) (K k : Nat) :
    let r := forLoop k (fun i (st : Option (Nat × Nat) × Bool) =>
      if st.2 then st
      else
        forLoop K (fun j (st : Option (Nat × Nat) × Bool) =>
          if s.C.val i j = 0 ∧ s.row_covered i = false ∧ s.col_covered j = false
          then (some (i, j), true) else st) st) (none, false)
    (r = (none, false) ∧ ∀ a j, a < k → j < K → ¬ UZero s a j) ∨
    (∃ a b, a < k ∧ b < K ∧ UZero s a b ∧ (∀ a' j, a' < a → j < K → ¬ UZero s a' j) ∧
      (∀ j, b < j → j < K → ¬ UZero s a j) ∧ r = (some (a, b), true)) := by
  induction k with
  | zero => simp [forLoop]
  | succ q ih =>
    simp only [forLoop_succ] at ih ⊢
    generalize forLoop q _ ((none : Option (Nat × Nat)), false) = r at ih
    rcases ih with ⟨h1, h2⟩ | ⟨a, b, ha, hb, hz, hfirst, hlast, hr⟩
    · subst h1
      simp only [Bool.false_eq_true, if_false]
      rcases find_a_zero_row s q K (none, false) with ⟨g1, g2⟩ | ⟨b, hb, hzb, hlast, hr⟩
      · refine Or.inl ⟨g1, ?_⟩
        intro a j ha hj
        rcases Nat.lt_succ_iff_lt_or_eq.mp ha with h | h
        · exact h2 a j h hj
        · subst h; exact g2 j hj
      · exact Or.inr ⟨q, b, Nat.lt_succ_self q, hb, hzb, fun a' j h3 h4 => h2 a' j h3 h4,
          hlast, hr⟩
    · subst hr
      simp only [if_true]
      exact Or.inr ⟨a, b, Nat.lt_succ_of_lt ha, hb, hz, hfirst, hlast, rfl⟩

/-- Result of `find_a_zero`: `none` when the scanned square holds no uncovered
zero; otherwise the last uncovered zero of the first row that has one. -/
theorem find_a_zero_spec (s : State) :
    (find_a_zero s = none ∧ ∀ a j, a < max s.n 1 → j < max s.n 1 → ¬ UZero s a j) ∨
    (∃ a b, a < max s.n 1 ∧ b < max s.n 1 ∧ UZero s a b ∧
      (∀ a' j, a' < a → j < max s.n 1 → ¬ UZero s a' j) ∧
      (∀ j, b < j → j < max s.n 1 → ¬ UZero s a j) ∧ find_a_zero s = some (a, b)) := by
  unfold find_a_zero
  rcases find_a_zero_loop s (max s.n 1) (max s.n 1) with ⟨h1, h2⟩ | ⟨a, b, ha, hb, hz, hf, hl, hr⟩
  · left
    refine ⟨?_, h2⟩
    rw [h1]
  · right
    refine ⟨a, b, ha, hb, hz, hf, hl, ?_⟩
    rw [hr]

/-! ## `step1` -/

theorem row_min_loop (C : Mat Int) (i k : Nat) :
    let m := forLoop k (fun j m => min m (C.val i (j + 1))) (C.val i 0)
    (∀ j, j ≤ k → m ≤ C.val i j) ∧ ∃ j, j ≤ k ∧ m = C.val i j := by
  induction k with
  | zero =>
    simp only [forLoop]
    exact ⟨fun j hj => by rw [Nat.le_zero.mp hj], 0, le_refl 0, rfl⟩
  | succ q ih =>
    simp only [forLoop_succ] at ih ⊢
    generalize forLoop q _ (C.val i 0) = m at ih
    obtain ⟨h1, j0, hj0, hm⟩ := ih
    constructor
    · intro j hj
      rcases Nat.le_succ_iff.mp hj with h | h
      · exact le_trans (min_le_left _ _) (h1 j h)
      · subst h; exact min_le_right _ _
    · rcases le_total m (C.val i (q + 1)) with h | h
      · exact ⟨j0, Nat.le_succ_of_le hj0, by rw [min_eq_left h, hm]⟩
      · exact ⟨q + 1, le_refl _, by rw [min_eq_right h]⟩

theorem row_min_le (C : Mat Int) (i j : Nat) (hj : j < C.cols) : row_min C i ≤ C.val i j :=
  (row_min_loop C i (C.cols - 1)).1 j (by omega)

theorem row_min_attained (C : Mat Int) (i : Nat) (hc : 0 < C.cols) :
    ∃ j, j < C.cols ∧ row_min C i = C.val i j := by
  obtain ⟨j, hj, hm⟩ := (row_min_loop C i (C.cols - 1)).2
  exact ⟨j, by omega, hm⟩

theorem row_min_congr (C D : Mat Int) (i : Nat) (hc : C.cols = D.cols)
    (hv : ∀ j, C.val i j = D.val i j) : row_min C i = row_min D i := by
  unfold row_min
  rw [hc]
  have h : (fun j m => min m (C.val i (j + 1))) = (fun j m => min m (D.val i (j + 1))) := by
    funext j m; rw [hv]
  rw [h, hv]

theorem step1_loop (C : Mat Int) (k : Nat) :
    forLoop k (fun i C => sub_row C i (row_min C i)) C =
    { C with
      val := fun a b =>
        if a < k ∧ b < C.cols then C.val a b - row_min C a else C.val a b } := by
  induction k with
  | zero => simp [forLoop]
  | succ q ih =>
    rw [forLoop_succ, ih]
    have hq : ¬ (q < q) := lt_irrefl q
    have hrm : row_min { C with
        val := fun a b =>
          if a < q ∧ b < C.cols then C.val a b - row_min C a else C.val a b } q
        = row_min C q := by
      apply row_min_congr
      · rfl
      · intro j
        simp only [hq, false_and, if_false]
    unfold sub_row
    rw [hrm]
    ext : 1 <;> try rfl
    funext a b
    simp only []
    rcases Nat.lt_trichotomy a q with h2 | h2 | h2
    · have h5 : a < q + 1 := by omega
      have h6 : a ≠ q := by omega
      simp [h2, h5, h6]
    · subst h2
      simp
    · have h5 : ¬ a < q + 1 := by omega
      have h6 : a ≠ q := by omega
      have h7 : ¬ a < q := by omega
      simp [h5, h6, h7]

theorem step1_eq (s : State) :
    step1 s = (2, { s with C := { s.C with
      val := fun a b =>
        if a < s.C.rows ∧ b < s.C.cols then s.C.val a b - row_min s.C a
        else s.C.val a b } }) := by
  unfold step1
  rw [step1_loop]

/-! ## Invariants of the state machine -/

theorem Frame.refl (s : State) : Frame s s :=
  ⟨rfl, rfl, rfl, rfl, rfl, rfl, rfl, rfl, rfl⟩

theorem Frame.trans {s t u : State} (h1 : Frame s t) (h2 : Frame t u) : Frame s u :=
  ⟨h2.n_eq.trans h1.n_eq, h2.ol_eq.trans h1.ol_eq, h2.ow_eq.trans h1.ow_eq,
   h2.C_rows.trans h1.C_rows, h2.C_cols.trans h1.C_cols,
   h2.marked_rows.trans h1.marked_rows, h2.marked_cols.trans h1.marked_cols,
   h2.path_rows.trans h1.path_rows, h2.path_cols.trans h1.path_cols⟩

theorem Shape.of_frame {s t : State} (h : Shape s) (f : Frame s t) : Shape t :=
  ⟨by rw [f.C_rows, f.n_eq, h.C_rows], by rw [f.C_cols, f.n_eq, h.C_cols],
   by rw [f.marked_rows, f.n_eq, h.marked_rows], by rw [f.marked_cols, f.n_eq, h.marked_cols],
   by rw [f.path_rows, f.n_eq, h.path_rows], by rw [f.path_cols, f.n_eq, h.path_cols]⟩

/-! ## `step1` and `step2` preserve the invariant -/

theorem inv_init (self : State) (M : Mat Int) : Inv M 1 (compute_init self M) := by
  refine ⟨?_, rfl, rfl, rfl, ?_, ?_, ?_, ?_, ?_, ?_, ?_, ?_, by omega⟩
  · refine ⟨rfl, ?_, rfl, rfl, rfl, rfl⟩
    simp only [compute_init, pad_matrix]
    split_ifs with h
    · exact h
    · rfl
  · intro _
    exact ⟨⟨fun _ _ => rfl, fun _ => rfl, fun _ => rfl⟩, fun _ _ _ _ => rfl⟩
  all_goals (intro h; omega)

theorem inv_step1 (M : Mat Int) (s : State) (h : Inv M 1 s) : Inv M 2 (step1 s).2 := by
  rw [step1_eq]
  obtain ⟨hfresh, hC⟩ := h.st1 rfl
  have hsh := h.shape
  refine ⟨⟨hsh.C_rows, hsh.C_cols, hsh.marked_rows, hsh.marked_cols, hsh.path_rows,
    hsh.path_cols⟩, h.n_eq, h.ol_eq, h.ow_eq, ?_, ?_, ?_, ?_, ?_, ?_, ?_, ?_, by omega⟩
  · intro h; omega
  · intro _
    refine ⟨⟨hfresh.marked, hfresh.rows, hfresh.cols⟩, ⟨?_, ?_⟩⟩
    · intro i j hi hj
      simp only []
      have h1 : i < s.C.rows ∧ j < s.C.cols := by rw [hsh.C_rows, hsh.C_cols]; exact ⟨hi, hj⟩
      rw [if_pos h1]
      have := row_min_le s.C i j h1.2
      omega
    · refine ⟨fun i => row_min s.C i, fun _ => 0, ?_⟩
      intro i j hi hj
      simp only []
      have h1 : i < s.C.rows ∧ j < s.C.cols := by rw [hsh.C_rows, hsh.C_cols]; exact ⟨hi, hj⟩
      rw [if_pos h1, hC i j hi hj]
      ring
  all_goals (intro h; omega)

theorem step2_body (s0 t : State) (i j : Nat) (hi : i < t.n) (hj : j < t.n)
    (h : Step2Inv s0 t) :
    Step2Inv s0
      (if t.C.val i j = 0 ∧ t.col_covered j = false ∧ t.row_covered i = false then
          { t with marked := t.marked.set i j 1,
                   col_covered := setB t.col_covered j true,
                   row_covered := setB t.row_covered i true }
        else t) := by
  split_ifs with hc
  · obtain ⟨hz, hcc, hrc⟩ := hc
    have hrow : ∀ b, t.marked.val i b ≠ 1 := by
      intro b hb
      have := (h.star i b hb).2.2.1
      rw [hrc] at this; exact Bool.false_ne_true this
    have hcol : ∀ a, t.marked.val a j ≠ 1 := by
      intro a ha
      have := (h.star a j ha).2.2.2.1
      rw [hcc] at this; exact Bool.false_ne_true this
    refine ⟨⟨h.frame.n_eq, h.frame.ol_eq, h.frame.ow_eq, h.frame.C_rows, h.frame.C_cols,
      h.frame.marked_rows, h.frame.marked_cols, h.frame.path_rows, h.frame.path_cols⟩,
      h.C_eq, ?_, ?_, ?_, ?_⟩
    · intro a b
      simp only [Mat.set]
      split_ifs
      · exact Or.inr rfl
      · exact h.range a b
    · intro a b hab
      simp only [Mat.set, setB] at hab ⊢
      by_cases hc : a = i ∧ b = j
      · obtain ⟨rfl, rfl⟩ := hc
        simp [hi, hj, hz]
      · rw [if_neg hc] at hab
        obtain ⟨h1, h2, h3, h4, h5⟩ := h.star a b hab
        refine ⟨h1, h2, ?_, ?_, h5⟩
        · split_ifs <;> simp [h3]
        · split_ifs <;> simp [h4]
    · intro a b b' h1 h2
      simp only [Mat.set] at h1 h2
      by_cases hc1 : a = i ∧ b = j <;> by_cases hc2 : a = i ∧ b' = j
      · rw [hc1.2, hc2.2]
      · rw [if_neg hc2] at h2
        rw [hc1.1] at h2
        exact absurd h2 (hrow b')
      · rw [if_neg hc1] at h1
        rw [hc2.1] at h1
        exact absurd h1 (hrow b)
      · rw [if_neg hc1] at h1
        rw [if_neg hc2] at h2
        exact h.row_unique a b b' h1 h2
    · intro a a' b h1 h2
      simp only [Mat.set] at h1 h2
      by_cases hc1 : a = i ∧ b = j <;> by_cases hc2 : a' = i ∧ b = j
      · rw [hc1.1, hc2.1]
      · rw [if_neg hc2] at h2
        rw [hc1.2] at h2
        exact absurd h2 (hcol a')
      · rw [if_neg hc1] at h1
        rw [hc2.2] at h1
        exact absurd h1 (hcol a)
      · rw [if_neg hc1] at h1
        rw [if_neg hc2] at h2
        exact h.col_unique a a' b h1 h2
  · exact h

theorem step2_loops (s0 : State) (hf : Fresh s0) :
    Step2Inv s0
      (forLoop s0.n (fun i s =>
        forLoop s.n (fun j s =>
          if s.C.val i j = 0 ∧ s.col_covered j = false ∧ s.row_covered i = false then
            { s with marked := s.marked.set i j 1,
                     col_covered := setB s.col_covered j true,
                     row_covered := setB s.row_covered i true }
          else s) s) s0) := by
  apply forLoop_inv (fun _ t => Step2Inv s0 t)
  · refine ⟨Frame.refl s0, rfl, fun i j => Or.inl (hf.marked i j), ?_, ?_, ?_⟩
    · intro i j h; rw [hf.marked] at h; omega
    · intro i j j' h; rw [hf.marked] at h; omega
    · intro i i' j h; rw [hf.marked] at h; omega
  · intro i t hi ht
    have hn : t.n = s0.n := ht.frame.n_eq
    apply forLoop_inv (fun _ t => Step2Inv s0 t)
    · exact ht
    · intro j t' hj ht'
      have hn' : t'.n = s0.n := ht'.frame.n_eq
      exact step2_body s0 t' i j (by omega) (by omega) ht'

theorem inv_step2 (M : Mat Int) (s : State) (h : Inv M 2 s) : Inv M 3 (step2 s).2 := by
  obtain ⟨hfresh, hfeas⟩ := h.st2 rfl
  have hJ := step2_loops s hfresh
  unfold step2
  simp only []
  generalize forLoop s.n _ s = t at hJ
  rw [clear_covers_eq]
  have hn : t.n = s.n := hJ.frame.n_eq
  have hsh : Shape t := h.shape.of_frame hJ.frame
  refine ⟨⟨hsh.C_rows, hsh.C_cols, hsh.marked_rows, hsh.marked_cols, hsh.path_rows,
    hsh.path_cols⟩, by simp only []; rw [hn, h.n_eq], by simp only []; rw [hJ.frame.ol_eq, h.ol_eq],
    by simp only []; rw [hJ.frame.ow_eq, h.ow_eq],
    ?_, ?_, ?_, ?_, ?_, ?_, ?_, ?_, by omega⟩
  · intro h; omega
  · intro h; omega
  · intro _
    refine ⟨⟨?_, ?_⟩, ⟨?_, ?_, ?_, ?_⟩⟩
    · intro i j hi hj
      simp only [] at hi hj ⊢
      rw [hJ.C_eq]; exact hfeas.nonneg i j (by omega) (by omega)
    · obtain ⟨u, v, huv⟩ := hfeas.dual
      refine ⟨u, v, ?_⟩
      intro i j hi hj
      simp only [] at hi hj ⊢
      rw [hJ.C_eq]; exact huv i j (by omega) (by omega)
    · intro i j _ _
      rcases hJ.range i j with h | h
      · exact Or.inl h
      · exact Or.inr (Or.inl h)
    · intro i j j' _ _ _ h1 h2
      exact hJ.row_unique i j j' h1 h2
    · intro i i' j _ _ _ h1 h2
      exact hJ.col_unique i i' j h1 h2
    · intro i j _ _ h1
      rcases h1 with h1 | h1
      · exact (hJ.star i j h1).2.2.2.2
      · rcases hJ.range i j with h | h <;> simp only [] at h1 <;> omega
  · intro _
    refine ⟨?_, ?_, ?_⟩
    · intro i hi
      simp only [] at hi ⊢
      rw [if_pos hi]
    · intro i hi
      simp only [] at hi ⊢
      rw [if_pos hi]
    · intro i j _ _ h1
      rcases hJ.range i j with h | h <;> simp only [] at h1 <;> omega
  all_goals (intro h; omega)

/-! ## Counting stars -/

theorem ind_sum_unique (n : Nat) (f : Nat → Int) (hf : ∀ j, f j = 0 ∨ f j = 1)
    (hu : ∀ j j', j < n → j' < n → f j = 1 → f j' = 1 → j = j') :
    ∑ j in Finset.range n, f j = if ∃ j, j < n ∧ f j = 1 then 1 else 0 := by
  by_cases h : ∃ j, j < n ∧ f j = 1
  · rw [if_pos h]
    obtain ⟨j0, hj0, hf0⟩ := h
    have : ∀ j ∈ Finset.range n, f j = if j = j0 then 1 else 0 := by
      intro j hj
      have hj' : j < n := Finset.mem_range.mp hj
      by_cases hjj : j = j0
      · rw [if_pos hjj, hjj, hf0]
      · rw [if_neg hjj]
        rcases hf j with h0 | h1
        · exact h0
        · exact absurd (hu j j0 hj' hj0 h1 hf0) hjj
    rw [Finset.sum_congr rfl this, Finset.sum_ite_eq']
    simp [hj0]
  · rw [if_neg h]
    apply Finset.sum_eq_zero
    intro j hj
    have hj' : j < n := Finset.mem_range.mp hj
    rcases hf j with h0 | h1
    · exact h0
    · exact absurd ⟨j, hj', h1⟩ h

theorem starInd_cases (mk : Nat → Nat → Int) (i j : Nat) :
    starInd mk i j = 0 ∨ starInd mk i j = 1 := by
  unfold starInd; split_ifs <;> simp

theorem starInd_eq_one {mk : Nat → Nat → Int} {i j : Nat} :
    starInd mk i j = 1 ↔ mk i j = 1 := by
  unfold starInd; split_ifs with h <;> simp [h]

theorem starCount_eq_srCount (s : State) (hm : Marks s) : starCount s = (srCount s : Int) := by
  unfold starCount srCount
  have : ∀ i ∈ Finset.range s.n,
      ∑ j in Finset.range s.n, starInd s.marked.val i j = if HasStarRow s i then 1 else 0 := by
    intro i hi
    have hi' : i < s.n := Finset.mem_range.mp hi
    rw [ind_sum_unique s.n (fun j => starInd s.marked.val i j) (starInd_cases _ i)]
    · simp only [starInd_eq_one, HasStarRow]
    · intro j j' hj hj' h1 h2
      exact hm.row_unique i j j' hi' hj hj' (starInd_eq_one.mp h1) (starInd_eq_one.mp h2)
  rw [Finset.sum_congr rfl this, Finset.sum_boole]

theorem starCount_eq_scCount (s : State) (hm : Marks s) : starCount s = (scCount s : Int) := by
  unfold starCount scCount
  rw [Finset.sum_comm]
  have : ∀ j ∈ Finset.range s.n,
      ∑ i in Finset.range s.n, starInd s.marked.val i j = if HasStarCol s j then 1 else 0 := by
    intro j hj
    have hj' : j < s.n := Finset.mem_range.mp hj
    rw [ind_sum_unique s.n (fun i => starInd s.marked.val i j) (fun i => starInd_cases _ i j)]
    · simp only [starInd_eq_one, HasStarCol]
    · intro i i' hi hi' h1 h2
      exact hm.col_unique i i' j hi hi' hj' (starInd_eq_one.mp h1) (starInd_eq_one.mp h2)
  rw [Finset.sum_congr rfl this, Finset.sum_boole]

theorem srCount_le (s : State) : srCount s ≤ s.n := by
  unfold srCount
  have := Finset.card_filter_le (Finset.range s.n) (fun i => HasStarRow s i)
  rwa [Finset.card_range] at this

theorem perfect_of_srCount (s : State) (h : s.n ≤ srCount s) : Perfect s := by
  have h1 : ((Finset.range s.n).filter (fun i => HasStarRow s i)).card
      = (Finset.range s.n).card := by
    rw [Finset.card_range]; exact le_antisymm (srCount_le s) h
  intro i hi
  exact Finset.filter_card_eq h1 i (Finset.mem_range.mpr hi)

theorem free_row_of_srCount (s : State) (h : srCount s < s.n) :
    ∃ i, i < s.n ∧ ∀ j, j < s.n → s.marked.val i j ≠ 1 := by
  by_contra hcon
  push_neg at hcon
  have h1 : ((Finset.range s.n).filter (fun i => HasStarRow s i)).card
      = (Finset.range s.n).card := by
    rw [Finset.card_filter_eq_iff]
    intro i hi
    exact hcon i (Finset.mem_range.mp hi)
  rw [Finset.card_range] at h1
  unfold srCount at h
  omega

theorem free_col_of_scCount (s : State) (h : scCount s < s.n) :
    ∃ j, j < s.n ∧ ∀ i, i < s.n → s.marked.val i j ≠ 1 := by
  by_contra hcon
  push_neg at hcon
  have h1 : ((Finset.range s.n).filter (fun j => HasStarCol s j)).card
      = (Finset.range s.n).card := by
    rw [Finset.card_filter_eq_iff]
    intro j hj
    exact hcon j (Finset.mem_range.mp hj)
  rw [Finset.card_range] at h1
  unfold scCount at h
  omega

/-! ## `step3` -/

theorem step3_code (s : State) : (step3 s).1 = 7 ∨ (step3 s).1 = 4 := by
  unfold step3
  simp only []
  split_ifs <;> simp

theorem inv_step3 (M : Mat Int) (s : State) (h : Inv M 3 s) :
    Inv M (step3 s).1 (step3 s).2 := by
  obtain ⟨hfeas, hmarks⟩ := h.st3 (le_refl _)
  have hclean := h.st3c rfl
  obtain ⟨h1, h2, h3⟩ := step3_scan_spec s
  have hsh := h.shape
  have hst : (step3 s).2 = (step3_scan s).1 := by
    unfold step3; simp only []; split_ifs <;> rfl
  have hcode : ((step3 s).1 = 7 ∧ (s.n : Int) ≤ starCount s) ∨
      ((step3 s).1 = 4 ∧ starCount s < (s.n : Int)) := by
    unfold step3; simp only []; rw [h3]
    split_ifs with hc
    · left; exact ⟨rfl, hc⟩
    · right; exact ⟨rfl, by omega⟩
  rw [hst]
  generalize (step3 s).1 = c at hcode
  generalize (step3_scan s).1 = t at h1 h2
  have hn : t.n = s.n := by rw [h1]
  have hmk : t.marked = s.marked := by rw [h1]
  have hC : t.C = s.C := by rw [h1]
  have hrc : t.row_covered = s.row_covered := by rw [h1]
  have hfeas' : Feasible (pad_matrix M 0).val t :=
    ⟨by rw [hn, hC]; exact hfeas.nonneg, by rw [hn, hC]; exact hfeas.dual⟩
  have hmarks' : Marks t :=
    ⟨by rw [hn, hmk]; exact hmarks.range, by rw [hn, hmk]; exact hmarks.row_unique,
     by rw [hn, hmk]; exact hmarks.col_unique, by rw [hn, hmk, hC]; exact hmarks.zero⟩
  have hnp : ∀ i j, i < t.n → j < t.n → t.marked.val i j ≠ 2 := by
    rw [hn, hmk]; exact hclean.no_prime
  refine ⟨⟨by rw [hC, hn]; exact hsh.C_rows, by rw [hC, hn]; exact hsh.C_cols,
      by rw [hmk, hn]; exact hsh.marked_rows, by rw [hmk, hn]; exact hsh.marked_cols,
      by rw [h1]; exact hsh.path_rows, by rw [h1]; exact hsh.path_cols⟩,
    by rw [hn]; exact h.n_eq, by rw [h1]; exact h.ol_eq, by rw [h1]; exact h.ow_eq,
    ?_, ?_, fun _ => ⟨hfeas', hmarks'⟩, ?_, ?_, ?_, ?_, ?_, ?_⟩
  · intro hc; rcases hcode with ⟨h4, _⟩ | ⟨h4, _⟩ <;> omega
  · intro hc; rcases hcode with ⟨h4, _⟩ | ⟨h4, _⟩ <;> omega
  · intro hc; rcases hcode with ⟨h4, _⟩ | ⟨h4, _⟩ <;> omega
  · intro hc
    have hlt : starCount s < (s.n : Int) := by
      rcases hcode with ⟨h4, _⟩ | ⟨_, h5⟩
      · omega
      · exact h5
    have hsr : srCount s < s.n := by
      have := starCount_eq_srCount s hmarks; omega
    have hsc : scCount s < s.n := by
      have := starCount_eq_scCount s hmarks; omega
    refine ⟨⟨?_, ?_, ?_, ?_, ?_, ?_, ?_, ?_⟩, ?_⟩
    · intro j hj hcj
      rw [hn] at hj ⊢
      rw [hmk]
      rcases (h2 j).mp hcj with h5 | ⟨_, a, ha, hab⟩
      · rw [hclean.cols j hj] at h5; exact absurd h5 Bool.false_ne_true
      · exact ⟨a, ha, hab⟩
    · intro i j hi hj hst
      rw [hn] at hi hj
      rw [hmk] at hst
      rw [hrc, hclean.rows i hi]
      have : t.col_covered j = true := (h2 j).mpr (Or.inr ⟨hj, i, hi, hst⟩)
      rw [this]; simp
    · intro i hi hr
      rw [hn] at hi
      rw [hrc, hclean.rows i hi] at hr; exact absurd hr Bool.false_ne_true
    · intro i hi hr
      rw [hn] at hi
      rw [hrc, hclean.rows i hi] at hr; exact absurd hr Bool.false_ne_true
    · intro i j hi hj hp
      exact absurd hp (hnp i j hi hj)
    · refine ⟨fun _ => 0, ?_, ?_⟩
      · intro i hi hr
        rw [hn] at hi
        rw [hrc, hclean.rows i hi] at hr; exact absurd hr Bool.false_ne_true
      · intro i p i' hi hp _ hpr
        exact absurd hpr (hnp i p hi hp)
    · rw [hn, hmk]; exact free_row_of_srCount s hsr
    · rw [hn, hmk]; exact free_col_of_scCount s hsc
    · intro i j hi hj hp
      exact absurd hp (hnp i j hi hj)
  · intro hc; rcases hcode with ⟨h4, _⟩ | ⟨h4, _⟩ <;> omega
  · intro hc; rcases hcode with ⟨h4, _⟩ | ⟨h4, _⟩ <;> omega
  · intro hc
    have hge : (s.n : Int) ≤ starCount s := by
      rcases hcode with ⟨_, h5⟩ | ⟨h4, _⟩
      · exact h5
      · omega
    have hsr : s.n ≤ srCount s := by
      have := starCount_eq_srCount s hmarks; omega
    refine ⟨?_, hnp⟩
    have := perfect_of_srCount s hsr
    unfold Perfect at this ⊢
    rw [hn, hmk]; exact this
  · rcases hcode with ⟨h4, _⟩ | ⟨h4, _⟩ <;> omega

/-! ## Constructors of the invariant for the codes 4, 5, 6 -/

theorem Inv.mk4 {M : Mat Int} {s : State} (hsh : Shape s) (hn : s.n = (pad_matrix M 0).rows)
    (hol : s.original_length = M.rows) (how : s.original_width = M.cols)
    (hf : Feasible (pad_matrix M 0).val s) (hm : Marks s) (hs : Search s) (hp : PrimeRows s) :
    Inv M 4 s := by
  refine ⟨hsh, hn, hol, how, ?_, ?_, fun _ => ⟨hf, hm⟩, ?_, fun _ => ⟨hs, hp⟩, ?_, ?_, ?_,
    by omega⟩
  all_goals (intro h; omega)

theorem Inv.mk6 {M : Mat Int} {s : State} (hsh : Shape s) (hn : s.n = (pad_matrix M 0).rows)
    (hol : s.original_length = M.rows) (how : s.original_width = M.cols)
    (hf : Feasible (pad_matrix M 0).val s) (hm : Marks s) (hs : Search s) (hp : PrimeRows s)
    (hz : ∀ i j, i < s.n → j < s.n → ¬ UZero s i j) :
    Inv M 6 s := by
  refine ⟨hsh, hn, hol, how, ?_, ?_, fun _ => ⟨hf, hm⟩, ?_, fun _ => ⟨hs, hp⟩, fun _ => hz,
    ?_, ?_, by omega⟩
  all_goals (intro h; omega)

theorem Inv.mk5 {M : Mat Int} {s : State} (hsh : Shape s) (hn : s.n = (pad_matrix M 0).rows)
    (hol : s.original_length = M.rows) (how : s.original_width = M.cols)
    (hf : Feasible (pad_matrix M 0).val s) (hm : Marks s) (hs : Search s) (hz : Z0ok s) :
    Inv M 5 s := by
  refine ⟨hsh, hn, hol, how, ?_, ?_, fun _ => ⟨hf, hm⟩, ?_, ?_, ?_, fun _ => ⟨hs, hz⟩, ?_,
    by omega⟩
  all_goals (intro h; omega)

/-! ## `step6` -/

theorem find_smallest_pos (s : State) (hnn : ∀ i j, i < s.n → j < s.n → 0 ≤ s.C.val i j)
    (hz : ∀ i j, i < s.n → j < s.n → ¬ UZero s i j) : 0 < find_smallest s := by
  rcases (find_smallest_spec s).2.2 with h | ⟨i, j, hi, hj, hu, hm⟩
  · omega
  · have h1 := hnn i j hi hj
    have h2 : s.C.val i j ≠ 0 := fun h0 => hz i j hi hj ⟨h0, hu.1, hu.2⟩
    omega

theorem inv_step6 (M : Mat Int) (s : State) (h : Inv M 6 s) : Inv M 4 (step6 s).2 := by
  rw [step6_eq]
  obtain ⟨hfeas, hmarks⟩ := h.st3 (by omega)
  obtain ⟨hsearch, hprime⟩ := h.st46 (Or.inr rfl)
  have hz := h.st6 rfl
  have hsh := h.shape
  have hv := find_smallest_pos s hfeas.nonneg hz
  have hle := (find_smallest_spec s).2.1
  generalize find_smallest s = v at hv hle
  refine Inv.mk4 ⟨hsh.C_rows, hsh.C_cols, hsh.marked_rows, hsh.marked_cols, hsh.path_rows,
    hsh.path_cols⟩ h.n_eq h.ol_eq h.ow_eq ⟨?_, ?_⟩ ⟨hmarks.range, hmarks.row_unique,
    hmarks.col_unique, ?_⟩ ⟨hsearch.col_star, hsearch.star_cover, hsearch.row_star,
    hsearch.row_prime, hsearch.prime_col, hsearch.rank, hsearch.free_row, hsearch.free_col⟩
    hprime
  · intro i j hi hj
    simp only [] at hi hj ⊢
    rw [if_pos ⟨hi, hj⟩]
    have h0 := hfeas.nonneg i j hi hj
    cases hr : s.row_covered i <;> cases hc : s.col_covered j <;> simp
    · exact hle i j hi hj ⟨hr, hc⟩
    · exact h0
    · exact h0
    · omega
  · obtain ⟨u, w, huw⟩ := hfeas.dual
    refine ⟨fun i => u i - (if s.row_covered i = true then v else 0),
      fun j => w j + (if s.col_covered j = false then v else 0), ?_⟩
    intro i j hi hj
    simp only [] at hi hj ⊢
    rw [if_pos ⟨hi, hj⟩, huw i j hi hj]
    ring
  · intro i j hi hj hm
    simp only [] at hi hj hm ⊢
    rw [if_pos ⟨hi, hj⟩, hmarks.zero i j hi hj hm]
    rcases hm with hm | hm
    · have := hsearch.star_cover i j hi hj hm
      cases hr : s.row_covered i <;> cases hc : s.col_covered j <;> simp_all
    · have h1 := hprime i j hi hj hm
      have h2 := hsearch.prime_col i j hi hj hm
      simp [h1, h2]

/-! ## `step4` -/

theorem covCount_cover (s t : State) (r : Nat) (hn : t.n = s.n) (hr : r < s.n)
    (hrc : s.row_covered r = false) (ht : t.row_covered = setB s.row_covered r true) :
    covCount t = covCount s + 1 := by
  unfold covCount
  rw [hn, ht]
  have : (Finset.range s.n).filter (fun i => setB s.row_covered r true i = true)
      = insert r ((Finset.range s.n).filter (fun i => s.row_covered i = true)) := by
    ext i
    simp only [Finset.mem_filter, Finset.mem_range, Finset.mem_insert, setB]
    by_cases hi : i = r
    · subst hi; simp [hr]
    · simp [hi]
  rw [this, Finset.card_insert_of_not_mem]
  simp [hrc]

theorem covCount_lt (s : State) (i : Nat) (hi : i < s.n) (hrc : s.row_covered i = false) :
    covCount s < s.n := by
  unfold covCount
  have h1 : (Finset.range s.n).filter (fun i => s.row_covered i = true)
      ⊆ (Finset.range s.n).erase i := by
    intro a ha
    simp only [Finset.mem_filter, Finset.mem_range] at ha
    simp only [Finset.mem_erase, Finset.mem_range]
    refine ⟨?_, ha.1⟩
    rintro rfl
    rw [hrc] at ha
    exact Bool.false_ne_true ha.2
  have h2 := Finset.card_le_card h1
  rw [Finset.card_erase_of_mem (Finset.mem_range.mpr hi), Finset.card_range] at h2
  omega

/-- Facts about the uncovered zero that `step4` primes. -/
theorem step4_not_star (s : State) (hs : Search s) (r c : Nat) (hr : r < s.n) (hc : c < s.n)
    (hz : UZero s r c) : s.marked.val r c ≠ 1 := by
  intro h
  have := hs.star_cover r c hr hc h
  rw [hz.2.1, hz.2.2] at this
  simp at this

theorem set_prime_star (s : State) (r c : Nat) (hns : s.marked.val r c ≠ 1) (i j : Nat) :
    (s.marked.set r c 2).val i j = 1 ↔ s.marked.val i j = 1 := by
  simp only [Mat.set]
  split_ifs with h
  · obtain ⟨rfl, rfl⟩ := h
    constructor
    · intro h; omega
    · intro h; exact absurd h hns
  · exact Iff.rfl

theorem set_prime_prime (s : State) (r c : Nat) (i j : Nat) :
    (s.marked.set r c 2).val i j = 2 ↔ (i = r ∧ j = c) ∨ s.marked.val i j = 2 := by
  simp only [Mat.set]
  split_ifs with h
  · simp [h]
  · simp [h]

theorem marks_set_prime (s : State) (hm : Marks s) (r c : Nat)
    (hns : s.marked.val r c ≠ 1) (hC : s.C.val r c = 0) (t : State) (hn : t.n = s.n)
    (hC' : t.C = s.C) (hmk : t.marked = s.marked.set r c 2) : Marks t := by
  refine ⟨?_, ?_, ?_, ?_⟩
  · intro i j hi hj
    rw [hn] at hi hj
    rw [hmk]
    simp only [Mat.set]
    split_ifs
    · right; right; rfl
    · exact hm.range i j hi hj
  · intro i j j' hi hj hj' h1 h2
    rw [hn] at hi hj hj'
    rw [hmk, set_prime_star s r c hns] at h1 h2
    exact hm.row_unique i j j' hi hj hj' h1 h2
  · intro i i' j hi hi' hj h1 h2
    rw [hn] at hi hi' hj
    rw [hmk, set_prime_star s r c hns] at h1 h2
    exact hm.col_unique i i' j hi hi' hj h1 h2
  · intro i j hi hj h1
    rw [hn] at hi hj
    rw [hmk, set_prime_star s r c hns, set_prime_prime] at h1
    rw [hC']
    rcases h1 with h1 | ⟨rfl, rfl⟩ | h1
    · exact hm.zero i j hi hj (Or.inl h1)
    · exact hC
    · exact hm.zero i j hi hj (Or.inr h1)

/-- One iteration of `step4` that finds a star in the row of the new prime:
the row is covered, the column of the star uncovered. -/
theorem search_step4_cover (s t : State) (hm : Marks s) (hs : Search s) (hp : PrimeRows s)
    (r c sc : Nat) (hr : r < s.n) (hc : c < s.n) (hsc : sc < s.n) (hz : UZero s r c)
    (hst : s.marked.val r sc = 1) (hn : t.n = s.n) (hmk : t.marked = s.marked.set r c 2)
    (hrc' : t.row_covered = setB s.row_covered r true)
    (hcc' : t.col_covered = setB s.col_covered sc false) :
    Search t ∧ PrimeRows t := by
  have hrc : s.row_covered r = false := hz.2.1
  have hcc : s.col_covered c = false := hz.2.2
  have hns := step4_not_star s hs r c hr hc hz
  have hstar : ∀ i j, t.marked.val i j = 1 ↔ s.marked.val i j = 1 := by
    intro i j; rw [hmk]; exact set_prime_star s r c hns i j
  have hprime : ∀ i j, t.marked.val i j = 2 ↔ (i = r ∧ j = c) ∨ s.marked.val i j = 2 := by
    intro i j; rw [hmk]; exact set_prime_prime s r c i j
  have hccsc : s.col_covered sc = true := by
    have := hs.star_cover r sc hr hsc hst
    rw [hrc] at this
    cases h : s.col_covered sc
    · rw [h] at this; simp at this
    · rfl
  have hcov := covCount_cover s t r hn hr hrc hrc'
  have hrcv : ∀ i, t.row_covered i = if i = r then true else s.row_covered i := by
    intro i; rw [hrc']; rfl
  have hccv : ∀ j, t.col_covered j = if j = sc then false else s.col_covered j := by
    intro j; rw [hcc']; rfl
  refine ⟨⟨?_, ?_, ?_, ?_, ?_, ?_, ?_, ?_⟩, ?_⟩
  · intro j hj hcj
    rw [hn] at hj ⊢
    rw [hccv] at hcj
    split_ifs at hcj with h1
    obtain ⟨i, hi, hij⟩ := hs.col_star j hj hcj
    exact ⟨i, hi, (hstar i j).mpr hij⟩
  · intro i j hi hj hij
    rw [hn] at hi hj
    rw [hstar] at hij
    rw [hrcv, hccv]
    by_cases h1 : i = r
    · subst h1
      have := hm.row_unique i j sc hi hj hsc hij hst
      subst this
      simp
    · have h2 : j ≠ sc := by
        rintro rfl
        exact h1 (hm.col_unique i r j hi hr hj hij hst)
      rw [if_neg h1, if_neg h2]
      exact hs.star_cover i j hi hj hij
  · intro i hi hri
    rw [hn] at hi ⊢
    rw [hrcv] at hri
    by_cases h1 : i = r
    · subst h1; exact ⟨sc, hsc, (hstar i sc).mpr hst⟩
    · rw [if_neg h1] at hri
      obtain ⟨j, hj, hij⟩ := hs.row_star i hi hri
      exact ⟨j, hj, (hstar i j).mpr hij⟩
  · intro i hi hri
    rw [hn] at hi ⊢
    rw [hrcv] at hri
    by_cases h1 : i = r
    · subst h1; exact ⟨c, hc, (hprime i c).mpr (Or.inl ⟨rfl, rfl⟩)⟩
    · rw [if_neg h1] at hri
      obtain ⟨j, hj, hij⟩ := hs.row_prime i hi hri
      exact ⟨j, hj, (hprime i j).mpr (Or.inr hij)⟩
  · intro i j hi hj hij
    rw [hn] at hi hj
    rw [hprime] at hij
    rw [hccv]
    split_ifs with h1
    · rfl
    · rcases hij with ⟨_, rfl⟩ | hij
      · exact hcc
      · exact hs.prime_col i j hi hj hij
  · obtain ⟨rank, hr1, hr2⟩ := hs.rank
    refine ⟨fun i => if i = r then covCount s else rank i, ?_, ?_⟩
    · intro i hi hri
      rw [hn] at hi
      rw [hrcv] at hri
      rw [hcov]
      simp only []
      by_cases h1 : i = r
      · rw [if_pos h1]; omega
      · rw [if_neg h1] at hri ⊢
        have := hr1 i hi hri; omega
    · intro i p i' hi hpn hi' hip hri hi'p
      rw [hn] at hi hpn hi'
      rw [hprime] at hip
      rw [hstar] at hi'p
      rw [hrcv] at hri
      simp only []
      -- the column of a prime is uncovered, so the star in it lies in a covered row
      have hpc : s.col_covered p = false := by
        rcases hip with ⟨_, rfl⟩ | hip
        · exact hcc
        · exact hs.prime_col i p hi hpn hip
      have hri' : s.row_covered i' = true := (hs.star_cover i' p hi' hpn hi'p).mpr hpc
      have hi'r : i' ≠ r := by
        rintro rfl; rw [hrc] at hri'; exact Bool.false_ne_true hri'
      rw [if_neg hi'r]
      by_cases h1 : i = r
      · rw [if_pos h1]
        exact hr1 i' hi' hri'
      · rw [if_neg h1] at hri ⊢
        rcases hip with ⟨h2, _⟩ | hip
        · exact absurd h2 h1
        · exact hr2 i p i' hi hpn hi' hip hri hi'p
  · obtain ⟨i, hi, hfree⟩ := hs.free_row
    refine ⟨i, by rw [hn]; exact hi, ?_⟩
    intro j hj hij
    rw [hn] at hj
    exact hfree j hj ((hstar i j).mp hij)
  · obtain ⟨j, hj, hfree⟩ := hs.free_col
    refine ⟨j, by rw [hn]; exact hj, ?_⟩
    intro i hi hij
    rw [hn] at hi
    exact hfree i hi ((hstar i j).mp hij)
  · intro i j hi hj hij
    rw [hn] at hi hj
    rw [hprime] at hij
    rw [hrcv]
    split_ifs with h1
    · rfl
    · rcases hij with ⟨h2, _⟩ | hij
      · exact absurd h2 h1
      · exact hp i j hi hj hij

/-- The iteration of `step4` that finds no star in the row of the new prime:
the prime becomes `Z0`. -/
theorem search_step4_exit (s t : State) (hs : Search s) (hp : PrimeRows s)
    (r c : Nat) (hr : r < s.n) (hc : c < s.n) (hz : UZero s r c)
    (hnone : ∀ j, j < s.n → s.marked.val r j ≠ 1) (hn : t.n = s.n)
    (hmk : t.marked = s.marked.set r c 2)
    (hrc' : t.row_covered = s.row_covered) (hcc' : t.col_covered = s.col_covered)
    (hzr : t.Z0_r = r) (hzc : t.Z0_c = c) :
    Search t ∧ Z0ok t := by
  have hrc : s.row_covered r = false := hz.2.1
  have hcc : s.col_covered c = false := hz.2.2
  have hns := step4_not_star s hs r c hr hc hz
  have hstar : ∀ i j, t.marked.val i j = 1 ↔ s.marked.val i j = 1 := by
    intro i j; rw [hmk]; exact set_prime_star s r c hns i j
  have hprime : ∀ i j, t.marked.val i j = 2 ↔ (i = r ∧ j = c) ∨ s.marked.val i j = 2 := by
    intro i j; rw [hmk]; exact set_prime_prime s r c i j
  have hcov : covCount t = covCount s := by
    unfold covCount; rw [hn, hrc']
  refine ⟨⟨?_, ?_, ?_, ?_, ?_, ?_, ?_, ?_⟩, ⟨?_, ?_, ?_, ?_, ?_, ?_⟩⟩
  · intro j hj hcj
    rw [hn] at hj ⊢
    rw [hcc'] at hcj
    obtain ⟨i, hi, hij⟩ := hs.col_star j hj hcj
    exact ⟨i, hi, (hstar i j).mpr hij⟩
  · intro i j hi hj hij
    rw [hn] at hi hj
    rw [hstar] at hij
    rw [hrc', hcc']
    exact hs.star_cover i j hi hj hij
  · intro i hi hri
    rw [hn] at hi ⊢
    rw [hrc'] at hri
    obtain ⟨j, hj, hij⟩ := hs.row_star i hi hri
    exact ⟨j, hj, (hstar i j).mpr hij⟩
  · intro i hi hri
    rw [hn] at hi ⊢
    rw [hrc'] at hri
    obtain ⟨j, hj, hij⟩ := hs.row_prime i hi hri
    exact ⟨j, hj, (hprime i j).mpr (Or.inr hij)⟩
  · intro i j hi hj hij
    rw [hn] at hi hj
    rw [hprime] at hij
    rw [hcc']
    rcases hij with ⟨_, rfl⟩ | hij
    · exact hcc
    · exact hs.prime_col i j hi hj hij
  · obtain ⟨rank, hr1, hr2⟩ := hs.rank
    refine ⟨rank, ?_, ?_⟩
    · intro i hi hri
      rw [hn] at hi
      rw [hrc'] at hri
      rw [hcov]
      exact hr1 i hi hri
    · intro i p i' hi hpn hi' hip hri hi'p
      rw [hn] at hi hpn hi'
      rw [hprime] at hip
      rw [hstar] at hi'p
      rw [hrc'] at hri
      rcases hip with ⟨rfl, _⟩ | hip
      · rw [hrc] at hri; exact absurd hri Bool.false_ne_true
      · exact hr2 i p i' hi hpn hi' hip hri hi'p
  · obtain ⟨i, hi, hfree⟩ := hs.free_row
    refine ⟨i, by rw [hn]; exact hi, ?_⟩
    intro j hj hij
    rw [hn] at hj
    exact hfree j hj ((hstar i j).mp hij)
  · obtain ⟨j, hj, hfree⟩ := hs.free_col
    refine ⟨j, by rw [hn]; exact hj, ?_⟩
    intro i hi hij
    rw [hn] at hi
    exact hfree i hi ((hstar i j).mp hij)
  · rw [hzr, hn]; exact hr
  · rw [hzc, hn]; exact hc
  · rw [hzr, hzc, hprime]; exact Or.inl ⟨rfl, rfl⟩
  · rw [hzr, hrc']; exact hrc
  · intro j hj hj1
    rw [hn] at hj
    rw [hzr, hstar] at hj1
    exact hnone j hj hj1
  · intro i j hi hj hij
    rw [hn] at hi hj
    rw [hprime] at hij
    rw [hzr, hzc, hrc']
    rcases hij with h1 | hij
    · exact Or.inr h1
    · exact Or.inl (hp i j hi hj hij)

theorem search_n_pos (s : State) (hs : Search s) : 0 < s.n := by
  obtain ⟨i, hi, _⟩ := hs.free_row
  omega

/-- Partial correctness of `step4`: a result is the code 5 or 6 with the
matching invariant, and stars are left as they were. -/
theorem inv_step4 (M : Mat Int) (fuel : Nat) :
    ∀ (s : State) (r : Int × State), Inv M 4 s → step4 fuel s = some r →
      Inv M r.1 r.2 ∧ (r.1 = 5 ∨ r.1 = 6) ∧ r.2.n = s.n ∧
      (∀ i j, r.2.marked.val i j = 1 ↔ s.marked.val i j = 1) ∧
      covCount s ≤ covCount r.2 ∧
      (r.1 = 6 → covCount r.2 = covCount s → r.2 = s) := by
  induction fuel with
  | zero => intro s r _ h; simp [step4] at h
  | succ k ih =>
    intro s r h hstep
    obtain ⟨hfeas, hmarks⟩ := h.st3 (by omega)
    obtain ⟨hsearch, hprime⟩ := h.st46 (Or.inl rfl)
    have hsh := h.shape
    have hnpos := search_n_pos s hsearch
    have hmax : max s.n 1 = s.n := by omega
    unfold step4 at hstep
    rcases find_a_zero_spec s with ⟨hnone, hall⟩ | ⟨a, b, ha, hb, hz, _, _, hsome⟩
    · rw [hnone] at hstep
      simp only [Option.some.injEq] at hstep
      subst hstep
      rw [hmax] at hall
      exact ⟨Inv.mk6 hsh h.n_eq h.ol_eq h.ow_eq hfeas hmarks hsearch hprime hall,
        Or.inr rfl, rfl, fun _ _ => Iff.rfl, le_refl _, fun _ _ => rfl⟩
    · rw [hsome] at hstep
      rw [hmax] at ha hb
      simp only [] at hstep
      have hns := step4_not_star s hsearch a b ha hb hz
      cases hfs : find_star_in_row { s with marked := s.marked.set a b 2 } a with
      | none =>
        rw [hfs] at hstep
        simp only [Option.some.injEq] at hstep
        subst hstep
        have hnone : ∀ j, j < s.n → s.marked.val a j ≠ 1 := by
          intro j hj hj1
          have := find_first_none hfs j hj
          simp only [decide_eq_false_iff_not] at this
          exact this ((set_prime_star s a b hns a j).mpr hj1)
        let t : State := { s with marked := s.marked.set a b 2, Z0_r := a, Z0_c := b }
        obtain ⟨h1, h2⟩ := search_step4_exit s t hsearch hprime a b ha hb hz hnone
          rfl rfl rfl rfl rfl rfl
        have hm' : Marks t := marks_set_prime s hmarks a b hns hz.1 t rfl rfl rfl
        have hsh' : Shape t := ⟨hsh.C_rows, hsh.C_cols, hsh.marked_rows, hsh.marked_cols,
            hsh.path_rows, hsh.path_cols⟩
        have hf' : Feasible (pad_matrix M 0).val t := ⟨hfeas.nonneg, hfeas.dual⟩
        refine ⟨Inv.mk5 hsh' h.n_eq h.ol_eq h.ow_eq hf' hm' h1 h2,
          Or.inl rfl, rfl, fun i j => set_prime_star s a b hns i j, le_refl _, ?_⟩
        intro h5; simp at h5
      | some sc =>
        rw [hfs] at hstep
        simp only [] at hstep
        obtain ⟨hsc, hsc1, _⟩ := find_first_some hfs
        simp only [decide_eq_true_eq] at hsc1
        have hst : s.marked.val a sc = 1 := (set_prime_star s a b hns a sc).mp hsc1
        let t : State := { s with marked := s.marked.set a b 2,
                                  row_covered := setB s.row_covered a true,
                                  col_covered := setB s.col_covered sc false }
        obtain ⟨h1, h2⟩ := search_step4_cover s t
          hmarks hsearch hprime a b sc ha hb hsc hz hst rfl rfl rfl rfl
        have hm' : Marks t := marks_set_prime s hmarks a b hns hz.1 t rfl rfl rfl
        have hsh' : Shape t := ⟨hsh.C_rows, hsh.C_cols, hsh.marked_rows, hsh.marked_cols,
            hsh.path_rows, hsh.path_cols⟩
        have hf' : Feasible (pad_matrix M 0).val t := ⟨hfeas.nonneg, hfeas.dual⟩
        have hinv : Inv M 4 t := Inv.mk4 hsh' h.n_eq h.ol_eq h.ow_eq hf' hm' h1 h2
        obtain ⟨g1, g2, g3, g4, g5, g6⟩ := ih t r hinv hstep
        have hcov : covCount t = covCount s + 1 := covCount_cover s t a rfl ha hz.2.1 rfl
        refine ⟨g1, g2, g3, ?_, by omega, ?_⟩
        · intro i j
          rw [g4 i j]
          exact set_prime_star s a b hns i j
        · intro _ h6; omega

/-- Termination of `step4`: every iteration but the last covers a new row. -/
theorem step4_terminates (M : Mat Int) (fuel : Nat) :
    ∀ (s : State), Inv M 4 s → s.n - covCount s < fuel → ∃ r, step4 fuel s = some r := by
  induction fuel with
  | zero => intro s _ h; omega
  | succ k ih =>
    intro s h hfuel
    obtain ⟨hfeas, hmarks⟩ := h.st3 (by omega)
    obtain ⟨hsearch, hprime⟩ := h.st46 (Or.inl rfl)
    have hsh := h.shape
    have hnpos := search_n_pos s hsearch
    have hmax : max s.n 1 = s.n := by omega
    unfold step4
    rcases find_a_zero_spec s with ⟨hnone, _⟩ | ⟨a, b, ha, hb, hz, _, _, hsome⟩
    · rw [hnone]; exact ⟨_, rfl⟩
    · rw [hsome]
      rw [hmax] at ha hb
      simp only []
      have hns := step4_not_star s hsearch a b ha hb hz
      cases hfs : find_star_in_row { s with marked := s.marked.set a b 2 } a with
      | none => exact ⟨_, rfl⟩
      | some sc =>
        simp only []
        obtain ⟨hsc, hsc1, _⟩ := find_first_some hfs
        simp only [decide_eq_true_eq] at hsc1
        have hst : s.marked.val a sc = 1 := (set_prime_star s a b hns a sc).mp hsc1
        let t : State := { s with marked := s.marked.set a b 2,
                                  row_covered := setB s.row_covered a true,
                                  col_covered := setB s.col_covered sc false }
        obtain ⟨h1, h2⟩ := search_step4_cover s t
          hmarks hsearch hprime a b sc ha hb hsc hz hst rfl rfl rfl rfl
        have hm' : Marks t := marks_set_prime s hmarks a b hns hz.1 t rfl rfl rfl
        have hsh' : Shape t := ⟨hsh.C_rows, hsh.C_cols, hsh.marked_rows, hsh.marked_cols,
            hsh.path_rows, hsh.path_cols⟩
        have hf' : Feasible (pad_matrix M 0).val t := ⟨hfeas.nonneg, hfeas.dual⟩
        have hinv : Inv M 4 t := Inv.mk4 hsh' h.n_eq h.ol_eq h.ow_eq hf' hm' h1 h2
        have hcov : covCount t = covCount s + 1 := covCount_cover s t a rfl ha hz.2.1 rfl
        have hlt := covCount_lt s a ha hz.2.1
        have htn : t.n = s.n := rfl
        exact ih t hinv (by omega)

theorem step4_mono (fuel : Nat) :
    ∀ (s : State) (r : Int × State), step4 fuel s = some r → step4 (fuel + 1) s = some r := by
  induction fuel with
  | zero => intro s r h; simp [step4] at h
  | succ k ih =>
    intro s r h
    unfold step4 at h ⊢
    cases hz : find_a_zero s with
    | none => rw [hz] at h; exact h
    | some p =>
      rw [hz] at h
      simp only [] at h ⊢
      cases hfs : find_star_in_row { s with marked := s.marked.set p.1 p.2 2 } p.1 with
      | none => rw [hfs] at h; exact h
      | some sc =>
        rw [hfs] at h
        simp only [] at h ⊢
        exact ih _ r h

theorem step4_mono_le {k k' : Nat} (hk : k ≤ k') {s : State} {r : Int × State}
    (h : step4 k s = some r) : step4 k' s = some r := by
  induction hk with
  | refl => exact h
  | step _ ih => exact step4_mono _ s r ih

/-! ## `step5`: construction of the path -/

theorem Mat.write_some {α : Type} (m : Mat α) (i j : Nat) (x : α) (hi : i < m.rows)
    (hj : j < m.cols) : m.write i j x = some (m.set i j x) := by
  unfold Mat.write; rw [if_pos ⟨hi, hj⟩]

theorem path_extend_old (p : Mat Nat) (k row col m c : Nat) (hm : m ≤ 2 * k) :
    (path_extend p k row col).val m c = p.val m c := by
  have h1 : m ≠ 2 * k + 1 := by omega
  have h2 : m ≠ 2 * k + 2 := by omega
  simp [path_extend, Mat.set, h1, h2]

theorem path_extend_new (p : Mat Nat) (k row col : Nat) :
    (path_extend p k row col).val (2 * k + 1) 0 = row ∧
    (path_extend p k row col).val (2 * k + 1) 1 = p.val (2 * k) 1 ∧
    (path_extend p k row col).val (2 * k + 2) 0 = row ∧
    (path_extend p k row col).val (2 * k + 2) 1 = col := by
  simp [path_extend, Mat.set]

theorem step5_loop_unfold (fuel : Nat) (s : State) (p : Mat Nat) (k row col : Nat)
    (hk : 2 * k + 2 < p.rows) (hc : 1 < p.cols)
    (hstar : find_star_in_col s (p.val (2 * k) 1) = some row)
    (hprime : find_prime_in_row s row = some col) :
    step5_loop (fuel + 1) { s with path := p } (2 * k) =
      step5_loop fuel { s with path := path_extend p k row col } (2 * (k + 1)) := by
  have hstar' : find_star_in_col { s with path := p } (p.val (2 * k) 1) = some row := hstar
  have hprime' : find_prime_in_row { s with path := p } row = some col := hprime
  have hw1 : p.write (2 * k + 1) 0 row = some (p.set (2 * k + 1) 0 row) :=
    Mat.write_some _ _ _ _ (by omega) (by omega)
  have hw2 : (p.set (2 * k + 1) 0 row).write (2 * k + 1) 1 (p.val (2 * k) 1)
      = some ((p.set (2 * k + 1) 0 row).set (2 * k + 1) 1 (p.val (2 * k) 1)) :=
    Mat.write_some _ _ _ _ (by simp only [Mat.set]; omega) (by simp only [Mat.set]; omega)
  have hw3 : ((p.set (2 * k + 1) 0 row).set (2 * k + 1) 1 (p.val (2 * k) 1)).write
      (2 * k + 2) 0 row
      = some (((p.set (2 * k + 1) 0 row).set (2 * k + 1) 1 (p.val (2 * k) 1)).set
          (2 * k + 2) 0 row) :=
    Mat.write_some _ _ _ _ (by simp only [Mat.set]; omega) (by simp only [Mat.set]; omega)
  have hw4 : (((p.set (2 * k + 1) 0 row).set (2 * k + 1) 1 (p.val (2 * k) 1)).set
      (2 * k + 2) 0 row).write (2 * k + 2) 1 col = some (path_extend p k row col) :=
    Mat.write_some _ _ _ _ (by simp only [Mat.set]; omega) (by simp only [Mat.set]; omega)
  have h1 : ((p.set (2 * k + 1) 0 row).set (2 * k + 1) 1 (p.val (2 * k) 1)).val
      (2 * k + 1) 0 = row := by
    simp [Mat.set]
  have h2 : (p.set (2 * k + 1) 0 row).val (2 * k) 1 = p.val (2 * k) 1 := by
    simp [Mat.set]
  rw [step5_loop]
  simp only [hstar', hw1, Option.some_bind, h2, hw2, h1, hprime', hw3, hw4]
  rfl

theorem path_extend_dims (p : Mat Nat) (k row col : Nat) :
    (path_extend p k row col).rows = p.rows ∧ (path_extend p k row col).cols = p.cols := by
  simp [path_extend, Mat.set]

/-- One more star and prime appended to the path. -/
theorem pathInv_extend (s : State) (hs : Search s) (rank : Nat → Nat)
    (hr1 : ∀ i, i < s.n → s.row_covered i = true → rank i < covCount s)
    (hr2 : ∀ i p i', i < s.n → p < s.n → i' < s.n → s.marked.val i p = 2 →
      s.row_covered i = true → s.marked.val i' p = 1 → rank i' < rank i)
    (p : Mat Nat) (k row col : Nat) (hp : PathInv s rank p k)
    (hrow : row < s.n) (hst : s.marked.val row (p.val (2 * k) 1) = 1)
    (hcol : col < s.n) (hpr : s.marked.val row col = 2) :
    s.row_covered row = true ∧ k + 1 + rank row ≤ covCount s ∧
    PathInv s rank (path_extend p k row col) (k + 1) := by
  obtain ⟨hRk, hCk, hPk⟩ := hp.prime k (le_refl k)
  have hcc : s.col_covered (p.val (2 * k) 1) = false := hs.prime_col _ _ hRk hCk hPk
  have hrc : s.row_covered row = true := (hs.star_cover row _ hrow hCk hst).mpr hcc
  have hrk : rank row < covCount s := hr1 row hrow hrc
  have hlt : 1 ≤ k → rank row < rank (p.val (2 * k) 0) := fun h1 =>
    hr2 _ _ row hRk hCk hrow hPk (hp.covered k h1 (le_refl k)) hst
  have hb : k + 1 + rank row ≤ covCount s := by
    rcases Nat.eq_zero_or_pos k with h0 | h0
    · omega
    · have := hlt h0
      rcases hp.bound with h1 | h1 <;> omega
  have e : 2 * (k + 1) = 2 * k + 2 := by ring
  obtain ⟨n1, n2, n3, n4⟩ := path_extend_new p k row col
  have old : ∀ m c, m ≤ 2 * k → (path_extend p k row col).val m c = p.val m c :=
    fun m c hm => path_extend_old p k row col m c hm
  refine ⟨hrc, hb, ⟨?_, ?_, ?_, ?_, ?_, ?_, ?_, ?_, ?_⟩⟩
  · rw [(path_extend_dims p k row col).1]; exact hp.rows
  · rw [(path_extend_dims p k row col).2]; exact hp.cols
  · rw [old 0 0 (by omega)]; exact hp.z0r
  · rw [old 0 1 (by omega)]; exact hp.z0c
  · intro i hi
    rcases Nat.le_succ_iff.mp hi with h | h
    · rw [old _ 0 (by omega), old _ 1 (by omega)]; exact hp.prime i h
    · subst h; rw [e, n3, n4]; exact ⟨hrow, hcol, hpr⟩
  · intro i hi
    rcases Nat.lt_succ_iff_lt_or_eq.mp hi with h | h
    · rw [old _ 0 (by omega), old _ 1 (by omega), old _ 0 (by omega), old _ 1 (by omega)]
      exact hp.star i h
    · subst h; rw [n1, n2, n3, old _ 1 (by omega)]; exact ⟨rfl, rfl, hst⟩
  · intro i h1 hi
    rcases Nat.le_succ_iff.mp hi with h | h
    · rw [old _ 0 (by omega)]; exact hp.covered i h1 h
    · subst h; rw [e, n3]; exact hrc
  · intro i j h1 hij hj
    rcases Nat.le_succ_iff.mp hj with h | h
    · rw [old _ 0 (by omega), old _ 0 (by omega)]; exact hp.decr i j h1 hij h
    · subst h
      rw [e, n3, old _ 0 (by omega)]
      rcases Nat.lt_succ_iff_lt_or_eq.mp hij with h2 | h2
      · have := hp.decr i k h1 h2 (le_refl k)
        have := hlt (by omega)
        omega
      · subst h2; exact hlt h1
  · right; rw [e, n3]; exact hb

/-- The loop of `step5` terminates within `covCount + 1` iterations, never
leaves the path buffer, always finds the prime it looks for, and stops at a
prime whose column holds no star. -/
theorem step5_loop_spec (s : State) (hs : Search s) (hz : Z0ok s) (rank : Nat → Nat)
    (hr1 : ∀ i, i < s.n → s.row_covered i = true → rank i < covCount s)
    (hr2 : ∀ i p i', i < s.n → p < s.n → i' < s.n → s.marked.val i p = 2 →
      s.row_covered i = true → s.marked.val i' p = 1 → rank i' < rank i)
    (fuel : Nat) :
    ∀ (k : Nat) (p : Mat Nat), PathInv s rank p k → covCount s - k < fuel →
      ∃ p' k', step5_loop fuel { s with path := p } (2 * k)
          = some ({ s with path := p' }, 2 * k') ∧
        PathInv s rank p' k' ∧
        ∀ i, i < s.n → s.marked.val i (p'.val (2 * k') 1) ≠ 1 := by
  induction fuel with
  | zero => intro k p _ h; omega
  | succ f ih =>
    intro k p hp hfuel
    cases hfs : find_star_in_col s (p.val (2 * k) 1) with
    | none =>
      refine ⟨p, k, ?_, hp, ?_⟩
      · have hfs' : find_star_in_col { s with path := p } (p.val (2 * k) 1) = none := hfs
        rw [step5_loop]
        simp only [hfs']
      · intro i hi
        have := find_first_none hfs i hi
        simpa using this
    | some row =>
      obtain ⟨hrow, hst, _⟩ := find_first_some hfs
      simp only [decide_eq_true_eq] at hst
      obtain ⟨hRk, hCk, hPk⟩ := hp.prime k (le_refl k)
      have hcc : s.col_covered (p.val (2 * k) 1) = false := hs.prime_col _ _ hRk hCk hPk
      have hrc : s.row_covered row = true := (hs.star_cover row _ hrow hCk hst).mpr hcc
      obtain ⟨j, hj, hj2⟩ := hs.row_prime row hrow hrc
      obtain ⟨col, hfp⟩ : ∃ col, find_prime_in_row s row = some col :=
        find_first_exists hj (by simpa using hj2)
      obtain ⟨hcol, hpr, _⟩ := find_first_some hfp
      simp only [decide_eq_true_eq] at hpr
      obtain ⟨_, hb, hp'⟩ := pathInv_extend s hs rank hr1 hr2 p k row col hp hrow hst hcol hpr
      have hcn := covCount_lt s s.Z0_r hz.r_lt hz.row_free
      rw [step5_loop_unfold f s p k row col (by rw [hp.rows]; omega) (by rw [hp.cols]; omega)
        hfs hfp]
      exact ih (k + 1) _ hp' (by omega)

/-! ## `step5`: conversion of the path -/

theorem convert_path_loop (s : State) (K : Nat)
    (hb : ∀ m, m < K → s.path.val m 0 < s.marked.rows ∧ s.path.val m 1 < s.marked.cols)
    (hd : ∀ m m', m < m' → m' < K →
      ¬ (s.path.val m 0 = s.path.val m' 0 ∧ s.path.val m 1 = s.path.val m' 1)) :
    ∃ t, forLoop K (fun i acc =>
        match acc with
        | none => none
        | some s =>
          let r := s.path.val i 0
          let c := s.path.val i 1
          if r < s.marked.rows ∧ c < s.marked.cols then
            (if s.marked.val r c = 1 then some { s with marked := s.marked.set r c 0 }
             else some { s with marked := s.marked.set r c 1 })
          else none) (some s) = some t ∧
      t = { s with marked := t.marked } ∧
      t.marked.rows = s.marked.rows ∧ t.marked.cols = s.marked.cols ∧
      ∀ a b, (OnPath s.path K a b →
          t.marked.val a b = if s.marked.val a b = 1 then 0 else 1) ∧
        (¬ OnPath s.path K a b → t.marked.val a b = s.marked.val a b) := by
  induction K with
  | zero =>
    refine ⟨s, rfl, rfl, rfl, rfl, ?_⟩
    intro a b
    constructor
    · rintro ⟨m, hm, _⟩; omega
    · intro _; rfl
  | succ q ih =>
    obtain ⟨t, h1, h2, h3, h4, h5⟩ := ih (fun m hm => hb m (by omega))
      (fun m m' h h' => hd m m' h (by omega))
    rw [forLoop_succ, h1]
    have hpath : t.path = s.path := by rw [h2]
    obtain ⟨hbr, hbc⟩ := hb q (Nat.lt_succ_self q)
    have hnot : ¬ OnPath s.path q (s.path.val q 0) (s.path.val q 1) := by
      rintro ⟨m, hm, e1, e2⟩
      exact hd m q hm (Nat.lt_succ_self q) ⟨e1, e2⟩
    have hval : t.marked.val (s.path.val q 0) (s.path.val q 1)
        = s.marked.val (s.path.val q 0) (s.path.val q 1) := (h5 _ _).2 hnot
    simp only [hpath, h3, h4, hbr, hbc, and_self, if_true, hval]
    have key : ∀ (x : Int), ∀ a b,
        (OnPath s.path (q + 1) a b →
          (t.marked.set (s.path.val q 0) (s.path.val q 1) x).val a b
            = if a = s.path.val q 0 ∧ b = s.path.val q 1 then x
              else if s.marked.val a b = 1 then 0 else 1) ∧
        (¬ OnPath s.path (q + 1) a b →
          (t.marked.set (s.path.val q 0) (s.path.val q 1) x).val a b = s.marked.val a b) := by
      intro x a b
      simp only [Mat.set]
      constructor
      · rintro ⟨m, hm, e1, e2⟩
        by_cases hc : a = s.path.val q 0 ∧ b = s.path.val q 1
        · rw [if_pos hc, if_pos hc]
        · rw [if_neg hc, if_neg hc]
          have hmq : m < q := by
            rcases Nat.lt_succ_iff_lt_or_eq.mp hm with h | h
            · exact h
            · subst h; exact absurd ⟨e1.symm, e2.symm⟩ hc
          exact (h5 a b).1 ⟨m, hmq, e1, e2⟩
      · intro hn
        have hc : ¬ (a = s.path.val q 0 ∧ b = s.path.val q 1) := by
          rintro ⟨e1, e2⟩
          exact hn ⟨q, Nat.lt_succ_self q, e1.symm, e2.symm⟩
        rw [if_neg hc]
        exact (h5 a b).2 (fun ⟨m, hm, e⟩ => hn ⟨m, by omega, e⟩)
    by_cases hs1 : s.marked.val (s.path.val q 0) (s.path.val q 1) = 1
    · rw [if_pos hs1]
      refine ⟨_, rfl, ?_, h3, h4, ?_⟩
      · rw [h2]
      · intro a b
        refine ⟨fun h => ?_, fun h => ((key 0 a b).2 h)⟩
        rw [(key 0 a b).1 h]
        by_cases hc : a = s.path.val q 0 ∧ b = s.path.val q 1
        · rw [if_pos hc, hc.1, hc.2, if_pos hs1]
        · rw [if_neg hc]
    · rw [if_neg hs1]
      refine ⟨_, rfl, ?_, h3, h4, ?_⟩
      · rw [h2]
      · intro a b
        refine ⟨fun h => ?_, fun h => ((key 1 a b).2 h)⟩
        rw [(key 1 a b).1 h]
        by_cases hc : a = s.path.val q 0 ∧ b = s.path.val q 1
        · rw [if_pos hc, hc.1, hc.2, if_neg hs1]
        · rw [if_neg hc]

/-! ## `step5`: shape of the finished path -/

theorem path_rows_distinct (s : State) (hz : Z0ok s) (rank : Nat → Nat) (p : Mat Nat)
    (k : Nat) (hp : PathInv s rank p k) (i j : Nat) (hij : i < j) (hj : j ≤ k) :
    p.val (2 * i) 0 ≠ p.val (2 * j) 0 := by
  intro heq
  rcases Nat.eq_zero_or_pos i with h0 | h0
  · subst h0
    have h1 := hp.covered j (by omega) hj
    rw [← heq] at h1
    simp only [Nat.mul_zero] at h1
    rw [hp.z0r, hz.row_free] at h1
    exact Bool.false_ne_true h1
  · have := hp.decr i j h0 hij hj
    rw [heq] at this
    omega

/-- Marks of the path entries: primes at even, stars at odd positions. -/
theorem path_cell_marks (s : State) (rank : Nat → Nat) (p : Mat Nat) (k : Nat)
    (hp : PathInv s rank p k) (m : Nat) (hm : m < 2 * k + 1) :
    p.val m 0 < s.n ∧ p.val m 1 < s.n ∧
    ((m % 2 = 0 ∧ s.marked.val (p.val m 0) (p.val m 1) = 2) ∨
     (m % 2 = 1 ∧ s.marked.val (p.val m 0) (p.val m 1) = 1)) := by
  obtain ⟨i, hi | hi⟩ : ∃ i, m = 2 * i ∨ m = 2 * i + 1 := ⟨m / 2, by omega⟩
  · subst hi
    obtain ⟨h1, h2, h3⟩ := hp.prime i (by omega)
    exact ⟨h1, h2, Or.inl ⟨by omega, h3⟩⟩
  · subst hi
    obtain ⟨h1, h2, h3⟩ := hp.star i (by omega)
    obtain ⟨g1, _, _⟩ := hp.prime (i + 1) (by omega)
    obtain ⟨_, g2, _⟩ := hp.prime i (by omega)
    have e : 2 * (i + 1) = 2 * i + 2 := by ring
    rw [e] at g1
    refine ⟨by rw [h1]; exact g1, by rw [h2]; exact g2, Or.inr ⟨by omega, h3⟩⟩

theorem path_distinct (s : State) (hz : Z0ok s) (rank : Nat → Nat) (p : Mat Nat) (k : Nat)
    (hp : PathInv s rank p k) (m m' : Nat) (hmm : m < m') (hm' : m' < 2 * k + 1) :
    ¬ (p.val m 0 = p.val m' 0 ∧ p.val m 1 = p.val m' 1) := by
  rintro ⟨e1, e2⟩
  obtain ⟨_, _, hmk⟩ := path_cell_marks s rank p k hp m (by omega)
  obtain ⟨_, _, hmk'⟩ := path_cell_marks s rank p k hp m' hm'
  rw [e1, e2] at hmk
  rcases hmk with ⟨hpar, hv⟩ | ⟨hpar, hv⟩ <;> rcases hmk' with ⟨hpar', hv'⟩ | ⟨hpar', hv'⟩
  · obtain ⟨i, rfl⟩ : ∃ i, m = 2 * i := ⟨m / 2, by omega⟩
    obtain ⟨j, rfl⟩ : ∃ j, m' = 2 * j := ⟨m' / 2, by omega⟩
    exact path_rows_distinct s hz rank p k hp i j (by omega) (by omega) e1
  · rw [hv] at hv'; omega
  · rw [hv] at hv'; omega
  · obtain ⟨i, rfl⟩ : ∃ i, m = 2 * i + 1 := ⟨m / 2, by omega⟩
    obtain ⟨j, rfl⟩ : ∃ j, m' = 2 * j + 1 := ⟨m' / 2, by omega⟩
    rw [(hp.star i (by omega)).1, (hp.star j (by omega)).1] at e1
    have e : ∀ x, 2 * x + 2 = 2 * (x + 1) := fun x => by ring
    rw [e, e] at e1
    exact path_rows_distinct s hz rank p k hp (i + 1) (j + 1) (by omega) (by omega) e1

/-- Every star in the row of a path prime lies on the path. -/
theorem path_row_star (s : State) (hm : Marks s) (hz : Z0ok s) (rank : Nat → Nat)
    (p : Mat Nat) (k : Nat) (hp : PathInv s rank p k) (i : Nat) (hi : i ≤ k) (b : Nat)
    (hb : b < s.n) (hst : s.marked.val (p.val (2 * i) 0) b = 1) :
    OnPath p (2 * k + 1) (p.val (2 * i) 0) b := by
  rcases Nat.eq_zero_or_pos i with h0 | h0
  · subst h0
    simp only [Nat.mul_zero] at hst
    rw [hp.z0r] at hst
    exact absurd hst (hz.no_star b hb)
  · obtain ⟨j, rfl⟩ : ∃ j, i = j + 1 := ⟨i - 1, by omega⟩
    obtain ⟨h1, h2, h3⟩ := hp.star j (by omega)
    have e : 2 * (j + 1) = 2 * j + 2 := by ring
    rw [e] at hst ⊢
    obtain ⟨g1, g2, _⟩ := path_cell_marks s rank p k hp (2 * j + 1) (by omega)
    rw [h1] at h3 g1
    have := hm.row_unique _ _ _ g1 hb g2 hst h3
    exact ⟨2 * j + 1, by omega, h1, this.symm⟩

/-- Every star in the column of a path prime lies on the path, once the loop
has stopped. -/
theorem path_col_star (s : State) (hm : Marks s) (rank : Nat → Nat)
    (p : Mat Nat) (k : Nat) (hp : PathInv s rank p k)
    (hend : ∀ i, i < s.n → s.marked.val i (p.val (2 * k) 1) ≠ 1)
    (i : Nat) (hi : i ≤ k) (a : Nat)
    (ha : a < s.n) (hst : s.marked.val a (p.val (2 * i) 1) = 1) :
    OnPath p (2 * k + 1) a (p.val (2 * i) 1) := by
  rcases Nat.lt_or_ge i k with h0 | h0
  · obtain ⟨h1, h2, h3⟩ := hp.star i h0
    obtain ⟨g1, g2, _⟩ := path_cell_marks s rank p k hp (2 * i + 1) (by omega)
    rw [h2] at h3 g2
    have := hm.col_unique _ _ _ ha g1 g2 hst h3
    exact ⟨2 * i + 1, by omega, this.symm, h2⟩
  · have : i = k := by omega
    subst this
    exact absurd hst (hend a ha)

theorem path_cols_distinct (s : State) (hm : Marks s) (hz : Z0ok s) (rank : Nat → Nat)
    (p : Mat Nat) (k : Nat) (hp : PathInv s rank p k)
    (hend : ∀ i, i < s.n → s.marked.val i (p.val (2 * k) 1) ≠ 1)
    (i j : Nat) (hij : i < j) (hj : j ≤ k) :
    p.val (2 * i) 1 ≠ p.val (2 * j) 1 := by
  intro heq
  obtain ⟨h1, h2, h3⟩ := hp.star i (by omega)
  obtain ⟨g1, g2, _⟩ := path_cell_marks s rank p k hp (2 * i + 1) (by omega)
  rw [h2, heq] at h3
  rcases Nat.lt_or_ge j k with h0 | h0
  · obtain ⟨f1, f2, f3⟩ := hp.star j h0
    obtain ⟨e1, e2, _⟩ := path_cell_marks s rank p k hp (2 * j + 1) (by omega)
    rw [f2] at f3 e2
    have := hm.col_unique _ _ _ g1 e1 e2 h3 f3
    rw [h1, f1] at this
    have e : ∀ x, 2 * x + 2 = 2 * (x + 1) := fun x => by ring
    rw [e, e] at this
    exact path_rows_distinct s hz rank p k hp (i + 1) (j + 1) (by omega) (by omega) this
  · have : j = k := by omega
    subst this
    exact hend _ g1 h3

/-! ## `step5`: the marks after the augmentation -/

theorem onPath_prime (s : State) (rank : Nat → Nat) (p : Mat Nat) (k : Nat)
    (hp : PathInv s rank p k) (a b : Nat) (hon : OnPath p (2 * k + 1) a b)
    (hmk : s.marked.val a b = 2) : ∃ i, i ≤ k ∧ a = p.val (2 * i) 0 ∧ b = p.val (2 * i) 1 := by
  obtain ⟨m, hm, e1, e2⟩ := hon
  obtain ⟨_, _, h⟩ := path_cell_marks s rank p k hp m hm
  rw [e1, e2] at h
  rcases h with ⟨hpar, _⟩ | ⟨_, hv⟩
  · obtain ⟨i, rfl⟩ : ∃ i, m = 2 * i := ⟨m / 2, by omega⟩
    exact ⟨i, by omega, e1.symm, e2.symm⟩
  · rw [hv] at hmk; omega

theorem onPath_star (s : State) (rank : Nat → Nat) (p : Mat Nat) (k : Nat)
    (hp : PathInv s rank p k) (a b : Nat) (hon : OnPath p (2 * k + 1) a b)
    (hmk : s.marked.val a b = 1) : ∃ i, i < k ∧ a = p.val (2 * (i + 1)) 0 := by
  obtain ⟨m, hm, e1, e2⟩ := hon
  obtain ⟨_, _, h⟩ := path_cell_marks s rank p k hp m hm
  rw [e1, e2] at h
  rcases h with ⟨_, hv⟩ | ⟨hpar, _⟩
  · rw [hv] at hmk; omega
  · obtain ⟨i, rfl⟩ : ∃ i, m = 2 * i + 1 := ⟨m / 2, by omega⟩
    have e : 2 * (i + 1) = 2 * i + 2 := by ring
    refine ⟨i, by omega, ?_⟩
    rw [e, ← (hp.star i (by omega)).1, e1]

theorem onPath_of_prime (p : Mat Nat) (k i : Nat) (hi : i ≤ k) :
    OnPath p (2 * k + 1) (p.val (2 * i) 0) (p.val (2 * i) 1) :=
  ⟨2 * i, by omega, rfl, rfl⟩

theorem newStar_row_unique (s : State) (hm : Marks s) (hz : Z0ok s) (rank : Nat → Nat)
    (p : Mat Nat) (k : Nat) (hp : PathInv s rank p k) (a b b' : Nat) (ha : a < s.n)
    (hb : b < s.n) (hb' : b' < s.n) (h1 : NewStar s p k a b) (h2 : NewStar s p k a b') :
    b = b' := by
  rcases h1 with ⟨on1, m1⟩ | ⟨off1, m1⟩ <;> rcases h2 with ⟨on2, m2⟩ | ⟨off2, m2⟩
  · obtain ⟨i, hi, e1, e2⟩ := onPath_prime s rank p k hp a b on1 m1
    obtain ⟨j, hj, f1, f2⟩ := onPath_prime s rank p k hp a b' on2 m2
    have hij : i = j := by
      rcases Nat.lt_trichotomy i j with h | h | h
      · exact absurd (e1.symm.trans f1) (path_rows_distinct s hz rank p k hp i j h hj)
      · exact h
      · exact absurd (f1.symm.trans e1) (path_rows_distinct s hz rank p k hp j i h hi)
    rw [e2, f2, hij]
  · obtain ⟨i, hi, e1, _⟩ := onPath_prime s rank p k hp a b on1 m1
    rw [e1] at m2 off2
    exact absurd (path_row_star s hm hz rank p k hp i hi b' hb' m2) off2
  · obtain ⟨i, hi, e1, _⟩ := onPath_prime s rank p k hp a b' on2 m2
    rw [e1] at m1 off1
    exact absurd (path_row_star s hm hz rank p k hp i hi b hb m1) off1
  · exact hm.row_unique a b b' ha hb hb' m1 m2

theorem newStar_col_unique (s : State) (hm : Marks s) (hz : Z0ok s) (rank : Nat → Nat)
    (p : Mat Nat) (k : Nat) (hp : PathInv s rank p k)
    (hend : ∀ i, i < s.n → s.marked.val i (p.val (2 * k) 1) ≠ 1)
    (a a' b : Nat) (ha : a < s.n) (ha' : a' < s.n)
    (hb : b < s.n) (h1 : NewStar s p k a b) (h2 : NewStar s p k a' b) :
    a = a' := by
  rcases h1 with ⟨on1, m1⟩ | ⟨off1, m1⟩ <;> rcases h2 with ⟨on2, m2⟩ | ⟨off2, m2⟩
  · obtain ⟨i, hi, e1, e2⟩ := onPath_prime s rank p k hp a b on1 m1
    obtain ⟨j, hj, f1, f2⟩ := onPath_prime s rank p k hp a' b on2 m2
    have hij : i = j := by
      rcases Nat.lt_trichotomy i j with h | h | h
      · exact absurd (e2.symm.trans f2)
          (path_cols_distinct s hm hz rank p k hp hend i j h hj)
      · exact h
      · exact absurd (f2.symm.trans e2)
          (path_cols_distinct s hm hz rank p k hp hend j i h hi)
    rw [e1, f1, hij]
  · obtain ⟨i, hi, _, e2⟩ := onPath_prime s rank p k hp a b on1 m1
    rw [e2] at m2 off2
    exact absurd (path_col_star s hm rank p k hp hend i hi a' ha' m2) off2
  · obtain ⟨i, hi, _, e2⟩ := onPath_prime s rank p k hp a' b on2 m2
    rw [e2] at m1 off1
    exact absurd (path_col_star s hm rank p k hp hend i hi a ha m1) off1
  · exact hm.col_unique a a' b ha ha' hb m1 m2

/-- A row that held a star still holds one, and the row of `Z0` gains one. -/
theorem newStar_rows (s : State) (rank : Nat → Nat)
    (p : Mat Nat) (k : Nat) (hp : PathInv s rank p k) :
    (∀ a, HasStarRow s a → ∃ b, b < s.n ∧ NewStar s p k a b) ∧
    (∃ b, b < s.n ∧ NewStar s p k s.Z0_r b) := by
  constructor
  · rintro a ⟨b, hb, hab⟩
    by_cases hon : OnPath p (2 * k + 1) a b
    · obtain ⟨i, hi, e⟩ := onPath_star s rank p k hp a b hon hab
      obtain ⟨_, g2, g3⟩ := hp.prime (i + 1) (by omega)
      refine ⟨p.val (2 * (i + 1)) 1, g2, Or.inl ⟨?_, ?_⟩⟩
      · rw [e]; exact onPath_of_prime p k (i + 1) (by omega)
      · rw [e]; exact g3
    · exact ⟨b, hb, Or.inr ⟨hon, hab⟩⟩
  · obtain ⟨_, g2, g3⟩ := hp.prime 0 (by omega)
    have h0 := onPath_of_prime p k 0 (by omega)
    simp only [Nat.mul_zero] at g2 g3 h0
    rw [hp.z0r] at g3 h0
    exact ⟨p.val 0 1, g2, Or.inl ⟨h0, g3⟩⟩

/-! ## `step5`: the whole step -/

theorem pathInv_init (s : State) (hsh : Shape s) (hz : Z0ok s) (rank : Nat → Nat) :
    PathInv s rank ((s.path.set 0 0 s.Z0_r).set 0 1 s.Z0_c) 0 := by
  refine ⟨hsh.path_rows, hsh.path_cols, by simp [Mat.set], by simp [Mat.set], ?_, ?_, ?_, ?_,
    Or.inl rfl⟩
  · intro i hi
    have : i = 0 := by omega
    subst this
    simp only [Nat.mul_zero, Mat.set]
    simp only [and_self, and_true, if_true, one_ne_zero, and_false, if_false]
    exact ⟨hz.r_lt, hz.c_lt, hz.prime⟩
  · intro i hi; omega
  · intro i h1 h2; omega
  · intro i j h1 h2 h3; omega

/-- Execution of `step5` with enough fuel: the path is built inside the
buffer, every path cell is toggled once, covers and primes are cleared. -/
theorem step5_run (s : State) (hsh : Shape s) (hs : Search s) (hz : Z0ok s)
    (fuel : Nat) (hfuel : covCount s < fuel) :
    ∃ (p : Mat Nat) (k : Nat) (t : State) (rank : Nat → Nat),
      PathInv s rank p k ∧
      (∀ i, i < s.n → s.marked.val i (p.val (2 * k) 1) ≠ 1) ∧
      step5 fuel s = some (3, erase_primes (clear_covers t)) ∧
      t = { s with path := p, marked := t.marked } ∧
      t.marked.rows = s.marked.rows ∧ t.marked.cols = s.marked.cols ∧
      ∀ a b, (OnPath p (2 * k + 1) a b →
          t.marked.val a b = if s.marked.val a b = 1 then 0 else 1) ∧
        (¬ OnPath p (2 * k + 1) a b → t.marked.val a b = s.marked.val a b) := by
  obtain ⟨rank, hr1, hr2⟩ := hs.rank
  have hn := search_n_pos s hs
  have hp0 := pathInv_init s hsh hz rank
  obtain ⟨p, k, hloop, hp, hend⟩ :=
    step5_loop_spec s hs hz rank hr1 hr2 fuel 0 _ hp0 (by omega)
  have hb : ∀ m, m < 2 * k + 1 →
      p.val m 0 < s.marked.rows ∧ p.val m 1 < s.marked.cols := by
    intro m hm
    obtain ⟨h1, h2, _⟩ := path_cell_marks s rank p k hp m hm
    rw [hsh.marked_rows, hsh.marked_cols]
    exact ⟨h1, h2⟩
  obtain ⟨t, h1, h2, h3, h4, h5⟩ := convert_path_loop { s with path := p } (2 * k + 1) hb
    (fun m m' hmm hm' => path_distinct s hz rank p k hp m m' hmm hm')
  refine ⟨p, k, t, rank, hp, hend, ?_, h2, h3, h4, h5⟩
  unfold step5
  rw [Mat.write_some _ _ _ _ (by rw [hsh.path_rows]; omega) (by rw [hsh.path_cols]; omega)]
  simp only [Option.some_bind]
  rw [Mat.write_some _ _ _ _ (by simp only [Mat.set]; rw [hsh.path_rows]; omega)
    (by simp only [Mat.set]; rw [hsh.path_cols]; omega)]
  simp only [Option.some_bind]
  simp only [Nat.mul_zero] at hloop
  rw [hloop]
  simp only [Option.some_bind]
  unfold convert_path
  rw [h1]
  rfl

theorem final_marks (s : State) (hm : Marks s) (rank : Nat → Nat) (p : Mat Nat) (k : Nat)
    (hp : PathInv s rank p k) (tm : Nat → Nat → Int)
    (h5 : ∀ a b, (OnPath p (2 * k + 1) a b →
          tm a b = if s.marked.val a b = 1 then 0 else 1) ∧
        (¬ OnPath p (2 * k + 1) a b → tm a b = s.marked.val a b))
    (a b : Nat) (ha : a < s.n) (hb : b < s.n) :
    ((if a < s.n ∧ b < s.n ∧ tm a b = 2 then (0 : Int) else tm a b) = 0 ∨
     (if a < s.n ∧ b < s.n ∧ tm a b = 2 then (0 : Int) else tm a b) = 1) ∧
    ((if a < s.n ∧ b < s.n ∧ tm a b = 2 then (0 : Int) else tm a b) = 1 ↔
      NewStar s p k a b) := by
  unfold NewStar
  by_cases hon : OnPath p (2 * k + 1) a b
  · rw [(h5 a b).1 hon]
    have hmk : s.marked.val a b = 1 ∨ s.marked.val a b = 2 := by
      obtain ⟨m, hm1, e1, e2⟩ := hon
      obtain ⟨_, _, h⟩ := path_cell_marks s rank p k hp m hm1
      rw [e1, e2] at h
      rcases h with ⟨_, h⟩ | ⟨_, h⟩
      · exact Or.inr h
      · exact Or.inl h
    rcases hmk with h1 | h2
    · simp [h1, hon, ha, hb]
    · simp [h2, hon, ha, hb]
  · rw [(h5 a b).2 hon]
    rcases hm.range a b ha hb with h0 | h1 | h2
    · simp [h0, hon]
    · simp [h1, hon]
    · simp [h2, hon, ha, hb]

theorem inv_step5 (M : Mat Int) (s : State) (h : Inv M 5 s) (fuel : Nat)
    (hfuel : covCount s < fuel) :
    ∃ t, step5 fuel s = some (3, t) ∧ Inv M 3 t ∧ srCount s < srCount t := by
  obtain ⟨hfeas, hmarks⟩ := h.st3 (by omega)
  obtain ⟨hs, hz⟩ := h.st5 rfl
  have hsh := h.shape
  obtain ⟨p, k, t, rank, hp, hend, hrun, ht, hr, hc, h5⟩ := step5_run s hsh hs hz fuel hfuel
  have htn : t.n = s.n := by rw [ht]
  have htC : t.C = s.C := by rw [ht]
  have htp : t.path = p := by rw [ht]
  have hfm := final_marks s hmarks rank p k hp t.marked.val h5
  have h2n : (erase_primes (clear_covers t)).n = s.n := by
    rw [clear_covers_eq, erase_primes_eq]; exact htn
  have h2C : (erase_primes (clear_covers t)).C = s.C := by
    rw [clear_covers_eq, erase_primes_eq]; exact htC
  have h2p : (erase_primes (clear_covers t)).path = p := by
    rw [clear_covers_eq, erase_primes_eq]; exact htp
  have h2ol : (erase_primes (clear_covers t)).original_length = s.original_length := by
    rw [clear_covers_eq, erase_primes_eq, ht]
  have h2ow : (erase_primes (clear_covers t)).original_width = s.original_width := by
    rw [clear_covers_eq, erase_primes_eq, ht]
  have h2mr : (erase_primes (clear_covers t)).marked.rows = s.marked.rows := by
    rw [clear_covers_eq, erase_primes_eq]; exact hr
  have h2mc : (erase_primes (clear_covers t)).marked.cols = s.marked.cols := by
    rw [clear_covers_eq, erase_primes_eq]; exact hc
  have h2rc : ∀ i, i < s.n → (erase_primes (clear_covers t)).row_covered i = false := by
    intro i hi
    rw [clear_covers_eq, erase_primes_eq]
    simp only []
    rw [htn, if_pos hi]
  have h2cc : ∀ i, i < s.n → (erase_primes (clear_covers t)).col_covered i = false := by
    intro i hi
    rw [clear_covers_eq, erase_primes_eq]
    simp only []
    rw [htn, if_pos hi]
  have h2m : ∀ a b, (erase_primes (clear_covers t)).marked.val a b =
      if a < s.n ∧ b < s.n ∧ t.marked.val a b = 2 then 0 else t.marked.val a b := by
    intro a b
    rw [clear_covers_eq, erase_primes_eq]
    simp only []
    rw [htn]
  generalize erase_primes (clear_covers t) = t2 at hrun h2n h2C h2p h2ol h2ow h2mr h2mc h2rc h2cc h2m
  have hrange : ∀ a b, a < s.n → b < s.n → t2.marked.val a b = 0 ∨ t2.marked.val a b = 1 := by
    intro a b ha hb; rw [h2m]; exact (hfm a b ha hb).1
  have hstar : ∀ a b, a < s.n → b < s.n → (t2.marked.val a b = 1 ↔ NewStar s p k a b) := by
    intro a b ha hb; rw [h2m]; exact (hfm a b ha hb).2
  refine ⟨t2, hrun, ?_, ?_⟩
  · refine ⟨⟨by rw [h2C, h2n]; exact hsh.C_rows, by rw [h2C, h2n]; exact hsh.C_cols,
        by rw [h2mr, h2n]; exact hsh.marked_rows, by rw [h2mc, h2n]; exact hsh.marked_cols,
        by rw [h2p, h2n]; exact hp.rows, by rw [h2p, h2n]; exact hp.cols⟩,
      by rw [h2n]; exact h.n_eq, by rw [h2ol]; exact h.ol_eq, by rw [h2ow]; exact h.ow_eq,
      ?_, ?_, ?_, ?_, ?_, ?_, ?_, ?_, by omega⟩
    · intro hc; omega
    · intro hc; omega
    · intro _
      refine ⟨⟨?_, ?_⟩, ⟨?_, ?_, ?_, ?_⟩⟩
      · rw [h2n, h2C]; exact hfeas.nonneg
      · rw [h2n, h2C]; exact hfeas.dual
      · intro a b ha hb
        rw [h2n] at ha hb
        rcases hrange a b ha hb with h0 | h1
        · exact Or.inl h0
        · exact Or.inr (Or.inl h1)
      · intro a b b' ha hb hb' h1 h2
        rw [h2n] at ha hb hb'
        exact newStar_row_unique s hmarks hz rank p k hp a b b' ha hb hb'
          ((hstar a b ha hb).mp h1) ((hstar a b' ha hb').mp h2)
      · intro a a' b ha ha' hb h1 h2
        rw [h2n] at ha ha' hb
        exact newStar_col_unique s hmarks hz rank p k hp hend a a' b ha ha' hb
          ((hstar a b ha hb).mp h1) ((hstar a' b ha' hb).mp h2)
      · intro a b ha hb h1
        rw [h2n] at ha hb
        rw [h2C]
        rcases h1 with h1 | h1
        · rcases (hstar a b ha hb).mp h1 with ⟨_, h2⟩ | ⟨_, h2⟩
          · exact hmarks.zero a b ha hb (Or.inr h2)
          · exact hmarks.zero a b ha hb (Or.inl h2)
        · rcases hrange a b ha hb with h0 | h0 <;> omega
    · intro _
      refine ⟨?_, ?_, ?_⟩
      · intro i hi; rw [h2n] at hi; exact h2rc i hi
      · intro i hi; rw [h2n] at hi; exact h2cc i hi
      · intro a b ha hb h1
        rw [h2n] at ha hb
        rcases hrange a b ha hb with h0 | h0 <;> omega
    · intro hc; omega
    · intro hc; omega
    · intro hc; omega
    · intro hc; omega
  · obtain ⟨hold, b0, hb0, hnew⟩ := newStar_rows s rank p k hp
    unfold srCount
    apply Finset.card_lt_card
    rw [h2n]
    constructor
    · intro a ha
      simp only [Finset.mem_filter, Finset.mem_range] at ha ⊢
      refine ⟨ha.1, ?_⟩
      obtain ⟨b, hb, hab⟩ := hold a ha.2
      exact ⟨b, by rw [h2n]; exact hb, (hstar a b ha.1 hb).mpr hab⟩
    · intro hsub
      have hmem : s.Z0_r ∈ (Finset.range s.n).filter (fun i => HasStarRow s i) := by
        apply hsub
        simp only [Finset.mem_filter, Finset.mem_range]
        exact ⟨hz.r_lt, b0, by rw [h2n]; exact hb0, (hstar s.Z0_r b0 hz.r_lt hb0).mpr hnew⟩
      simp only [Finset.mem_filter, Finset.mem_range] at hmem
      obtain ⟨_, j, hj, hj1⟩ := hmem
      exact hz.no_star j hj hj1

/-! ## Fuel monotonicity -/

theorem step5_loop_mono (fuel : Nat) :
    ∀ (s : State) (count : Nat) (r : State × Nat),
      step5_loop fuel s count = some r → step5_loop (fuel + 1) s count = some r := by
  induction fuel with
  | zero => intro s c r h; simp [step5_loop] at h
  | succ k ih =>
    intro s c r h
    rw [step5_loop] at h ⊢
    cases hfs : find_star_in_col s (s.path.val c 1) with
    | none => rw [hfs] at h; exact h
    | some row =>
      rw [hfs] at h
      simp only [] at h ⊢
      cases h1 : s.path.write (c + 1) 0 row with
      | none => rw [h1] at h; simp at h
      | some p1 =>
        rw [h1] at h
        simp only [Option.some_bind] at h ⊢
        cases h2 : p1.write (c + 1) 1 (p1.val c 1) with
        | none => rw [h2] at h; simp at h
        | some p2 =>
          rw [h2] at h
          simp only [Option.some_bind] at h ⊢
          cases h3 : find_prime_in_row s (p2.val (c + 1) 0) with
          | none => rw [h3] at h; simp at h
          | some col =>
            rw [h3] at h
            simp only [Option.some_bind] at h ⊢
            cases h4 : p2.write (c + 2) 0 (p2.val (c + 1) 0) with
            | none => rw [h4] at h; simp at h
            | some p3 =>
              rw [h4] at h
              simp only [Option.some_bind] at h ⊢
              cases h5 : p3.write (c + 2) 1 col with
              | none => rw [h5] at h; simp at h
              | some p4 =>
                rw [h5] at h
                simp only [Option.some_bind] at h ⊢
                exact ih _ _ r h

theorem step5_loop_mono_le {k k' : Nat} (hk : k ≤ k') {s : State} {c : Nat} {r : State × Nat}
    (h : step5_loop k s c = some r) : step5_loop k' s c = some r := by
  induction hk with
  | refl => exact h
  | step _ ih => exact step5_loop_mono _ s c r ih

theorem step5_mono_le {k k' : Nat} (hk : k ≤ k') {s : State} {r : Int × State}
    (h : step5 k s = some r) : step5 k' s = some r := by
  unfold step5 at h ⊢
  cases h1 : s.path.write 0 0 s.Z0_r with
  | none => rw [h1] at h; simp at h
  | some p0 =>
    rw [h1] at h
    simp only [Option.some_bind] at h ⊢
    cases h2 : p0.write 0 1 s.Z0_c with
    | none => rw [h2] at h; simp at h
    | some p1 =>
      rw [h2] at h
      simp only [Option.some_bind] at h ⊢
      cases h3 : step5_loop k { s with path := p1 } 0 with
      | none => rw [h3] at h; simp at h
      | some r1 =>
        rw [h3] at h
        rw [step5_loop_mono_le hk h3]
        exact h

theorem run_step_mono_le {k k' : Nat} (hk : k ≤ k') {st : Int} {s : State} {r : Int × State}
    (h : run_step k st s = some r) : run_step k' st s = some r := by
  unfold run_step at h ⊢
  split_ifs at h ⊢
  · exact h
  · exact h
  · exact h
  · exact step4_mono_le hk h
  · exact step5_mono_le hk h
  · exact h
  · exact h

theorem compute_loop_mono (f f' : Nat) (hf : f ≤ f') (k : Nat) :
    ∀ (k' : Nat) (st : Int) (s : State) (r : Int × State), k ≤ k' →
      compute_loop f k st s = some r → compute_loop f' k' st s = some r := by
  induction k with
  | zero => intro k' st s r _ h; simp [compute_loop] at h
  | succ q ih =>
    intro k' st s r hk h
    obtain ⟨q', rfl⟩ : ∃ q', k' = q' + 1 := ⟨k' - 1, by omega⟩
    rw [compute_loop] at h ⊢
    cases h1 : run_step f st s with
    | none => rw [h1] at h; simp at h
    | some r1 =>
      rw [h1] at h
      rw [run_step_mono_le hf h1]
      simp only [] at h ⊢
      split_ifs at h ⊢ with hc
      · exact ih q' _ _ r (by omega) h
      · exact h

/-! ## The termination measure -/

theorem search_uncovered (s : State) (hs : Search s) :
    ∃ i j, i < s.n ∧ j < s.n ∧ s.row_covered i = false ∧ s.col_covered j = false := by
  obtain ⟨i, hi, hfi⟩ := hs.free_row
  obtain ⟨j, hj, hfj⟩ := hs.free_col
  refine ⟨i, j, hi, hj, ?_, ?_⟩
  · cases h : s.row_covered i
    · rfl
    · obtain ⟨b, hb, hb1⟩ := hs.row_star i hi h
      exact absurd hb1 (hfi b hb)
  · cases h : s.col_covered j
    · rfl
    · obtain ⟨a, ha, ha1⟩ := hs.col_star j hj h
      exact absurd ha1 (hfj a ha)

theorem step6_decreases (M : Mat Int) (s : State) (h : Inv M 6 s) :
    uncovSum (step6 s).2 < uncovSum s ∧ covCount (step6 s).2 = covCount s ∧
    srCount (step6 s).2 = srCount s ∧ (step6 s).2.n = s.n := by
  obtain ⟨hfeas, hmarks⟩ := h.st3 (by omega)
  obtain ⟨hsearch, hprime⟩ := h.st46 (Or.inr rfl)
  have hz := h.st6 rfl
  have hv := find_smallest_pos s hfeas.nonneg hz
  have hle := (find_smallest_spec s).2.1
  rw [step6_eq]
  generalize find_smallest s = v at hv hle
  refine ⟨?_, rfl, rfl, rfl⟩
  obtain ⟨i0, j0, hi0, hj0, hr0, hc0⟩ := search_uncovered s hsearch
  unfold uncovSum
  simp only []
  have hterm : ∀ i j, i < s.n → j < s.n →
      (if s.row_covered i = false ∧ s.col_covered j = false then
        ((if i < s.n ∧ j < s.n then
          s.C.val i j + (if s.row_covered i = true then v else 0)
            - (if s.col_covered j = false then v else 0)
          else s.C.val i j)).toNat else 0) ≤
      (if s.row_covered i = false ∧ s.col_covered j = false then (s.C.val i j).toNat else 0) ∧
      (s.row_covered i = false ∧ s.col_covered j = false →
      (if s.row_covered i = false ∧ s.col_covered j = false then
        ((if i < s.n ∧ j < s.n then
          s.C.val i j + (if s.row_covered i = true then v else 0)
            - (if s.col_covered j = false then v else 0)
          else s.C.val i j)).toNat else 0) <
      (if s.row_covered i = false ∧ s.col_covered j = false then
        (s.C.val i j).toNat else 0)) := by
    intro i j hi hj
    by_cases hu : s.row_covered i = false ∧ s.col_covered j = false
    · have h1 := hle i j hi hj hu
      have h2 := hfeas.nonneg i j hi hj
      rw [if_pos hu, if_pos hu, if_pos ⟨hi, hj⟩]
      simp only [hu.1, hu.2, Bool.false_eq_true, if_false, if_true, add_zero]
      constructor
      · omega
      · intro _; omega
    · rw [if_neg hu, if_neg hu]
      exact ⟨le_refl _, fun h => absurd h hu⟩
  apply Finset.sum_lt_sum
  · intro i hi
    apply Finset.sum_le_sum
    intro j hj
    exact (hterm i j (Finset.mem_range.mp hi) (Finset.mem_range.mp hj)).1
  · refine ⟨i0, Finset.mem_range.mpr hi0, ?_⟩
    apply Finset.sum_lt_sum
    · intro j hj
      exact (hterm i0 j hi0 (Finset.mem_range.mp hj)).1
    · exact ⟨j0, Finset.mem_range.mpr hj0, (hterm i0 j0 hi0 hj0).2 ⟨hr0, hc0⟩⟩

theorem lex4_lt (a b c d a' b' c' d' : Nat)
    (h : a' < a ∨ (a' = a ∧ (b' < b ∨ (b' = b ∧ (c' < c ∨ (c' = c ∧ d' < d)))))) :
    (toLex (a', toLex (b', toLex (c', d'))) : ℕ ×ₗ ℕ ×ₗ ℕ ×ₗ ℕ)
      < toLex (a, toLex (b, toLex (c, d))) := by
  rw [Prod.Lex.lt_iff]
  rcases h with h | ⟨h1, h⟩
  · exact Or.inl h
  · refine Or.inr ⟨h1, ?_⟩
    simp only []
    rw [Prod.Lex.lt_iff]
    rcases h with h | ⟨h2, h⟩
    · exact Or.inl h
    · refine Or.inr ⟨h2, ?_⟩
      simp only []
      rw [Prod.Lex.lt_iff]
      rcases h with h | ⟨h3, h⟩
      · exact Or.inl h
      · exact Or.inr ⟨h3, h⟩

theorem srCount_congr (s t : State) (hn : t.n = s.n)
    (hst : ∀ i j, t.marked.val i j = 1 ↔ s.marked.val i j = 1) : srCount t = srCount s := by
  unfold srCount
  rw [hn]
  congr 1
  apply Finset.filter_congr
  intro i _
  unfold HasStarRow
  rw [hn]
  constructor
  · rintro ⟨j, hj, h⟩; exact ⟨j, hj, (hst i j).mp h⟩
  · rintro ⟨j, hj, h⟩; exact ⟨j, hj, (hst i j).mpr h⟩

theorem step3_srCount (s : State) :
    srCount (step3 s).2 = srCount s ∧ (step3 s).2.n = s.n := by
  have hst : (step3 s).2 = (step3_scan s).1 := by
    unfold step3; simp only []; split_ifs <;> rfl
  obtain ⟨h1, _, _⟩ := step3_scan_spec s
  rw [hst, h1]
  exact ⟨rfl, rfl⟩

/-! ## One step of the loop -/

/-- Every step taken from a state satisfying the invariant returns (given
enough fuel), re-establishes the invariant for the returned code, and either
finishes with code 7 or lowers the measure. -/
theorem run_step_spec (M : Mat Int) (st : Int) (s : State) (h : Inv M st s) (hst : st ≤ 6) :
    ∃ (F : Nat) (r : Int × State), (∀ fuel, F ≤ fuel → run_step fuel st s = some r) ∧
      Inv M r.1 r.2 ∧ (r.1 = 7 ∨ (r.1 ≤ 6 ∧ mu r.1 r.2 < mu st s)) := by
  have hcode := h.code
  have hcases : st = 1 ∨ st = 2 ∨ st = 3 ∨ st = 4 ∨ st = 5 ∨ st = 6 := by omega
  rcases hcases with rfl | rfl | rfl | rfl | rfl | rfl
  · have hi := inv_step1 M s h
    have hc : (step1 s).1 = 2 := rfl
    refine ⟨0, step1 s, fun _ _ => rfl, by rw [hc]; exact hi, Or.inr ⟨by rw [hc]; omega, ?_⟩⟩
    have hn : (step1 s).2.n = s.n := by rw [hi.n_eq, h.n_eq]
    rw [hc]
    unfold mu
    apply lex4_lt
    left
    simp only [hn]
    norm_num
  · have hi := inv_step2 M s h
    have hc : (step2 s).1 = 3 := rfl
    refine ⟨0, step2 s, fun _ _ => rfl, by rw [hc]; exact hi, Or.inr ⟨by rw [hc]; omega, ?_⟩⟩
    have hn : (step2 s).2.n = s.n := by rw [hi.n_eq, h.n_eq]
    rw [hc]
    unfold mu
    apply lex4_lt
    left
    simp only [hn]
    norm_num
    omega
  · have hi := inv_step3 M s h
    obtain ⟨hsr, hn⟩ := step3_srCount s
    refine ⟨0, step3 s, fun _ _ => rfl, hi, ?_⟩
    rcases step3_code s with hc | hc
    · exact Or.inl hc
    · refine Or.inr ⟨by rw [hc]; omega, ?_⟩
      rw [hc]
      unfold mu
      apply lex4_lt
      left
      simp only [hn, hsr]
      norm_num
  · obtain ⟨hsearch, _⟩ := h.st46 (Or.inl rfl)
    obtain ⟨r, hr⟩ := step4_terminates M (s.n - covCount s + 1) s h (by omega)
    obtain ⟨hi, hc, hn, hstar, hcov, hsame⟩ := inv_step4 M _ s r h hr
    have hrun : ∀ fuel, s.n - covCount s + 1 ≤ fuel → run_step fuel 4 s = some r := by
      intro fuel hf
      exact step4_mono_le hf hr
    refine ⟨_, r, hrun, hi, Or.inr ⟨by omega, ?_⟩⟩
    have hsr := srCount_congr s r.2 hn hstar
    obtain ⟨i0, j0, hi0, _, hr0, _⟩ := search_uncovered s hsearch
    have hlt := covCount_lt s i0 hi0 hr0
    unfold mu
    apply lex4_lt
    right
    rcases hc with hc | hc
    · rw [hc]
      simp only [hn, hsr]
      norm_num
    · rw [hc]
      simp only [hn, hsr]
      norm_num
      by_cases hce : covCount r.2 = covCount s
      · right
        have := hsame hc hce
        rw [this]
        exact ⟨rfl, Or.inr rfl⟩
      · left; omega
  · obtain ⟨t, hrun, hi, hsr⟩ := inv_step5 M s h (covCount s + 1) (by omega)
    have hrun' : ∀ fuel, covCount s + 1 ≤ fuel → run_step fuel 5 s = some (3, t) := by
      intro fuel hf
      exact step5_mono_le hf hrun
    refine ⟨_, (3, t), hrun', hi, Or.inr ⟨by simp, ?_⟩⟩
    have hn : t.n = s.n := by rw [hi.n_eq, h.n_eq]
    have hle := srCount_le t
    simp only []
    unfold mu
    apply lex4_lt
    left
    simp only [hn]
    norm_num
    omega
  · have hi := inv_step6 M s h
    have hc : (step6 s).1 = 4 := rfl
    obtain ⟨hdec, hcov, hsr, hn⟩ := step6_decreases M s h
    refine ⟨0, step6 s, fun _ _ => rfl, by rw [hc]; exact hi, Or.inr ⟨by rw [hc]; omega, ?_⟩⟩
    rw [hc]
    unfold mu
    apply lex4_lt
    right
    simp only [hn, hsr, hcov]
    norm_num
    exact hdec

/-! ## Termination of the step loop -/

theorem compute_loop_terminates (M : Mat Int) :
    ∀ (x : Int × State), Inv M x.1 x.2 → x.1 ≤ 6 →
      ∃ (F K : Nat) (t : State),
        (∀ fuel k, F ≤ fuel → K ≤ k → compute_loop fuel k x.1 x.2 = some (7, t)) ∧
        Inv M 7 t := by
  have wf : WellFounded (fun (x y : Int × State) => mu x.1 x.2 < mu y.1 y.2) :=
    InvImage.wf (fun x : Int × State => mu x.1 x.2) wellFounded_lt
  intro x
  induction x using wf.induction with
  | _ x ih =>
    intro h hst
    obtain ⟨F, r, hrun, hinv, hdec⟩ := run_step_spec M x.1 x.2 h hst
    rcases hdec with h7 | ⟨h6, hlt⟩
    · refine ⟨F, 1, r.2, ?_, by rw [← h7]; exact hinv⟩
      intro fuel k hf hk
      obtain ⟨q, rfl⟩ : ∃ q, k = q + 1 := ⟨k - 1, by omega⟩
      rw [compute_loop, hrun fuel hf]
      simp only []
      rw [if_neg (by omega)]
      rw [← h7]
    · obtain ⟨F1, K1, t, hloop, ht⟩ := ih r hlt hinv h6
      refine ⟨max F F1, K1 + 1, t, ?_, ht⟩
      intro fuel k hf hk
      obtain ⟨q, rfl⟩ : ∃ q, k = q + 1 := ⟨k - 1, by omega⟩
      rw [compute_loop, hrun fuel (le_trans (le_max_left _ _) hf)]
      simp only []
      rw [if_pos ⟨(hinv.code).1.trans' (by omega), h6⟩]
      exact hloop fuel q (le_trans (le_max_right _ _) hf) (by omega)

/-- The step loop of `compute` returns, with code 7, the same state for every
sufficient amount of fuel, and no other result for any amount. -/
theorem compute_loop_total (self : State) (M : Mat Int) :
    ∃ t, Inv M 7 t ∧
      (∃ F, ∀ fuel, F ≤ fuel → compute_loop fuel fuel 1 (compute_init self M) = some (7, t)) ∧
      (∀ fuel k r, compute_loop fuel k 1 (compute_init self M) = some r → r = (7, t)) := by
  obtain ⟨F, K, t, hloop, ht⟩ :=
    compute_loop_terminates M (1, compute_init self M) (inv_init self M) (by norm_num)
  refine ⟨t, ht, ⟨max F K, fun fuel hf => hloop fuel fuel (le_trans (le_max_left _ _) hf)
    (le_trans (le_max_right _ _) hf)⟩, ?_⟩
  intro fuel k r hr
  have h1 := compute_loop_mono fuel (max fuel F) (le_max_left _ _) k (max k K) 1 _ r
    (le_max_left _ _) hr
  have h2 := hloop (max fuel F) (max k K) (le_max_right _ _) (le_max_right _ _)
  simp only [] at h2
  rw [h1] at h2
  exact Option.some.inj h2

/-! ## The result loop -/

theorem results_row (mk : Nat → Nat → Int) (i k : Nat) (res : List (Nat × Nat)) :
    forLoop k (fun j results =>
      if mk i j = 1 then results ++ [(i, j)] else results) res =
    res ++ ((List.range k).filter fun j => decide (mk i j = 1)).map fun j => (i, j) := by
  induction k with
  | zero => simp [forLoop]
  | succ q ih =>
    rw [forLoop_succ, ih, List.range_succ, List.filter_append, List.map_append]
    by_cases h : mk i q = 1
    · simp [h]
    · simp [h]

theorem compute_results_eq (s : State) :
    compute_results s = starList s.marked.val s.original_length s.original_width := by
  unfold compute_results starList
  generalize s.original_length = ol
  induction ol with
  | zero => simp [forLoop]
  | succ q ih =>
    rw [forLoop_succ, ih, results_row, List.range_succ, List.flatMap_append]
    simp

theorem mem_starList {mk : Nat → Nat → Int} {ol ow : Nat} {p : Nat × Nat} :
    p ∈ starList mk ol ow ↔ p.1 < ol ∧ p.2 < ow ∧ mk p.1 p.2 = 1 := by
  unfold starList
  simp only [List.mem_flatMap, List.mem_range, List.mem_map, List.mem_filter,
    decide_eq_true_eq]
  constructor
  · rintro ⟨i, hi, j, ⟨hj, hij⟩, rfl⟩
    exact ⟨hi, hj, hij⟩
  · rintro ⟨h1, h2, h3⟩
    exact ⟨p.1, h1, p.2, ⟨h2, h3⟩, rfl⟩

theorem starList_sorted (mk : Nat → Nat → Int) (ol ow : Nat) :
    (starList mk ol ow).Pairwise RowMajorLt := by
  unfold starList
  rw [List.pairwise_flatMap]
  constructor
  · intro i _
    rw [List.pairwise_map]
    apply List.Pairwise.filter
    apply List.Pairwise.imp _ (List.pairwise_lt_range ow)
    intro a b hab
    exact Or.inr ⟨rfl, hab⟩
  · apply List.Pairwise.imp _ (List.pairwise_lt_range ol)
    intro a b hab x hx y hy
    simp only [List.mem_map, List.mem_filter] at hx hy
    obtain ⟨_, _, rfl⟩ := hx
    obtain ⟨_, _, rfl⟩ := hy
    exact Or.inl hab

/-! ## Padding -/

theorem pad_matrix_rows (M : Mat Int) (p : Int) : (pad_matrix M p).rows = max M.rows M.cols := by
  unfold pad_matrix
  split_ifs with h
  · rw [h, max_self]
  · exact max_comm _ _

theorem pad_matrix_cols (M : Mat Int) (p : Int) : (pad_matrix M p).cols = max M.rows M.cols := by
  unfold pad_matrix
  split_ifs with h
  · rw [h, max_self]
  · exact max_comm _ _

theorem pad_matrix_val (M : Mat Int) (p : Int) (i j : Nat) (hi : i < max M.rows M.cols)
    (hj : j < max M.rows M.cols) :
    (pad_matrix M p).val i j = if i < M.rows ∧ j < M.cols then M.val i j else p := by
  unfold pad_matrix
  by_cases h : M.cols = M.rows
  · rw [if_pos h]
    rw [h, max_self] at hi hj
    rw [if_pos ⟨hi, by rw [h]; exact hj⟩]
  · rw [if_neg h]

/-! ## The final state -/

theorem perfect_cols (s : State) (hm : Marks s) (hp : Perfect s) :
    ∀ j, j < s.n → ∃ i, i < s.n ∧ s.marked.val i j = 1 := by
  have h1 : srCount s = s.n := by
    unfold srCount
    have : ((Finset.range s.n).filter (fun i => HasStarRow s i)).card
        = (Finset.range s.n).card := by
      rw [Finset.card_filter_eq_iff]
      intro i hi
      exact hp i (Finset.mem_range.mp hi)
    rw [this, Finset.card_range]
  have h2 : scCount s = s.n := by
    have e1 := starCount_eq_srCount s hm
    have e2 := starCount_eq_scCount s hm
    omega
  have h3 : ((Finset.range s.n).filter (fun j => HasStarCol s j)).card
      = (Finset.range s.n).card := by
    rw [Finset.card_range]; exact h2
  intro j hj
  exact Finset.filter_card_eq h3 j (Finset.mem_range.mpr hj)

/-! ## Lists of starred cells -/

theorem starList_nodup (mk : Nat → Nat → Int) (ol ow : Nat) : (starList mk ol ow).Nodup := by
  have h := starList_sorted mk ol ow
  apply List.Pairwise.imp _ h
  intro a b hab heq
  subst heq
  unfold RowMajorLt at hab
  omega

/-- `compute` returns, for every sufficient amount of fuel and for no other
value, the starred cells of the original block of a final state satisfying the
invariant for code 7. -/
theorem compute_total (self : State) (M : Mat Int) :
    ∃ t, Inv M 7 t ∧
      (∃ F, ∀ fuel, F ≤ fuel →
        compute self fuel M = some (starList t.marked.val M.rows M.cols)) ∧
      (∀ fuel r, compute self fuel M = some r → r = starList t.marked.val M.rows M.cols) := by
  obtain ⟨t, ht, ⟨F, hF⟩, huniq⟩ := compute_loop_total self M
  have hres : compute_results t = starList t.marked.val M.rows M.cols := by
    rw [compute_results_eq, ht.ol_eq, ht.ow_eq]
  refine ⟨t, ht, ⟨F, ?_⟩, ?_⟩
  · intro fuel hf
    unfold compute
    rw [hF fuel hf]
    simp only []
    rw [hres]
  · intro fuel r hr
    unfold compute at hr
    cases hl : compute_loop fuel fuel 1 (compute_init self M) with
    | none => rw [hl] at hr; simp at hr
    | some r1 =>
      rw [hl] at hr
      simp only [Option.some.injEq] at hr
      have := huniq fuel fuel r1 hl
      subst this
      rw [← hr, hres]

/-! ## Reachable states -/

theorem reach_inv (self : State) (M : Mat Int) (st : Int) (s : State)
    (h : Reach self M st s) : Inv M st s := by
  induction h with
  | init => exact inv_init self M
  | @step st s fuel r _ hst hrun ih =>
    obtain ⟨F, r', hr', hinv, _⟩ := run_step_spec M st s ih hst.2
    have h1 := run_step_mono_le (le_max_left fuel F) hrun
    have h2 := hr' (max fuel F) (le_max_right fuel F)
    rw [h1] at h2
    have := Option.some.inj h2
    subst this
    exact hinv

/-! ## Results of `compute` -/

theorem compute_returns (self : State) (M : Mat Int) :
    ∃ t, Inv M 7 t ∧ Returns self M (starList t.marked.val M.rows M.cols) := by
  obtain ⟨t, ht, ⟨F, hF⟩, huniq⟩ := compute_total self M
  refine ⟨t, ht, ⟨F, fun k => hF (F + k) (by omega)⟩, ?_⟩
  intro fuel
  cases h : compute self fuel M with
  | none => exact Or.inl rfl
  | some r => right; rw [huniq fuel r h]

theorem Returns.unique {self : State} {M : Mat Int} {r1 r2 : List (Nat × Nat)}
    (h1 : Returns self M r1) (h2 : Returns self M r2) : r1 = r2 := by
  obtain ⟨F, hF⟩ := h1.1
  rcases h2.2 (F + 0) with h | h
  · rw [hF 0] at h; simp at h
  · rw [hF 0] at h; exact Option.some.inj h

/-- Facts about the final state used by the contract claims. -/
theorem final_state_facts (M : Mat Int) (t : State) (ht : Inv M 7 t) :
    t.n = max M.rows M.cols ∧ Marks t ∧ Perfect t ∧
    Feasible (pad_matrix M 0).val t := by
  obtain ⟨hf, hm⟩ := ht.st3 (by omega)
  exact ⟨by rw [ht.n_eq, pad_matrix_rows], hm, (ht.st7 rfl).1, hf⟩

theorem sum_inj_range (n : Nat) (τ : Nat → Nat) (v : Nat → Int)
    (hτ : ∀ i, i < n → τ i < n) (hinj : ∀ i j, i < n → j < n → τ i = τ j → i = j) :
    ∑ i in Finset.range n, v (τ i) = ∑ j in Finset.range n, v j := by
  have hinj' : Set.InjOn τ (Finset.range n : Set Nat) := by
    intro i hi j hj h
    exact hinj i j (Finset.mem_range.mp hi) (Finset.mem_range.mp hj) h
  have himg : (Finset.range n).image τ = Finset.range n := by
    apply Finset.eq_of_subset_of_card_le
    · intro x hx
      rw [Finset.mem_image] at hx
      obtain ⟨i, hi, rfl⟩ := hx
      exact Finset.mem_range.mpr (hτ i (Finset.mem_range.mp hi))
    · rw [Finset.card_image_of_injOn hinj']
  rw [← Finset.sum_image hinj', himg]

/-- An injection of `[0, r)` into `[0, n)` extends to a bijection of `[0, n)`. -/
theorem extend_inj (d : Nat) :
    ∀ (r n : Nat) (f : Nat → Nat), r + d = n → (∀ i, i < r → f i < n) →
      (∀ i j, i < r → j < r → f i = f j → i = j) →
      ∃ τ : Nat → Nat, (∀ i, i < n → τ i < n) ∧
        (∀ i j, i < n → j < n → τ i = τ j → i = j) ∧ ∀ i, i < r → τ i = f i := by
  induction d with
  | zero =>
    intro r n f hrn hf hinj
    have : r = n := by omega
    subst this
    exact ⟨f, hf, hinj, fun _ _ => rfl⟩
  | succ e ih =>
    intro r n f hrn hf hinj
    have hex : ∃ j, j < n ∧ ∀ i, i < r → f i ≠ j := by
      by_contra hcon
      push_neg at hcon
      have hsub : Finset.range n ⊆ (Finset.range r).image f := by
        intro j hj
        obtain ⟨i, hi, hij⟩ := hcon j (Finset.mem_range.mp hj)
        exact Finset.mem_image.mpr ⟨i, Finset.mem_range.mpr hi, hij⟩
      have h1 := Finset.card_le_card hsub
      have h2 := Finset.card_image_le (s := Finset.range r) (f := f)
      rw [Finset.card_range] at h1 h2
      omega
    obtain ⟨j, hj, hnj⟩ := hex
    obtain ⟨τ, h1, h2, h3⟩ := ih (r + 1) n (fun i => if i = r then j else f i) (by omega)
      (by
        intro i hi
        simp only []
        split_ifs with h
        · exact hj
        · exact hf i (by omega))
      (by
        intro a b ha hb hab
        simp only [] at hab
        split_ifs at hab with h4 h5 h5
        · omega
        · exact absurd hab.symm (hnj b (by omega))
        · exact absurd hab (hnj a (by omega))
        · exact hinj a b (by omega) (by omega) hab)
    refine ⟨τ, h1, h2, ?_⟩
    intro i hi
    rw [h3 i (by omega)]
    exact if_neg (by omega)

theorem sum_range_ite (n r : Nat) (hr : r ≤ n) (g : Nat → Int) :
    ∑ i in Finset.range n, (if i < r then g i else 0) = ∑ i in Finset.range r, g i := by
  rw [← Finset.sum_filter]
  congr 1
  ext i
  simp only [Finset.mem_filter, Finset.mem_range]
  omega

/-- Weak duality with equality on the starred assignment: if `C = P - u - v` is
non-negative and vanishes along `σ`, then `σ` is a cheapest bijection for `P`. -/
theorem dual_optimal (n : Nat) (P C : Nat → Nat → Int) (u v : Nat → Int)
    (hdual : ∀ i j, i < n → j < n → C i j = P i j - u i - v j)
    (hnn : ∀ i j, i < n → j < n → 0 ≤ C i j)
    (σ τ : Nat → Nat) (hσ : ∀ i, i < n → σ i < n) (hσ0 : ∀ i, i < n → C i (σ i) = 0)
    (hσinj : ∀ i j, i < n → j < n → σ i = σ j → i = j)
    (hτ : ∀ i, i < n → τ i < n) (hτinj : ∀ i j, i < n → j < n → τ i = τ j → i = j) :
    ∑ i in Finset.range n, P i (σ i) ≤ ∑ i in Finset.range n, P i (τ i) := by
  have h1 : ∑ i in Finset.range n, P i (σ i)
      = ∑ i in Finset.range n, u i + ∑ i in Finset.range n, v (σ i) := by
    rw [← Finset.sum_add_distrib]
    apply Finset.sum_congr rfl
    intro i hi
    have hi' := Finset.mem_range.mp hi
    have := hdual i (σ i) hi' (hσ i hi')
    rw [hσ0 i hi'] at this
    omega
  have h2 : ∑ i in Finset.range n, u i + ∑ i in Finset.range n, v (τ i)
      ≤ ∑ i in Finset.range n, P i (τ i) := by
    rw [← Finset.sum_add_distrib]
    apply Finset.sum_le_sum
    intro i hi
    have hi' := Finset.mem_range.mp hi
    have := hdual i (τ i) hi' (hτ i hi')
    have := hnn i (τ i) hi' (hτ i hi')
    omega
  rw [sum_inj_range n σ v hσ hσinj] at h1
  rw [sum_inj_range n τ v hτ hτinj] at h2
  omega

/-! ## Optimality of the returned assignment -/

theorem starCol_spec (s : State) (hp : Perfect s) (i : Nat) (hi : i < s.n) :
    starCol s i < s.n ∧ s.marked.val i (starCol s i) = 1 := by
  obtain ⟨j, hj, hij⟩ := hp i hi
  obtain ⟨c, hc⟩ : ∃ c, find_star_in_row s i = some c :=
    find_first_exists hj (by simpa using hij)
  obtain ⟨h1, h2, _⟩ := find_first_some hc
  unfold starCol
  rw [hc]
  exact ⟨h1, by simpa using h2⟩

theorem starRow_spec (s : State) (hm : Marks s) (hp : Perfect s) (j : Nat) (hj : j < s.n) :
    starRow s j < s.n ∧ s.marked.val (starRow s j) j = 1 := by
  obtain ⟨i, hi, hij⟩ := perfect_cols s hm hp j hj
  obtain ⟨c, hc⟩ : ∃ c, find_star_in_col s j = some c :=
    find_first_exists hi (by simpa using hij)
  obtain ⟨h1, h2, _⟩ := find_first_some hc
  unfold starRow
  rw [hc]
  exact ⟨h1, by simpa using h2⟩

theorem list_sum_range (k : Nat) (g : Nat → Int) :
    ((List.range k).map g).sum = ∑ i in Finset.range k, g i := by
  induction k with
  | zero => simp
  | succ q ih =>
    rw [List.range_succ, List.map_append, List.sum_append, ih, Finset.sum_range_succ]
    simp

/-- More columns than rows (or a square matrix): the stars of the original
rows form a cheapest assignment of the rows to distinct columns. -/
theorem optimal_rows (M : Mat Int) (t : State) (ht : Inv M 7 t) (hle : M.rows ≤ M.cols) :
    (∀ i, i < M.rows → starCol t i < M.cols) ∧
    (∀ i j, i < M.rows → j < M.rows → starCol t i = starCol t j → i = j) ∧
    (starList t.marked.val M.rows M.cols).Perm
      ((List.range M.rows).map fun i => (i, starCol t i)) ∧
    cost M (starList t.marked.val M.rows M.cols)
      = ∑ i in Finset.range M.rows, M.val i (starCol t i) ∧
    ∀ f : Nat → Nat, (∀ i, i < M.rows → f i < M.cols) →
      (∀ i j, i < M.rows → j < M.rows → f i = f j → i = j) →
      cost M (starList t.marked.val M.rows M.cols)
        ≤ ∑ i in Finset.range M.rows, M.val i (f i) := by
  obtain ⟨hn, hm, hperf, hfeas⟩ := final_state_facts M t ht
  have hnc : t.n = M.cols := by rw [hn]; exact max_eq_right hle
  have hσ := starCol_spec t hperf
  have hσinj : ∀ i j, i < t.n → j < t.n → starCol t i = starCol t j → i = j := by
    intro i j hi hj h
    have h1 := (hσ i hi).2
    have h2 := (hσ j hj).2
    rw [h] at h1
    exact hm.col_unique i j _ hi hj (hσ j hj).1 h1 h2
  have hperm : (starList t.marked.val M.rows M.cols).Perm
      ((List.range M.rows).map fun i => (i, starCol t i)) := by
    rw [List.perm_ext_iff_of_nodup (starList_nodup _ _ _)
      ((List.nodup_range _).map (fun a b h => (Prod.mk.inj h).1))]
    intro p
    rw [mem_starList, List.mem_map]
    constructor
    · rintro ⟨h1, h2, h3⟩
      refine ⟨p.1, List.mem_range.mpr h1, ?_⟩
      have := hm.row_unique p.1 p.2 (starCol t p.1) (by omega) (by omega)
        (hσ p.1 (by omega)).1 h3 (hσ p.1 (by omega)).2
      exact Prod.ext rfl this.symm
    · rintro ⟨i, hi, rfl⟩
      have hi' := List.mem_range.mp hi
      exact ⟨hi', by rw [← hnc]; exact (hσ i (by omega)).1, (hσ i (by omega)).2⟩
  have hcost : cost M (starList t.marked.val M.rows M.cols)
      = ∑ i in Finset.range M.rows, M.val i (starCol t i) := by
    unfold cost
    rw [(hperm.map _).sum_eq, List.map_map, list_sum_range]
    rfl
  refine ⟨fun i hi => by rw [← hnc]; exact (hσ i (by omega)).1,
    fun i j hi hj h => hσinj i j (by omega) (by omega) h, hperm, hcost, ?_⟩
  intro f hf hfinj
  obtain ⟨τ, hτ, hτinj, hτf⟩ := extend_inj (t.n - M.rows) M.rows t.n f (by omega)
    (fun i hi => by rw [hnc]; exact hf i hi) hfinj
  obtain ⟨u, v, hdual⟩ := hfeas.dual
  have hopt := dual_optimal t.n (pad_matrix M 0).val t.C.val u v hdual hfeas.nonneg
    (starCol t) τ (fun i hi => (hσ i hi).1)
    (fun i hi => hm.zero i _ hi (hσ i hi).1 (Or.inl (hσ i hi).2)) hσinj hτ hτinj
  have hpad : ∀ (g : Nat → Nat), (∀ i, i < t.n → g i < t.n) →
      ∑ i in Finset.range t.n, (pad_matrix M 0).val i (g i)
        = ∑ i in Finset.range M.rows, M.val i (g i) := by
    intro g hg
    rw [← sum_range_ite t.n M.rows (by omega)]
    apply Finset.sum_congr rfl
    intro i hi
    have hi' := Finset.mem_range.mp hi
    rw [pad_matrix_val M 0 i (g i) (by rw [← hn]; exact hi') (by rw [← hn]; exact hg i hi')]
    have hgi : g i < M.cols := by rw [← hnc]; exact hg i hi'
    by_cases h : i < M.rows
    · rw [if_pos ⟨h, hgi⟩, if_pos h]
    · rw [if_neg (fun hc => h hc.1), if_neg h]
  rw [hpad _ (fun i hi => (hσ i hi).1), hpad τ hτ] at hopt
  rw [hcost]
  calc ∑ i in Finset.range M.rows, M.val i (starCol t i)
      ≤ ∑ i in Finset.range M.rows, M.val i (τ i) := hopt
    _ = ∑ i in Finset.range M.rows, M.val i (f i) := by
        apply Finset.sum_congr rfl
        intro i hi
        rw [hτf i (Finset.mem_range.mp hi)]

/-- More rows than columns (or a square matrix): the stars of the original
columns form a cheapest assignment of the columns to distinct rows. -/
theorem optimal_cols (M : Mat Int) (t : State) (ht : Inv M 7 t) (hle : M.cols ≤ M.rows) :
    (∀ j, j < M.cols → starRow t j < M.rows) ∧
    (∀ i j, i < M.cols → j < M.cols → starRow t i = starRow t j → i = j) ∧
    (starList t.marked.val M.rows M.cols).Perm
      ((List.range M.cols).map fun j => (starRow t j, j)) ∧
    cost M (starList t.marked.val M.rows M.cols)
      = ∑ j in Finset.range M.cols, M.val (starRow t j) j ∧
    ∀ g : Nat → Nat, (∀ j, j < M.cols → g j < M.rows) →
      (∀ i j, i < M.cols → j < M.cols → g i = g j → i = j) →
      cost M (starList t.marked.val M.rows M.cols)
        ≤ ∑ j in Finset.range M.cols, M.val (g j) j := by
  obtain ⟨hn, hm, hperf, hfeas⟩ := final_state_facts M t ht
  have hnr : t.n = M.rows := by rw [hn]; exact max_eq_left hle
  have hσ := starRow_spec t hm hperf
  have hσinj : ∀ i j, i < t.n → j < t.n → starRow t i = starRow t j → i = j := by
    intro i j hi hj h
    have h1 := (hσ i hi).2
    have h2 := (hσ j hj).2
    rw [h] at h1
    exact hm.row_unique _ i j (hσ j hj).1 hi hj h1 h2
  have hperm : (starList t.marked.val M.rows M.cols).Perm
      ((List.range M.cols).map fun j => (starRow t j, j)) := by
    rw [List.perm_ext_iff_of_nodup (starList_nodup _ _ _)
      ((List.nodup_range _).map (fun a b h => (Prod.mk.inj h).2))]
    intro p
    rw [mem_starList, List.mem_map]
    constructor
    · rintro ⟨h1, h2, h3⟩
      refine ⟨p.2, List.mem_range.mpr h2, ?_⟩
      have := hm.col_unique p.1 (starRow t p.2) p.2 (by omega)
        (hσ p.2 (by omega)).1 (by omega) h3 (hσ p.2 (by omega)).2
      exact Prod.ext this.symm rfl
    · rintro ⟨j, hj, rfl⟩
      have hj' := List.mem_range.mp hj
      exact ⟨by rw [← hnr]; exact (hσ j (by omega)).1, hj', (hσ j (by omega)).2⟩
  have hcost : cost M (starList t.marked.val M.rows M.cols)
      = ∑ j in Finset.range M.cols, M.val (starRow t j) j := by
    unfold cost
    rw [(hperm.map _).sum_eq, List.map_map, list_sum_range]
    rfl
  refine ⟨fun j hj => by rw [← hnr]; exact (hσ j (by omega)).1,
    fun i j hi hj h => hσinj i j (by omega) (by omega) h, hperm, hcost, ?_⟩
  intro g hg hginj
  obtain ⟨τ, hτ, hτinj, hτg⟩ := extend_inj (t.n - M.cols) M.cols t.n g (by omega)
    (fun j hj => by rw [hnr]; exact hg j hj) hginj
  obtain ⟨u, v, hdual⟩ := hfeas.dual
  have hopt := dual_optimal t.n (fun a b => (pad_matrix M 0).val b a)
    (fun a b => t.C.val b a) v u
    (fun i j hi hj => by
      have := hdual j i hj hi
      simp only []
      omega)
    (fun i j hi hj => hfeas.nonneg j i hj hi)
    (starRow t) τ (fun j hj => (hσ j hj).1)
    (fun j hj => hm.zero _ j (hσ j hj).1 hj (Or.inl (hσ j hj).2)) hσinj hτ hτinj
  simp only [] at hopt
  have hpad : ∀ (g : Nat → Nat), (∀ j, j < t.n → g j < t.n) →
      ∑ j in Finset.range t.n, (pad_matrix M 0).val (g j) j
        = ∑ j in Finset.range M.cols, M.val (g j) j := by
    intro g hg
    rw [← sum_range_ite t.n M.cols (by omega)]
    apply Finset.sum_congr rfl
    intro j hj
    have hj' := Finset.mem_range.mp hj
    rw [pad_matrix_val M 0 (g j) j (by rw [← hn]; exact hg j hj') (by rw [← hn]; exact hj')]
    have hgj : g j < M.rows := by rw [← hnr]; exact hg j hj'
    by_cases h : j < M.cols
    · rw [if_pos ⟨hgj, h⟩, if_pos h]
    · rw [if_neg (fun hc => h hc.2), if_neg h]
  rw [hpad _ (fun j hj => (hσ j hj).1), hpad τ hτ] at hopt
  rw [hcost]
  calc ∑ j in Finset.range M.cols, M.val (starRow t j) j
      ≤ ∑ j in Finset.range M.cols, M.val (τ j) j := hopt
    _ = ∑ j in Finset.range M.cols, M.val (g j) j := by
        apply Finset.sum_congr rfl
        intro j hj
        rw [hτg j (Finset.mem_range.mp hj)]

/-! ## Concrete inputs -/

theorem compute_init_eq (s1 s2 : State) (M : Mat Int) :
    compute_init s1 M = compute_init s2 M := rfl

theorem compute_self_eq (s1 s2 : State) (fuel : Nat) (M : Mat Int) :
    compute s1 fuel M = compute s2 fuel M := by
  unfold compute
  rw [compute_init_eq s1 s2 M]

theorem returns_of_eval (self s0 : State) (M : Mat Int) (fuel : Nat) (res : List (Nat × Nat))
    (h : compute s0 fuel M = some res) : Returns self M res := by
  obtain ⟨t, _, hret⟩ := compute_returns self M
  rcases hret.2 fuel with h1 | h1
  · rw [compute_self_eq self s0, h] at h1; simp at h1
  · rw [compute_self_eq self s0, h] at h1
    rw [Option.some.inj h1]
    exact hret

set_option maxRecDepth 100000 in
theorem scenario3_eval : compute new_solver 30 scenario3 = some [(0, 1), (1, 0), (2, 2)] := by
  decide

set_option maxRecDepth 100000 in
theorem main_cost_eval : compute new_solver 30 main_cost = some [(0, 1), (1, 3), (2, 2)] := by
  decide

set_option maxRecDepth 100000 in
theorem no_cells_eval : compute new_solver 30 no_cells = some [] := by
  decide

/-! ## Contract claims -/

/-- Optimality in exact arithmetic.  For every matrix `M`, `compute` (whose
cell operations are exact) returns a list `res` that is itself a one-to-one
assignment of every index of the smaller dimension to a distinct index of the
larger one, and whose cost in `M` is at most the cost of every such
assignment.  On `int` cells this fails: see `over54_eval32`. -/
theorem exact_optimal (self : State) (M : Mat Int) (hr : 0 < M.rows) (hc : 0 < M.cols)
    (hnn : ∀ i, i < M.rows → ∀ j, j < M.cols → 0 ≤ M.val i j) :
    ∃ res, Returns self M res ∧
      (M.rows ≤ M.cols →
        (∃ f : Nat → Nat, (∀ i, i < M.rows → f i < M.cols) ∧
          (∀ i j, i < M.rows → j < M.rows → f i = f j → i = j) ∧
          res.Perm ((List.range M.rows).map fun i => (i, f i)) ∧
          cost M res = ∑ i in Finset.range M.rows, M.val i (f i)) ∧
        ∀ f : Nat → Nat, (∀ i, i < M.rows → f i < M.cols) →
          (∀ i j, i < M.rows → j < M.rows → f i = f j → i = j) →
          cost M res ≤ ∑ i in Finset.range M.rows, M.val i (f i)) ∧
      (M.cols ≤ M.rows →
        (∃ g : Nat → Nat, (∀ j, j < M.cols → g j < M.rows) ∧
          (∀ i j, i < M.cols → j < M.cols → g i = g j → i = j) ∧
          res.Perm ((List.range M.cols).map fun j => (g j, j)) ∧
          cost M res = ∑ j in Finset.range M.cols, M.val (g j) j) ∧
        ∀ g : Nat → Nat, (∀ j, j < M.cols → g j < M.rows) →
          (∀ i j, i < M.cols → j < M.cols → g i = g j → i = j) →
          cost M res ≤ ∑ j in Finset.range M.cols, M.val (g j) j) := by
  obtain ⟨t, ht, hret⟩ := compute_returns self M
  refine ⟨_, hret, ?_, ?_⟩
  · intro hle
    obtain ⟨h1, h2, h3, h4, h5⟩ := optimal_rows M t ht hle
    exact ⟨⟨starCol t, h1, h2, h3, h4⟩, h5⟩
  · intro hle
    obtain ⟨h1, h2, h3, h4, h5⟩ := optimal_cols M t ht hle
    exact ⟨⟨starRow t, h1, h2, h3, h4⟩, h5⟩

/-- Claim C5 (padding).  For every `rows x cols` matrix `M` and pad value `p`,
`pad_matrix M p` is `n x n` with `n = max(rows, cols)`; its cell `(i, j)` is
`M[i][j]` when `i < rows` and `j < cols` and `p` otherwise; and when
`rows = cols` the result is `M` itself. -/
theorem pad_matrix_spec (M : Mat Int) (p : Int) :
    (pad_matrix M p).rows = max M.rows M.cols ∧
    (pad_matrix M p).cols = max M.rows M.cols ∧
    (∀ i j, i < max M.rows M.cols → j < max M.rows M.cols →
      (pad_matrix M p).val i j = if i < M.rows ∧ j < M.cols then M.val i j else p) ∧
    (M.rows = M.cols → pad_matrix M p = M) := by
  refine ⟨pad_matrix_rows M p, pad_matrix_cols M p, pad_matrix_val M p, ?_⟩
  intro h
  unfold pad_matrix
  rw [if_pos h.symm]

/-- Claim C7, as stated, fails: on `[[400,150,400],[400,450,600],[300,225,300]]`
`compute` returns `(0,1), (1,0), (2,2)`, whose cost is 850 and not 650, and no
assignment of the three rows to distinct columns costs less than 850, so 650
is not the minimum over the permutations. -/
theorem scenario3_cost_not_650 :
    Returns new_solver scenario3 [(0, 1), (1, 0), (2, 2)] ∧
    cost scenario3 [(0, 1), (1, 0), (2, 2)] ≠ 650 ∧
    ¬ ∃ f : Nat → Nat, (∀ i, i < 3 → f i < 3) ∧
      (∀ i j, i < 3 → j < 3 → f i = f j → i = j) ∧
      ∑ i in Finset.range 3, scenario3.val i (f i) = 650 := by
  have hret := returns_of_eval new_solver new_solver scenario3 30 _ scenario3_eval
  refine ⟨hret, by decide, ?_⟩
  rintro ⟨f, hf, hinj, hsum⟩
  obtain ⟨t, ht, hret'⟩ := compute_returns new_solver scenario3
  have hres := Returns.unique hret' hret
  obtain ⟨_, _, _, _, hopt⟩ := optimal_rows scenario3 t ht (le_refl _)
  have := hopt f hf hinj
  rw [hres] at this
  have hc : cost scenario3 [(0, 1), (1, 0), (2, 2)] = 850 := by decide
  have h3 : scenario3.rows = 3 := rfl
  rw [hc, h3, hsum] at this
  omega

/-- Claim C7, amended.  On `[[400,150,400],[400,450,600],[300,225,300]]`
`compute` returns, whatever the object held before, the pairs
`(0,1), (1,0), (2,2)`: a permutation of the three rows and columns whose cost
in the original matrix is 850; and 850 is the minimum over all assignments of
the three rows to distinct columns. -/
theorem scenario3_cost_850 (self : State) :
    Returns self scenario3 [(0, 1), (1, 0), (2, 2)] ∧
    cost scenario3 [(0, 1), (1, 0), (2, 2)] = 850 ∧
    ([(0, 1), (1, 0), (2, 2)].map Prod.fst).Perm [0, 1, 2] ∧
    ([(0, 1), (1, 0), (2, 2)].map Prod.snd).Perm [0, 1, 2] ∧
    ∀ f : Nat → Nat, (∀ i, i < 3 → f i < 3) →
      (∀ i j, i < 3 → j < 3 → f i = f j → i = j) →
      850 ≤ ∑ i in Finset.range 3, scenario3.val i (f i) := by
  have hret := returns_of_eval self new_solver scenario3 30 _ scenario3_eval
  refine ⟨hret, by decide, by decide, by decide, ?_⟩
  intro f hf hinj
  obtain ⟨t, ht, hret'⟩ := compute_returns self scenario3
  have hres := Returns.unique hret' hret
  obtain ⟨_, _, _, _, hopt⟩ := optimal_rows scenario3 t ht (le_refl _)
  have := hopt f hf hinj
  rw [hres] at this
  have hc : cost scenario3 [(0, 1), (1, 0), (2, 2)] = 850 := by decide
  have h3 : scenario3.rows = 3 := rfl
  rw [hc, h3] at this
  exact this

/-! ## Behaviour claims on reachable states -/

theorem reach_at_step3 (M : Mat Int) : Reach new_solver M 3 (at_step3 M) :=
  @Reach.step new_solver M 2 (step1 (compute_init new_solver M)).2 0
    (step2 (step1 (compute_init new_solver M)).2)
    (@Reach.step new_solver M 1 (compute_init new_solver M) 0
      (step1 (compute_init new_solver M)) Reach.init (by decide) rfl)
    (by decide) rfl

theorem reach_at_step4 (M : Mat Int) (h : (step3 (at_step3 M)).1 = 4) :
    Reach new_solver M 4 (at_step4 M) := by
  have h1 := @Reach.step new_solver M 3 (at_step3 M) 0 (step3 (at_step3 M))
    (reach_at_step3 M) (by decide) rfl
  rw [h] at h1
  exact h1

theorem reach_after_step4 (M : Mat Int) (h : (step3 (at_step3 M)).1 = 4)
    (hs : (step4 4 (at_step4 M)).isSome = true) :
    Reach new_solver M (after_step4 M).1 (after_step4 M).2 := by
  have hr : run_step 4 4 (at_step4 M) = some (after_step4 M) := by
    unfold after_step4
    cases hx : step4 4 (at_step4 M) with
    | none => rw [hx] at hs; simp at hs
    | some r =>
      have h4 : run_step 4 4 (at_step4 M) = step4 4 (at_step4 M) := rfl
      rw [h4, hx]
      rfl
  exact @Reach.step new_solver M 4 (at_step4 M) 4 (after_step4 M)
    (reach_at_step4 M h) (by decide) hr

set_option maxRecDepth 100000 in
theorem zeros_row_code4 : (step3 (at_step3 zeros_row)).1 = 4 := by decide

set_option maxRecDepth 100000 in
theorem big_gap_code4 : (step3 (at_step3 big_gap)).1 = 4 := by decide

set_option maxRecDepth 100000 in
theorem big_gap_step4 : (step4 4 (at_step4 big_gap)).isSome = true := by decide

set_option maxRecDepth 100000 in
theorem big_gap_code6 : (after_step4 big_gap).1 = 6 := by decide

theorem zeros_row_reach4 : Reach new_solver zeros_row 4 (at_step4 zeros_row) :=
  reach_at_step4 zeros_row zeros_row_code4

theorem big_gap_reach6 : Reach new_solver big_gap 6 (after_step4 big_gap).2 := by
  have h := reach_after_step4 big_gap big_gap_code4 big_gap_step4
  rw [big_gap_code6] at h
  exact h

/-! ## Behaviour claims: the helper functions -/

set_option maxRecDepth 100000 in
theorem zeros_row_find : find_a_zero (at_step4 zeros_row) = some (0, 2) := by decide

set_option maxRecDepth 100000 in
theorem zeros_row_uzero : UZero (at_step4 zeros_row) 0 1 := by decide

set_option maxRecDepth 100000 in
theorem big_gap_smallest : find_smallest (after_step4 big_gap).2 = 1000000000 := by decide

set_option maxRecDepth 100000 in
theorem big_gap_uncovered :
    (after_step4 big_gap).2.n = 2 ∧
    (after_step4 big_gap).2.row_covered 0 = false ∧
    (after_step4 big_gap).2.col_covered 1 = false ∧
    ∀ i, i < (after_step4 big_gap).2.n → ∀ j, j < (after_step4 big_gap).2.n →
      Uncov (after_step4 big_gap).2 i j → (after_step4 big_gap).2.C.val i j = 2000000000 := by
  decide

set_option maxRecDepth 100000 in
theorem big_gap_entries :
    ∀ i, i < (after_step4 big_gap).2.n → ∀ j, j < (after_step4 big_gap).2.n →
      (after_step4 big_gap).2.C.val i j ≠ 1000000000 := by
  decide

/-- Claim C11, evaluated at a failing input.  On the cost matrix
`[[0,0,0],[0,1,1],[0,1,1]]`, at the first entry of `step4` (star at `(0,0)`,
column 0 covered), `find_a_zero` returns `(0, 2)` although `(0, 1)` is an
uncovered zero: it yields the last uncovered zero of the first row that has
one, not the lexicographically smallest. -/
theorem find_a_zero_not_first :
    Reach new_solver zeros_row 4 (at_step4 zeros_row) ∧
    find_a_zero (at_step4 zeros_row) = some (0, 2) ∧
    UZero (at_step4 zeros_row) 0 1 :=
  ⟨zeros_row_reach4, zeros_row_find, zeros_row_uzero⟩

/-- Claim C12, evaluated at a failing input.  On the cost matrix
`[[0,2000000000],[0,2000000000]]` (32-bit values), when `step6` is entered
row 0 and column 1 are uncovered and every uncovered cell holds `2000000000`,
but `find_smallest` returns `1000000000`, its start value. -/
theorem find_smallest_capped :
    Reach new_solver big_gap 6 (after_step4 big_gap).2 ∧
    (after_step4 big_gap).2.row_covered 0 = false ∧
    (after_step4 big_gap).2.col_covered 1 = false ∧
    (∀ i, i < (after_step4 big_gap).2.n → ∀ j, j < (after_step4 big_gap).2.n →
      Uncov (after_step4 big_gap).2 i j → (after_step4 big_gap).2.C.val i j = 2000000000) ∧
    find_smallest (after_step4 big_gap).2 = 1000000000 :=
  ⟨big_gap_reach6, big_gap_uncovered.2.1, big_gap_uncovered.2.2.1, big_gap_uncovered.2.2.2,
    big_gap_smallest⟩

/-- What does hold when `step6` runs: an uncovered row and an uncovered
column exist, no uncovered cell is zero, and the value of `find_smallest` is
positive, at most every uncovered entry, and either an uncovered entry or the
start value `1e9`. -/
theorem step6_entry_facts (self : State) (M : Mat Int) (s : State)
    (h : Reach self M 6 s) :
    (∃ i, i < s.n ∧ s.row_covered i = false) ∧
    (∃ j, j < s.n ∧ s.col_covered j = false) ∧
    (∀ i j, i < s.n → j < s.n → ¬ UZero s i j) ∧
    0 < find_smallest s ∧
    (∀ i j, i < s.n → j < s.n → Uncov s i j → find_smallest s ≤ s.C.val i j) ∧
    (find_smallest s = 1000000000 ∨
      ∃ i j, i < s.n ∧ j < s.n ∧ Uncov s i j ∧ find_smallest s = s.C.val i j) := by
  have hinv := reach_inv self M 6 s h
  obtain ⟨hfeas, _⟩ := hinv.st3 (by omega)
  obtain ⟨hsearch, _⟩ := hinv.st46 (Or.inr rfl)
  have hz := hinv.st6 rfl
  obtain ⟨i0, j0, hi0, hj0, hr0, hc0⟩ := search_uncovered s hsearch
  exact ⟨⟨i0, hi0, hr0⟩, ⟨j0, hj0, hc0⟩, hz, find_smallest_pos s hfeas.nonneg hz,
    (find_smallest_spec s).2.1, (find_smallest_spec s).2.2⟩

/-- Claim C13, evaluated at a failing input.  On the cost matrix
`[[0,2000000000],[0,2000000000]]` (rows, cols >= 1) `step6` is entered with
uncovered cells, yet the value found by `find_smallest` is the start value
`1000000000`, which is not an entry of `C`. -/
theorem step6_value_not_an_entry :
    0 < big_gap.rows ∧ 0 < big_gap.cols ∧
    Reach new_solver big_gap 6 (after_step4 big_gap).2 ∧
    Uncov (after_step4 big_gap).2 0 1 ∧
    find_smallest (after_step4 big_gap).2 = 1000000000 ∧
    ∀ i, i < (after_step4 big_gap).2.n → ∀ j, j < (after_step4 big_gap).2.n →
      (after_step4 big_gap).2.C.val i j ≠ find_smallest (after_step4 big_gap).2 := by
  refine ⟨by decide, by decide, big_gap_reach6,
    ⟨big_gap_uncovered.2.1, big_gap_uncovered.2.2.1⟩, big_gap_smallest, ?_⟩
  rw [big_gap_smallest]
  exact big_gap_entries

/-! ## Behaviour claims: `step3` and `step6` -/

theorem step6_keeps_marked (s : State) (hs : Search s) (hp : PrimeRows s) (i j : Nat)
    (hi : i < s.n) (hj : j < s.n) (hm : s.marked.val i j = 1 ∨ s.marked.val i j = 2) :
    (step6 s).2.C.val i j = s.C.val i j := by
  rw [step6_eq]
  simp only [hi, hj, and_self, if_true]
  rcases hm with h1 | h2
  · have hx := hs.star_cover i j hi hj h1
    cases hr : s.row_covered i with
    | true =>
      have hc : s.col_covered j = false := hx.mp hr
      simp [hc]
    | false =>
      have hc : s.col_covered j = true := by
        cases hc : s.col_covered j with
        | true => rfl
        | false => rw [hx.mpr hc] at hr; exact absurd hr (by decide)
      simp [hc]
  · have hr := hp i j hi hj h2
    have hc := hs.prime_col i j hi hj h2
    simp [hr, hc]

/-- The reduced matrix in exact arithmetic.  In every state reachable with
exact cell operations at a step boundary after `step1` (code at least 2),
every entry of the working matrix is non-negative and every cell marked star or
prime holds 0; and when `step6` is about to run, it leaves the value of every
starred or primed cell unchanged.  On `int` cells the first part fails: see
`near_max_cell`. -/
theorem exact_reduced_matrix (self : State) (M : Mat Int) (st : Int) (s : State)
    (h : Reach self M st s) (hst : 2 ≤ st) :
    (∀ i j, i < s.n → j < s.n → 0 ≤ s.C.val i j) ∧
    (∀ i j, i < s.n → j < s.n → s.marked.val i j = 1 ∨ s.marked.val i j = 2 →
      s.C.val i j = 0) ∧
    (st = 6 → ∀ i j, i < s.n → j < s.n → s.marked.val i j = 1 ∨ s.marked.val i j = 2 →
      (step6 s).2.C.val i j = s.C.val i j ∧ (step6 s).2.C.val i j = 0) := by
  have hinv := reach_inv self M st s h
  have hzero : ∀ i j, i < s.n → j < s.n → s.marked.val i j = 1 ∨ s.marked.val i j = 2 →
      s.C.val i j = 0 := by
    intro i j hi hj hm
    by_cases h2 : st = 2
    · have hf := (hinv.st2 h2).1.marked i j
      rcases hm with hm | hm <;> omega
    · exact (hinv.st3 (by omega)).2.zero i j hi hj hm
  refine ⟨?_, hzero, ?_⟩
  · by_cases h2 : st = 2
    · exact (hinv.st2 h2).2.nonneg
    · exact (hinv.st3 (by omega)).1.nonneg
  · intro h6 i j hi hj hm
    obtain ⟨hs, hp⟩ := hinv.st46 (Or.inr h6)
    have hk := step6_keeps_marked s hs hp i j hi hj hm
    exact ⟨hk, by rw [hk]; exact hzero i j hi hj hm⟩

/-- An iteration of `step4` that finds a star in the row of the new prime
continues the loop in the state named by `Reach4.iter`. -/
theorem step4_iter_eq (fuel : Nat) (s : State) (row col star_col : Nat)
    (hz : find_a_zero s = some (row, col))
    (hf : find_star_in_row { s with marked := s.marked.set row col 2 } row = some star_col) :
    step4 (fuel + 1) s = step4 fuel
      { s with marked := s.marked.set row col 2,
               row_covered := setB s.row_covered row true,
               col_covered := setB s.col_covered star_col false } := by
  rw [step4]
  simp only [hz, hf]

/-- On a matrix without rows and columns the loop of `compute` runs `step1`,
`step2` and `step3` and leaves with code 7. -/
theorem no_cells_loop (self : State) (M : Mat Int) (hr : M.rows = 0) (hc : M.cols = 0) :
    ∃ t, compute_loop 3 3 1 (compute_init self M) = some (7, t) := by
  have h1 := inv_step1 M _ (inv_init self M)
  have h2 := inv_step2 M _ h1
  have hn : (step2 (step1 (compute_init self M)).2).2.n = 0 := by
    rw [h2.n_eq, pad_matrix_rows, hr, hc]; rfl
  have h3 : (step3 (step2 (step1 (compute_init self M)).2).2).1 = 7 := by
    unfold step3
    simp only []
    rw [(step3_scan_spec _).2.2]
    unfold starCount
    rw [hn]
    simp
  refine ⟨(step3 (step2 (step1 (compute_init self M)).2).2).2, ?_⟩
  have e1 : run_step 3 1 (compute_init self M) = some (step1 (compute_init self M)) := rfl
  have e2 : run_step 3 2 (step1 (compute_init self M)).2
      = some (step2 (step1 (compute_init self M)).2) := rfl
  have e3 : run_step 3 3 (step2 (step1 (compute_init self M)).2).2
      = some (step3 (step2 (step1 (compute_init self M)).2).2) := rfl
  have c1 : (step1 (compute_init self M)).1 = 2 := rfl
  have c2 : (step2 (step1 (compute_init self M)).2).1 = 3 := rfl
  rw [compute_loop, e1]
  simp only [c1]
  rw [if_pos (by decide), compute_loop, e2]
  simp only [c2]
  rw [if_pos (by decide), compute_loop, e3]
  simp only [h3]
  rw [if_neg (by decide)]
  rw [← h3]

/-- Claim C8, as stated, fails: on the matrix without rows and columns
`compute` does not fail; it returns the empty sequence as a normal result. -/
theorem degenerate_not_rejected :
    no_cells.rows = 0 ∧ no_cells.cols = 0 ∧ Returns new_solver no_cells [] ∧
    compute new_solver 30 no_cells ≠ none := by
  refine ⟨rfl, rfl, returns_of_eval new_solver new_solver no_cells 30 _ no_cells_eval, ?_⟩
  rw [no_cells_eval]
  simp

/-- Claim C8, amended.  For the input matrix with zero rows and zero columns,
`compute` makes no dimension check: it runs `step1`, `step2` and `step3` on
the empty working matrix, leaves the loop with code 7, and returns the empty
sequence as a normal result. -/
theorem degenerate_returns_empty (self : State) (M : Mat Int)
    (hr : M.rows = 0) (hc : M.cols = 0) :
    Returns self M [] ∧ ∃ t, compute_loop 3 3 1 (compute_init self M) = some (7, t) := by
  refine ⟨?_, no_cells_loop self M hr hc⟩
  obtain ⟨t, _, hret⟩ := compute_returns self M
  have : starList t.marked.val M.rows M.cols = [] := by
    rw [List.eq_nil_iff_forall_not_mem]
    intro p hp
    rw [mem_starList] at hp
    omega
  rw [this] at hret
  exact hret

/-- Witness of the amended C8: the matrix without rows and columns. -/
theorem degenerate_returns_empty_witness :
    no_cells.rows = 0 ∧ no_cells.cols = 0 ∧ Returns new_solver no_cells [] :=
  ⟨rfl, rfl, (degenerate_returns_empty new_solver no_cells rfl rfl).1⟩

theorem reach32_at_step3 (M : Mat Int) : Reach32 new_solver M 3 (at_step3_32 M) :=
  @Reach32.step new_solver M 2 (step1_32 (compute_init new_solver M)).2 0
    (step2 (step1_32 (compute_init new_solver M)).2)
    (@Reach32.step new_solver M 1 (compute_init new_solver M) 0
      (step1_32 (compute_init new_solver M)) Reach32.init (by decide) rfl)
    (by decide) rfl

theorem reach32_at_step4 (M : Mat Int) (h : (step3 (at_step3_32 M)).1 = 4) :
    Reach32 new_solver M 4 (at_step4_32 M) := by
  have h1 := @Reach32.step new_solver M 3 (at_step3_32 M) 0 (step3 (at_step3_32 M))
    (reach32_at_step3 M) (by decide) rfl
  rw [h] at h1
  exact h1

theorem reach32_after_step4 (M : Mat Int) (h : (step3 (at_step3_32 M)).1 = 4)
    (hs : (step4 4 (at_step4_32 M)).isSome = true) :
    Reach32 new_solver M (after_step4_32 M).1 (after_step4_32 M).2 := by
  have hr : run_step32 4 4 (at_step4_32 M) = some (after_step4_32 M) := by
    unfold after_step4_32
    cases hx : step4 4 (at_step4_32 M) with
    | none => rw [hx] at hs; simp at hs
    | some r =>
      have h4 : run_step32 4 4 (at_step4_32 M) = step4 4 (at_step4_32 M) := rfl
      rw [h4, hx]
      rfl
  exact @Reach32.step new_solver M 4 (at_step4_32 M) 4 (after_step4_32 M)
    (reach32_at_step4 M h) (by decide) hr

set_option maxRecDepth 100000 in
theorem near_max_code4 : (step3 (at_step3_32 near_max)).1 = 4 := by decide

set_option maxRecDepth 100000 in
theorem near_max_step4 : (step4 4 (at_step4_32 near_max)).isSome = true := by decide

set_option maxRecDepth 100000 in
theorem near_max_code6 : (after_step4_32 near_max).1 = 6 := by decide

theorem near_max_reach6 : Reach32 new_solver near_max 6 (after_step4_32 near_max).2 := by
  have h := reach32_after_step4 near_max near_max_code4 near_max_step4
  rw [near_max_code6] at h
  exact h

theorem near_max_reach4 :
    Reach32 new_solver near_max 4 (step6_32 (after_step4_32 near_max).2).2 :=
  @Reach32.step new_solver near_max 6 (after_step4_32 near_max).2 0
    (step6_32 (after_step4_32 near_max).2) near_max_reach6 (by decide) rfl

set_option maxRecDepth 100000 in
theorem near_max_entry :
    (after_step4_32 near_max).2.n = 3 ∧
    (after_step4_32 near_max).2.row_covered 0 = true ∧
    (after_step4_32 near_max).2.col_covered 1 = true ∧
    (after_step4_32 near_max).2.C.val 0 1 = 2147483647 ∧
    find_smallest (after_step4_32 near_max).2 = 1 := by
  decide

set_option maxRecDepth 100000 in
theorem near_max_cell : (step6_32 (after_step4_32 near_max).2).2.C.val 0 1 = -2147483648 := by
  decide

set_option maxRecDepth 100000 in
theorem near_max_input :
    0 < near_max.rows ∧ 0 < near_max.cols ∧
    ∀ i, i < near_max.rows → ∀ j, j < near_max.cols →
      0 ≤ near_max.val i j ∧ near_max.val i j ≤ 2147483647 := by
  decide

/-! ## The 32-bit run: closed form of `step6_32` and fuel -/

theorem step6_32_row (v : Int) (i k : Nat) (s : State) :
    forLoop k (fun j s =>
      let s1 := if s.row_covered i = true
                then { s with C := s.C.set i j (wrap32 (s.C.val i j + v)) } else s
      if s1.col_covered j = false
      then { s1 with C := s1.C.set i j (wrap32 (s1.C.val i j - v)) } else s1) s =
    { s with C := { s.C with
      val := fun a b =>
        if a = i ∧ b < k then
          (if s.col_covered b = false then
            wrap32 ((if s.row_covered i = true then wrap32 (s.C.val a b + v)
              else s.C.val a b) - v)
           else (if s.row_covered i = true then wrap32 (s.C.val a b + v) else s.C.val a b))
        else s.C.val a b } } := by
  induction k with
  | zero => simp [forLoop]
  | succ m ih =>
    rw [forLoop_succ, ih]
    have hm : ¬ (m < m) := lt_irrefl m
    cases hr : s.row_covered i <;> cases hc : s.col_covered m <;>
      simp only [hm, hr, hc, and_false, if_false, if_true, Mat.set, Bool.false_eq_true] <;>
      (ext : 1 <;> try rfl) <;> (ext : 1 <;> try rfl) <;> funext a b <;>
      (rcases Nat.lt_trichotomy b m with h2 | h2 | h2) <;>
      by_cases h1 : a = i
    all_goals first
      | (have h5 : b < m + 1 := by omega
         have h6 : b ≠ m := by omega
         simp [h1, h2, h5, h6, hr, hc])
      | (subst h2; simp [h1, hr, hc])
      | (have h5 : ¬ b < m + 1 := by omega
         have h6 : b ≠ m := by omega
         have h7 : ¬ b < m := by omega
         simp [h1, h5, h6, h7, hr, hc])

theorem step6_32_loop (v : Int) (k : Nat) (s : State) :
    forLoop k (fun i s =>
      forLoop s.n (fun j s =>
        let s1 := if s.row_covered i = true
                  then { s with C := s.C.set i j (wrap32 (s.C.val i j + v)) } else s
        if s1.col_covered j = false
        then { s1 with C := s1.C.set i j (wrap32 (s1.C.val i j - v)) } else s1) s) s =
    { s with C := { s.C with
      val := fun a b =>
        if a < k ∧ b < s.n then
          (if s.col_covered b = false then
            wrap32 ((if s.row_covered a = true then wrap32 (s.C.val a b + v)
              else s.C.val a b) - v)
           else (if s.row_covered a = true then wrap32 (s.C.val a b + v) else s.C.val a b))
        else s.C.val a b } } := by
  induction k with
  | zero => simp [forLoop]
  | succ m ih =>
    rw [forLoop_succ, ih, step6_32_row]
    ext : 1 <;> try rfl
    ext : 1 <;> try rfl
    funext a b
    simp only []
    rcases Nat.lt_trichotomy a m with h2 | h2 | h2
    · have h5 : a < m + 1 := by omega
      have h6 : a ≠ m := by omega
      simp [h2, h5, h6]
    · subst h2
      simp
    · have h5 : ¬ a < m + 1 := by omega
      have h6 : a ≠ m := by omega
      have h7 : ¬ a < m := by omega
      simp [h5, h6, h7]

/-- Closed form of `step6_32`: every cell of the grid is stored after the
32-bit addition (covered row) and again after the 32-bit subtraction
(uncovered column); nothing else changes. -/
theorem step6_32_eq (s : State) :
    step6_32 s = (4, { s with C := { s.C with
      val := fun a b =>
        if a < s.n ∧ b < s.n then
          (if s.col_covered b = false then
            wrap32 ((if s.row_covered a = true then wrap32 (s.C.val a b + find_smallest s)
              else s.C.val a b) - find_smallest s)
           else (if s.row_covered a = true then wrap32 (s.C.val a b + find_smallest s)
              else s.C.val a b))
        else s.C.val a b } }) := by
  unfold step6_32
  simp only []
  rw [step6_32_loop]

theorem wrap32_id (x : Int) (h1 : -2147483648 ≤ x) (h2 : x ≤ 2147483647) : wrap32 x = x := by
  unfold wrap32
  omega

theorem run_step32_mono_le {k k' : Nat} (hk : k ≤ k') {st : Int} {s : State}
    {r : Int × State} (h : run_step32 k st s = some r) : run_step32 k' st s = some r := by
  unfold run_step32 at h ⊢
  split_ifs at h ⊢
  · exact h
  · exact h
  · exact h
  · exact step4_mono_le hk h
  · exact step5_mono_le hk h
  · exact h
  · exact h

theorem compute_loop32_mono (f f' : Nat) (hf : f ≤ f') (k : Nat) :
    ∀ (k' : Nat) (st : Int) (s : State) (r : Int × State), k ≤ k' →
      compute_loop32 f k st s = some r → compute_loop32 f' k' st s = some r := by
  induction k with
  | zero => intro k' st s r _ h; simp [compute_loop32] at h
  | succ q ih =>
    intro k' st s r hk h
    obtain ⟨q', rfl⟩ : ∃ q', k' = q' + 1 := ⟨k' - 1, by omega⟩
    rw [compute_loop32] at h ⊢
    cases h1 : run_step32 f st s with
    | none => rw [h1] at h; simp at h
    | some r1 =>
      rw [h1] at h
      rw [run_step32_mono_le hf h1]
      simp only [] at h ⊢
      split_ifs at h ⊢ with hc
      · exact ih q' _ _ r (by omega) h
      · exact h

/-- More fuel does not change a result of `compute32`. -/
theorem compute32_mono {f f' : Nat} (hf : f ≤ f') {self : State} {M : Mat Int}
    {res : List (Nat × Nat)} (h : compute32 self f M = some res) :
    compute32 self f' M = some res := by
  unfold compute32 at h ⊢
  cases h1 : compute_loop32 f f 1 (compute_init self M) with
  | none => rw [h1] at h; simp at h
  | some r =>
    rw [h1] at h
    rw [compute_loop32_mono f f' hf f f' 1 _ r hf h1]
    exact h

set_option maxRecDepth 1000000 in
theorem over54_eval32 :
    compute32 new_solver 14 over54 = some [(0, 1), (1, 0), (2, 3), (4, 2)] := by
  decide

set_option maxRecDepth 1000000 in
theorem over54_eval : compute new_solver 14 over54 = some [(0, 2), (1, 0), (2, 3), (3, 1)] := by
  decide

set_option maxRecDepth 100000 in
theorem over54_input :
    0 < over54.rows ∧ 0 < over54.cols ∧
    ∀ i, i < over54.rows → ∀ j, j < over54.cols →
      0 ≤ over54.val i j ∧ over54.val i j ≤ 2147483647 := by
  decide
/-- Claim C1, evaluated at a failing input.  On the `5 x 4` matrix `over54`
of non-negative `int` values, the 32-bit run of `compute` returns (for every
fuel from 14 on, and nothing else for any fuel) the pairs
`(0,1), (1,0), (2,3), (4,2)` of total cost `2147483650`, although the
assignment `(0,2), (1,0), (2,3), (3,1)`, which the exact run returns, costs
`3`. -/
theorem compute32_not_optimal :
    (0 < over54.rows ∧ 0 < over54.cols ∧
      ∀ i, i < over54.rows → ∀ j, j < over54.cols →
        0 ≤ over54.val i j ∧ over54.val i j ≤ 2147483647) ∧
    (∀ fuel, 14 ≤ fuel →
      compute32 new_solver fuel over54 = some [(0, 1), (1, 0), (2, 3), (4, 2)]) ∧
    (∀ fuel res, compute32 new_solver fuel over54 = some res →
      res = [(0, 1), (1, 0), (2, 3), (4, 2)]) ∧
    cost over54 [(0, 1), (1, 0), (2, 3), (4, 2)] = 2147483650 ∧
    Returns new_solver over54 [(0, 2), (1, 0), (2, 3), (3, 1)] ∧
    cost over54 [(0, 2), (1, 0), (2, 3), (3, 1)] = 3 := by
  refine ⟨over54_input, fun fuel hf => compute32_mono hf over54_eval32, ?_, by decide,
    returns_of_eval new_solver new_solver over54 14 _ over54_eval, by decide⟩
  intro fuel res h
  have h1 := compute32_mono (le_max_left fuel 14) h
  rw [compute32_mono (le_max_right fuel 14) over54_eval32] at h1
  exact (Option.some.inj h1).symm

/-- Claim C17, evaluated at a failing input.  On `[[0,2147483647,0],[1,0,1],
[1,0,1]]`, when `step6` is entered for the first time, row 0 and column 1 are
covered, `C[0][1]` is `2147483647` and `find_smallest` returns 1; `step6`
stores `-2147483648` in `C[0][1]`, not `2147483647 + 1`. -/
theorem step6_32_overflows :
    Reach32 new_solver near_max 6 (after_step4_32 near_max).2 ∧
    (after_step4_32 near_max).2.row_covered 0 = true ∧
    (after_step4_32 near_max).2.col_covered 1 = true ∧
    (after_step4_32 near_max).2.C.val 0 1 = 2147483647 ∧
    find_smallest (after_step4_32 near_max).2 = 1 ∧
    (step6_32 (after_step4_32 near_max).2).2.C.val 0 1 = -2147483648 ∧
    (step6_32 (after_step4_32 near_max).2).2.C.val 0 1 ≠
      (after_step4_32 near_max).2.C.val 0 1 + find_smallest (after_step4_32 near_max).2 :=
  ⟨near_max_reach6, near_max_entry.2.1, near_max_entry.2.2.1, near_max_entry.2.2.2.1,
    near_max_entry.2.2.2.2, near_max_cell,
    by rw [near_max_cell, near_max_entry.2.2.2.1, near_max_entry.2.2.2.2]; decide⟩

/-- Claim C19, evaluated at a failing input.  On the non-negative matrix
`[[0,2147483647,0],[1,0,1],[1,0,1]]` the state at the step boundary after the
first `step6` holds the negative entry `C[0][1] = -2147483648`. -/
theorem step6_32_negative_cell :
    (0 < near_max.rows ∧ 0 < near_max.cols ∧
      ∀ i, i < near_max.rows → ∀ j, j < near_max.cols →
        0 ≤ near_max.val i j ∧ near_max.val i j ≤ 2147483647) ∧
    Reach32 new_solver near_max 4 (step6_32 (after_step4_32 near_max).2).2 ∧
    (0 : Nat) < (step6_32 (after_step4_32 near_max).2).2.n ∧
    (1 : Nat) < (step6_32 (after_step4_32 near_max).2).2.n ∧
    (step6_32 (after_step4_32 near_max).2).2.C.val 0 1 < 0 := by
  have hn : (step6_32 (after_step4_32 near_max).2).2.n = 3 := by
    rw [step6_32_eq]; exact near_max_entry.1
  refine ⟨near_max_input, near_max_reach4, by rw [hn]; decide, by rw [hn]; decide, ?_⟩
  rw [near_max_cell]
  decide

end Munkres
